import Mathlib

/-!
# Reed-Solomon decoding over GF(2^m): a shallow embedding of
`GenericGFPoly.cpp` and `ReedSolomonDecoder.cpp`

Field elements are the C++ `int` values, embedded as `Nat`; the only integer
operation the code applies to them besides the field service is bitwise
exclusive-or (`^`), embedded as `^^^` on `Nat`.  A polynomial is its
coefficient vector, highest-degree term first, embedded as `List Nat`.
The two `while` loops of the code (`divide` and the Euclidean loop) take an
explicit iteration budget and report `Result.outOfFuel` when it is used up.
-/

namespace ZXing

/-- Modelled from the spec: the Galois field service (`GenericGF`), whose
source is not part of the translated files.  It is the capability interface
`multiply, inverse, exp, log, size, generatorBase` over elements represented
as integers in `[0, size)`. -/
structure GenericGF where
  size : Nat
  generatorBase : Nat
  multiply : Nat → Nat → Nat
  inverse : Nat → Nat
  exp : Nat → Nat
  log : Nat → Nat

/-- What a call can end with: a normal return, one of the two C++ exceptions
thrown by the translated code, or an exhausted iteration budget. -/
inductive Result (α : Type) where
  | ok : α → Result α
  | invalidArgument : Result α
  | runtimeError : Result α
  | outOfFuel : Result α
  deriving DecidableEq, Repr

namespace GenericGFPoly

/-- Modelled from the spec: `degree()` of the class header, `length - 1`
(a polynomial's coefficient vector is never empty). -/
def degree (c : List Nat) : Nat := c.length - 1

/-- Modelled from the spec: `coefficient(d)` of the class header, the
coefficient of `x^d`, stored at index `length - 1 - d`. -/
def coefficient (c : List Nat) (d : Nat) : Nat := c.getD (c.length - 1 - d) 0

/-- Modelled from the spec: `isZero()` of the class header; the zero
polynomial is the one whose first (leading) coefficient is `0`, which for a
normalized vector is exactly `[0]`. -/
def isZero (c : List Nat) : Bool := c.headD 0 == 0

/-- Modelled from the spec: `setMonomial(coefficient, degree)` of the class
header, the vector of `coefficient * x^degree`. -/
def setMonomial (coefficient : Nat) (degree : Nat := 0) : List Nat :=
  coefficient :: List.replicate degree 0

/-- `GenericGFPoly::normalize`. -/
def normalize (c : List Nat) : List Nat :=
  let firstNonZero := c.dropWhile (fun x => x == 0)
  if firstNonZero.length = c.length then c
  else if firstNonZero = [] then [0]
  else firstNonZero

/-- `GenericGFPoly::evaluateAt`. -/
def evaluateAt (F : GenericGF) (c : List Nat) (a : Nat) : Nat :=
  if a = 0 then coefficient c 0
  else if a = 1 then c.foldl (fun x y => x ^^^ y) 0
  else c.tail.foldl (fun result ci => F.multiply a result ^^^ ci) (c.headD 0)

/-- `GenericGFPoly::addOrSubtract`: returns the new coefficient vectors of
the receiver and of the argument (the call may move storage between them). -/
def addOrSubtract (self other : List Nat) : List Nat × List Nat :=
  if isZero self then (other, self)
  else if isZero other then (self, other)
  else
    let smallerCoefs := if other.length > self.length then self else other
    let largerCoefs := if other.length > self.length then other else self
    let lengthDiff := largerCoefs.length - smallerCoefs.length
    (normalize (largerCoefs.take lengthDiff ++
        List.zipWith (fun x y => x ^^^ y) (largerCoefs.drop lengthDiff) smallerCoefs),
      smallerCoefs)

/-- The statement `cache[k] ^= v` on a coefficient vector. -/
def xorAt (cache : List Nat) (k v : Nat) : List Nat :=
  cache.set k (cache.getD k 0 ^^^ v)

/-- The double loop of `GenericGFPoly::multiply` filling `_cache`. -/
def multiplyLoop (F : GenericGF) (a b : List Nat) : List Nat :=
  (List.range a.length).foldl
    (fun cache i =>
      (List.range b.length).foldl
        (fun cache j => xorAt cache (i + j) (F.multiply (a.getD i 0) (b.getD j 0)))
        cache)
    (List.replicate (a.length + b.length - 1) 0)

/-- `GenericGFPoly::multiply`. -/
def multiply (F : GenericGF) (self other : List Nat) : List Nat :=
  if isZero self || isZero other then setMonomial 0
  else normalize (multiplyLoop F self other)

/-- `GenericGFPoly::multiplyByMonomial`. -/
def multiplyByMonomial (F : GenericGF) (self : List Nat) (degree coefficient : Nat) :
    List Nat :=
  if coefficient = 0 then setMonomial 0
  else normalize (self.map (fun c => F.multiply c coefficient) ++ List.replicate degree 0)

/-- The `while` loop of `GenericGFPoly::divide` on the pair
`(quotient, remainder)`, with an iteration budget. -/
def divideLoop (F : GenericGF) (other : List Nat) (inverseDenominatorLeadingTerm : Nat) :
    Nat → List Nat → List Nat → Result (List Nat × List Nat)
  | 0, _, _ => Result.outOfFuel
  | fuel + 1, quotient, remainder =>
    if degree remainder ≥ degree other ∧ ¬ isZero remainder then
      let degreeDifference := degree remainder - degree other
      let scale := F.multiply (coefficient remainder (degree remainder))
        inverseDenominatorLeadingTerm
      let temp := setMonomial scale degreeDifference
      let quotient := (addOrSubtract quotient temp).1
      let temp := multiplyByMonomial F other degreeDifference scale
      let remainder := (addOrSubtract remainder temp).1
      divideLoop F other inverseDenominatorLeadingTerm fuel quotient remainder
    else Result.ok (quotient, remainder)

/-- `GenericGFPoly::divide`: returns `(quotient, remainder)`; the remainder is
what the call leaves in the receiver. -/
def divide (F : GenericGF) (fuel : Nat) (self other : List Nat) :
    Result (List Nat × List Nat) :=
  if isZero other then Result.invalidArgument
  else
    divideLoop F other (F.inverse (coefficient other (degree other))) fuel
      (setMonomial 0) self

end GenericGFPoly

open GenericGFPoly

/-- The registers of the Euclidean loop. -/
structure EuclidState where
  rLast : List Nat
  r : List Nat
  tLast : List Nat
  t : List Nat
  deriving DecidableEq, Repr

/-- The `while` loop of `RunEuclideanAlgorithm`, with an iteration budget;
`none` is the early `return false`. -/
def euclidLoop (F : GenericGF) (divFuel R : Nat) :
    Nat → EuclidState → Result (Option EuclidState)
  | 0, _ => Result.outOfFuel
  | fuel + 1, s =>
    if degree s.r ≥ R / 2 then
      let tLast := s.t
      let t := s.tLast
      let rLast := s.r
      let r := s.rLast
      if isZero rLast then Result.ok none
      else
        match divide F divFuel r rLast with
        | Result.ok (q, r) =>
          let q := multiply F q tLast
          let q := (addOrSubtract q t).1
          let t := q
          if degree r ≥ degree rLast then Result.runtimeError
          else euclidLoop F divFuel R fuel ⟨rLast, r, tLast, t⟩
        | Result.invalidArgument => Result.invalidArgument
        | Result.runtimeError => Result.runtimeError
        | Result.outOfFuel => Result.outOfFuel
    else Result.ok (some s)

/-- `RunEuclideanAlgorithm`: `none` for `false`, `some (sigma, omega)` for
`true`. -/
def RunEuclideanAlgorithm (F : GenericGF) (fuel : Nat) (rCoefs : List Nat) (R : Nat) :
    Result (Option (List Nat × List Nat)) :=
  let r := normalize rCoefs
  let rLast := setMonomial 1 R
  let tLast := setMonomial 0
  let t := setMonomial 1
  let s : EuclidState :=
    if degree r ≥ degree rLast then ⟨r, rLast, tLast, t⟩ else ⟨rLast, r, tLast, t⟩
  match euclidLoop F fuel R fuel s with
  | Result.ok none => Result.ok none
  | Result.ok (some s) =>
    let sigmaTildeAtZero := coefficient s.t 0
    if sigmaTildeAtZero = 0 then Result.ok none
    else
      let inverse := F.inverse sigmaTildeAtZero
      Result.ok (some (multiplyByMonomial F s.t 0 inverse, multiplyByMonomial F s.r 0 inverse))
  | Result.invalidArgument => Result.invalidArgument
  | Result.runtimeError => Result.runtimeError
  | Result.outOfFuel => Result.outOfFuel

/-- The search loop of `FindErrorLocations` (Chien search). -/
def chienLoop (F : GenericGF) (errorLocator : List Nat) (numErrors : Nat) : List Nat :=
  (List.range' 1 (F.size - 1)).foldl
    (fun res i =>
      if res.length < numErrors ∧ evaluateAt F errorLocator i = 0 then res ++ [F.inverse i]
      else res)
    []

/-- `FindErrorLocations`. -/
def FindErrorLocations (F : GenericGF) (errorLocator : List Nat) : List Nat :=
  let numErrors := degree errorLocator
  let res := chienLoop F errorLocator numErrors
  if res.length ≠ numErrors then [] else res

/-- The inner loop of `FindErrorMagnitudes` computing `denom` for index `i`. -/
def forneyDenominator (F : GenericGF) (errorLocations : List Nat) (i xiInverse : Nat) : Nat :=
  (List.range errorLocations.length).foldl
    (fun denom j =>
      if i ≠ j then F.multiply denom (1 ^^^ F.multiply (errorLocations.getD j 0) xiInverse)
      else denom)
    1

/-- `FindErrorMagnitudes` (Forney's formula). -/
def FindErrorMagnitudes (F : GenericGF) (errorEvaluator errorLocations : List Nat) :
    List Nat :=
  (List.range errorLocations.length).map fun i =>
    let xiInverse := F.inverse (errorLocations.getD i 0)
    let denom := forneyDenominator F errorLocations i xiInverse
    let res := F.multiply (evaluateAt F errorEvaluator xiInverse) (F.inverse denom)
    if F.generatorBase ≠ 0 then F.multiply res xiInverse else res

/-- The syndrome vector built by `ReedSolomonDecode`:
`syndromes[twoS - 1 - i] = poly.evaluateAt(exp(i + generatorBase))`. -/
def syndromeCoefficients (F : GenericGF) (poly : List Nat) (twoS : Nat) : List Nat :=
  ((List.range twoS).map fun i => evaluateAt F poly (F.exp (i + F.generatorBase))).reverse

/-- The correction loop of `ReedSolomonDecode` from index `i` on. -/
def correctionLoop (F : GenericGF) (errorLocations errorMagnitudes : List Nat)
    (receivedCount : Nat) : Nat → Nat → List Nat → Bool × List Nat
  | 0, _, received => (true, received)
  | n + 1, i, received =>
    let position : Int := (receivedCount : Int) - 1 - (F.log (errorLocations.getD i 0) : Int)
    if position < 0 then (false, received)
    else
      correctionLoop F errorLocations errorMagnitudes receivedCount n (i + 1)
        (xorAt received position.toNat (errorMagnitudes.getD i 0))

/-- `ReedSolomonDecode`: the returned flag and the contents of `received`
after the call. -/
def ReedSolomonDecode (F : GenericGF) (fuel : Nat) (received : List Nat) (twoS : Nat) :
    Result (Bool × List Nat) :=
  let poly := normalize received
  let syndromes := syndromeCoefficients F poly twoS
  if syndromes.all (fun c => c == 0) then Result.ok (true, received)
  else
    match RunEuclideanAlgorithm F fuel syndromes twoS with
    | Result.ok none => Result.ok (false, received)
    | Result.ok (some (sigma, omega)) =>
      let errorLocations := FindErrorLocations F sigma
      if errorLocations.isEmpty then Result.ok (false, received)
      else
        let errorMagnitudes := FindErrorMagnitudes F omega errorLocations
        Result.ok (correctionLoop F errorLocations errorMagnitudes received.length
          errorLocations.length 0 received)
    | Result.invalidArgument => Result.invalidArgument
    | Result.runtimeError => Result.runtimeError
    | Result.outOfFuel => Result.outOfFuel

/-! ## Specification-side notions -/

/-- The assumption "field arithmetic is correct": the service really is a
field on the integers `[0, size)` whose addition is exclusive-or, `exp` lists
the powers of a primitive element and `log` inverts it on `[0, size - 1)`. -/
structure GenericGF.Lawful (F : GenericGF) : Prop where
  one_lt_size : 1 < F.size
  xor_lt : ∀ a b, a < F.size → b < F.size → a ^^^ b < F.size
  mul_lt : ∀ a b, a < F.size → b < F.size → F.multiply a b < F.size
  mul_zero : ∀ a, F.multiply a 0 = 0
  zero_mul : ∀ a, F.multiply 0 a = 0
  mul_one : ∀ a, a < F.size → F.multiply a 1 = a
  mul_comm : ∀ a b, a < F.size → b < F.size → F.multiply a b = F.multiply b a
  mul_assoc : ∀ a b c, a < F.size → b < F.size → c < F.size →
    F.multiply (F.multiply a b) c = F.multiply a (F.multiply b c)
  mul_xor : ∀ a b c, a < F.size → b < F.size → c < F.size →
    F.multiply a (b ^^^ c) = F.multiply a b ^^^ F.multiply a c
  inverse_lt : ∀ a, 0 < a → a < F.size → F.inverse a < F.size
  mul_inverse : ∀ a, 0 < a → a < F.size → F.multiply a (F.inverse a) = 1
  exp_lt : ∀ i, F.exp i < F.size
  exp_pos : ∀ i, 0 < F.exp i
  exp_zero : F.exp 0 = 1
  exp_succ : ∀ i, F.exp (i + 1) = F.multiply (F.exp i) (F.exp 1)
  log_lt : ∀ a, 0 < a → a < F.size → F.log a < F.size - 1
  exp_log : ∀ a, 0 < a → a < F.size → F.exp (F.log a) = a
  log_exp : ∀ i, i < F.size - 1 → F.log (F.exp i) = i

/-- Every entry of the vector is a field element. -/
def InField (F : GenericGF) (c : List Nat) : Prop := ∀ x ∈ c, x < F.size

instance (F : GenericGF) (c : List Nat) : Decidable (InField F c) := by
  unfold InField
  infer_instance

/-- The normalization invariant of the data model: a non-empty coefficient
vector whose first coefficient is nonzero unless the vector is exactly `[0]`. -/
def IsNormalized (c : List Nat) : Prop :=
  c ≠ [] ∧ (c.headD 0 = 0 → c = [0])

instance (c : List Nat) : Decidable (IsNormalized c) := by
  unfold IsNormalized
  infer_instance

/-- The coefficient of `x^d` of a coefficient vector, `0` above its length. -/
def coeffAt (c : List Nat) (d : Nat) : Nat := c.reverse.getD d 0

/-- Coefficient-wise exclusive-or of two vectors aligned at the constant-term
end: the shorter one is padded with leading zeros. -/
def xorAligned (a b : List Nat) : List Nat :=
  List.zipWith (fun x y => x ^^^ y)
    (List.replicate (max a.length b.length - a.length) 0 ++ a)
    (List.replicate (max a.length b.length - b.length) 0 ++ b)

/-- The exclusive-or of all `field.multiply(a[i], b[j])` with `i + j = k`. -/
def convCoeff (F : GenericGF) (a b : List Nat) (k : Nat) : Nat :=
  ((List.range a.length).filter (fun i => i ≤ k ∧ k - i < b.length)).foldl
    (fun acc i => acc ^^^ F.multiply (a.getD i 0) (b.getD (k - i) 0)) 0

/-- The `k`-th syndrome of a codeword, as `ReedSolomonDecode` computes it:
`poly.evaluateAt(exp(k + generatorBase))` for the polynomial built from the
codeword. -/
def syndrome (F : GenericGF) (codeword : List Nat) (k : Nat) : Nat :=
  evaluateAt F (normalize codeword) (F.exp (k + F.generatorBase))

/-- All `twoS` syndromes of the codeword are zero. -/
def IsValidCodeword (F : GenericGF) (codeword : List Nat) (twoS : Nat) : Prop :=
  ∀ k, k < twoS → syndrome F codeword k = 0

instance (F : GenericGF) (codeword : List Nat) (twoS : Nat) :
    Decidable (IsValidCodeword F codeword twoS) := by
  unfold IsValidCodeword
  infer_instance

/-- The number of positions in which two words of the same length differ. -/
def hammingDistance (a b : List Nat) : Nat :=
  ((List.zip a b).filter (fun p => p.1 != p.2)).length

/-! ## Concrete fields -/

/-- Modelled from the spec: the antilog table of a field of `size` elements
with the given primitive polynomial, the successive powers of the element `2`
(`x *= 2`, then `x ^= primitive; x &= size - 1` when `x >= size`). -/
def expTable (primitive size : Nat) : List Nat :=
  List.iterate
    (fun x => if 2 * x ≥ size then (2 * x ^^^ primitive) &&& (size - 1) else 2 * x) 1 size

/-- Modelled from the spec: the log table, `logTable[expTable[i]] = i` for
`i < size - 1`; the unused entry `logTable[0]` is `0`. -/
def logTable (primitive size : Nat) : List Nat :=
  (List.range size).map fun a =>
    if a = 0 then 0 else ((expTable primitive size).take (size - 1)).indexOf a

/-- A table stored in one number, entry `i` in the bits
`[width * i, width * (i + 1))`. -/
def packTable (width : Nat) (entries : List Nat) : Nat :=
  entries.foldr (fun e acc => e + (acc <<< width)) 0

/-- Entry `i` of a packed table. -/
def unpack (width table i : Nat) : Nat := (table >>> (width * i)) % 2 ^ width

/-- Modelled from the spec: a field service driven by an antilog function `E`
and a log function `Lg`; `exp` takes its argument modulo the order `size - 1`
of the multiplicative group, products and inverses add and negate logs, and a
product with `0` is `0`. -/
def logField (E Lg : Nat → Nat) (size generatorBase : Nat) : GenericGF :=
  { size := size
    generatorBase := generatorBase
    exp := fun i => E (i % (size - 1))
    log := Lg
    inverse := fun a => E ((size - 1 - Lg a) % (size - 1))
    multiply := fun a b => if a = 0 ∨ b = 0 then 0 else E ((Lg a + Lg b) % (size - 1)) }

/-- A finite certificate that a field service describes a field of
`size = 2^m` elements: the antilog function enumerates the nonzero elements,
`log` inverts it, and multiplication by the generator is additive on the
basis `2^j`. -/
def fieldCheck (F : GenericGF) (m : Nat) : Bool :=
  (F.size == 2 ^ m) && decide (1 ≤ m) && (F.exp 0 == 1) &&
  (List.range (F.size - 1)).all
    (fun i => decide (0 < F.exp i) && decide (F.exp i < F.size) && (F.log (F.exp i) == i)) &&
  (List.range F.size).all
    (fun a => (a == 0) || (decide (F.log a < F.size - 1) && (F.exp (F.log a) == a))) &&
  (List.range F.size).all
    (fun b => (List.range m).all
      (fun j => F.multiply (F.exp 1) (b ^^^ 2 ^ j)
        == F.multiply (F.exp 1) b ^^^ F.multiply (F.exp 1) (2 ^ j)))

/-- The packed antilog table of GF(2^8) with primitive polynomial `0x11D`. -/
def qrExpTable : Nat :=
  0x18e47add86c361b83cfe9fa7db0582c160b8bcbebfbf3f7f5f47a3d90482412098a45ac562b9bc3eff9f279b259a251a653a7dde070381c0e078dc86432198241ae57a5dc6e3795c46231964babdbe3fff1f67bb3d7e5fc7e3f91c663bfd1e673b7d5e472399249aa55a452299a4da8542a158442219e4fa9da6db85c2e1785cc663397c5ec763b93c7edf87c3e1f81ce67bdd068341a0d884422118643afd9e271b65ba3dfe1fe7fb1d66bbbd3e7fdf0783c1e0f89ca65bc5e2f99c261be5fa1de6fb9d269ba5da05028140a058c46239fc1ee77b5d46a35944a259c4e279dc06030180c06038fc9ea75b45a2d984c261387cde8743a1d8040201008040201

/-- The packed log table of GF(2^8) with primitive polynomial `0x11D`. -/
def qrLogTable : Nat :=
  0xaf5850a8eaf4d674e8ade7e6e9d5ae4fd72c757aeb16f50b51a0a99cb05f59cb5a3eccbbb18660fbaa559d29523ba16cf66f0c7fec4917c476a47bb7d8432d1fa2416d4753393c849e5d2a14abd356f261befcdcb2978790cdcfbc955bd13f372e892023d99244117cb4b8267799a5e318fec531edde4a670d63808cf7c0700757a7f373ace5d44e2b79150a9f9b5eca3dba85fa54283a6b6e7e48c3a3b6421e404638835c13d2f1bddb968fce94d03688229110b32598e2fd30dd66628bbf06a672e44d78099ac9b9f9276a7dc2b51d458212f0da8e9335210f24e12f658a05714c08c8f869c11c81ef8d340ee064044bc7681bee33df03c61a320219010000

/-- The QR-code field GF(2^8): primitive polynomial `0x11D`, generator base 0. -/
def qrField : GenericGF := logField (unpack 8 qrExpTable) (unpack 8 qrLogTable) 256 0

/-- The packed antilog table of GF(2^4) with primitive polynomial `0x13`. -/
def aztecParamExpTable : Nat := 0x19dfe7a5bc638421

/-- The packed log table of GF(2^4) with primitive polynomial `0x13`. -/
def aztecParamLogTable : Nat := 0xcbd679e3a5824100

/-- The Aztec parameter field GF(2^4): primitive polynomial `0x13`, generator base 1. -/
def aztecParamField : GenericGF :=
  logField (unpack 4 aztecParamExpTable) (unpack 4 aztecParamLogTable) 16 1

/-! ## The field and the polynomials the vectors stand for -/

/-- The elements of the field: the integers below `size`. -/
def GFElem (F : GenericGF) : Type := { x : Nat // x < F.size }

instance (F : GenericGF) : DecidableEq (GFElem F) := by
  unfold GFElem
  infer_instance

instance GFElem.instZero (F : GenericGF) [hF : Fact F.Lawful] : Zero (GFElem F) :=
  ⟨⟨0, Nat.lt_trans Nat.zero_lt_one hF.out.one_lt_size⟩⟩

instance GFElem.instOne (F : GenericGF) [hF : Fact F.Lawful] : One (GFElem F) :=
  ⟨⟨1, hF.out.one_lt_size⟩⟩

instance GFElem.instAdd (F : GenericGF) [hF : Fact F.Lawful] : Add (GFElem F) :=
  ⟨fun a b => ⟨a.1 ^^^ b.1, hF.out.xor_lt _ _ a.2 b.2⟩⟩

instance GFElem.instNeg (F : GenericGF) : Neg (GFElem F) := ⟨fun a => a⟩

instance GFElem.instMul (F : GenericGF) [hF : Fact F.Lawful] : Mul (GFElem F) :=
  ⟨fun a b => ⟨F.multiply a.1 b.1, hF.out.mul_lt _ _ a.2 b.2⟩⟩

instance GFElem.instInv (F : GenericGF) [hF : Fact F.Lawful] : Inv (GFElem F) :=
  ⟨fun a => if h : a.1 = 0 then 0 else ⟨F.inverse a.1, hF.out.inverse_lt _ (Nat.pos_of_ne_zero h) a.2⟩⟩

/-- The commutative ring the service describes on `[0, size)`: addition is
exclusive-or, multiplication is the service's. -/
instance GFElem.instCommRing (F : GenericGF) [hF : Fact F.Lawful] : CommRing (GFElem F) where
  add_assoc a b c := Subtype.ext (Nat.xor_assoc _ _ _)
  zero_add a := Subtype.ext (Nat.zero_xor _)
  add_zero a := Subtype.ext (Nat.xor_zero _)
  add_comm a b := Subtype.ext (Nat.xor_comm _ _)
  neg_add_cancel a := Subtype.ext (Nat.xor_self _)
  mul_assoc a b c := Subtype.ext (hF.out.mul_assoc _ _ _ a.2 b.2 c.2)
  one_mul a := Subtype.ext (by
    show F.multiply 1 a.1 = a.1
    rw [hF.out.mul_comm _ _ hF.out.one_lt_size a.2, hF.out.mul_one _ a.2])
  mul_one a := Subtype.ext (hF.out.mul_one _ a.2)
  mul_comm a b := Subtype.ext (hF.out.mul_comm _ _ a.2 b.2)
  zero_mul a := Subtype.ext (hF.out.zero_mul _)
  mul_zero a := Subtype.ext (hF.out.mul_zero _)
  left_distrib a b c := Subtype.ext (hF.out.mul_xor _ _ _ a.2 b.2 c.2)
  right_distrib a b c := Subtype.ext (by
    show F.multiply (a.1 ^^^ b.1) c.1 = F.multiply a.1 c.1 ^^^ F.multiply b.1 c.1
    rw [hF.out.mul_comm _ _ (hF.out.xor_lt _ _ a.2 b.2) c.2, hF.out.mul_xor _ _ _ c.2 a.2 b.2,
      hF.out.mul_comm _ _ c.2 a.2, hF.out.mul_comm _ _ c.2 b.2])
  nsmul := nsmulRec
  zsmul := zsmulRec

/-- The field the service describes on `[0, size)`. -/
instance GFElem.instField (F : GenericGF) [hF : Fact F.Lawful] : Field (GFElem F) where
  exists_pair_ne := ⟨0, 1, fun h => absurd (congrArg Subtype.val h) (by
    show ¬ ((0 : Nat) = 1)
    decide)⟩
  mul_inv_cancel a ha := Subtype.ext (by
    have h0 : a.1 ≠ 0 := fun h => ha (Subtype.ext h)
    show F.multiply a.1 (if h : a.1 = 0 then (0 : GFElem F) else _).1 = 1
    rw [dif_neg h0]
    exact hF.out.mul_inverse _ (Nat.pos_of_ne_zero h0) a.2)
  inv_zero := by
    show (if h : (0 : Nat) = 0 then (0 : GFElem F) else _) = _
    rw [dif_pos rfl]
  nnqsmul := _
  qsmul := _
  nnqsmul_def := fun _ _ => rfl
  qsmul_def := fun _ _ => rfl

/-- The field element an integer stands for (`0` outside `[0, size)`). -/
def toElem (F : GenericGF) [Fact F.Lawful] (x : Nat) : GFElem F :=
  if h : x < F.size then ⟨x, h⟩ else 0

/-- The polynomial a coefficient vector (highest degree first) stands for. -/
noncomputable def toPoly (F : GenericGF) [Fact F.Lawful] (c : List Nat) :
    Polynomial (GFElem F) :=
  c.foldl (fun p x => p * Polynomial.X + Polynomial.C (toElem F x)) 0

/-- The invariant of the Euclidean loop for the syndrome polynomial `S`:
the registers are normalized vectors of field elements, `r` and `rLast` are
combinations `u * x^R + t * S` of `x^R` and `S` with cofactors `t`, `tLast`
(the cofactors `u` are not stored by the code), consecutive cofactor pairs
have determinant `1`, and the degrees are linked. -/
structure EuclidInv (F : GenericGF) [Fact F.Lawful] (S : Polynomial (GFElem F)) (R : Nat)
    (s : EuclidState) : Prop where
  nr : IsNormalized s.r
  fr : InField F s.r
  nrLast : IsNormalized s.rLast
  frLast : InField F s.rLast
  nt : IsNormalized s.t
  ft : InField F s.t
  ntLast : IsNormalized s.tLast
  ftLast : InField F s.tLast
  bezout : ∃ u uLast : Polynomial (GFElem F),
    toPoly F s.r = u * Polynomial.X ^ R + toPoly F s.t * S ∧
    toPoly F s.rLast = uLast * Polynomial.X ^ R + toPoly F s.tLast * S ∧
    uLast * toPoly F s.t + u * toPoly F s.tLast = 1
  degT : (toPoly F s.t).natDegree + degree s.rLast ≤ R
  degTLast : (toPoly F s.tLast).natDegree + degree s.rLast ≤ R
  rLastNonzero : isZero s.rLast = false
  rLastLarge : R / 2 ≤ degree s.rLast
  degR : isZero s.r = true ∨ degree s.r < degree s.rLast

/-! ### The locator and evaluator of an error pattern

The pattern is a finite set `P` of error places, with locator `Xf p` and
value `yf p` at place `p`. -/

/-- The error locator polynomial `∏ (1 + X_p x)`. -/
noncomputable def locatorPoly {K : Type} [Field K] (P : Finset Nat) (Xf : Nat → K) :
    Polynomial K :=
  ∏ p in P, (1 + Polynomial.C (Xf p) * Polynomial.X)

/-- The error evaluator polynomial `∑ y_p X_p^g ∏_{q ≠ p} (1 + X_q x)`. -/
noncomputable def evaluatorPoly {K : Type} [Field K] (P : Finset Nat) (Xf yf : Nat → K)
    (g : Nat) : Polynomial K :=
  ∑ p in P, Polynomial.C (yf p * Xf p ^ g)
    * ∏ q in P.erase p, (1 + Polynomial.C (Xf q) * Polynomial.X)

/-- The syndrome polynomial `∑_{i < R} S_i x^i` with
`S_i = ∑ y_p X_p^(i + g)`. -/
noncomputable def syndromePoly {K : Type} [Field K] (P : Finset Nat) (Xf yf : Nat → K)
    (g R : Nat) : Polynomial K :=
  ∑ i in Finset.range R, Polynomial.C (∑ p in P, yf p * Xf p ^ (i + g)) * Polynomial.X ^ i

/-- The places where the received word differs from the codeword. -/
def errPlaces (received c : List Nat) : Finset Nat :=
  (Finset.range received.length).filter (fun p => received.getD p 0 ≠ c.getD p 0)

/-- The locator of place `p` in a word of `n` symbols: the power
`exp(n - 1 - p)` of the generator. -/
def errLocator (F : GenericGF) [Fact F.Lawful] (n : Nat) (p : Nat) : GFElem F :=
  toElem F (F.exp (n - 1 - p))

/-- The error value at place `p`: the difference of the two symbols. -/
def errValue (F : GenericGF) [Fact F.Lawful] (received c : List Nat) (p : Nat) : GFElem F :=
  toElem F (received.getD p 0 ^^^ c.getD p 0)

end ZXing

namespace ZXing

/-! ## Further definitions: explicit object state, specification-side
polynomials and one more field -/

namespace GenericGFPoly

/-- `GenericGFPoly::divide` with the contents of the two objects it writes
made explicit: `self` and `quotient` are what the receiver and the `quotient`
argument hold before the call, and the result is how the call ends together
with what the receiver and the `quotient` argument hold at that moment.  The
exception for a zero divisor is thrown before anything is assigned. -/
def divideInPlace (F : GenericGF) (fuel : Nat) (self other quotient : List Nat) :
    Result Unit × List Nat × List Nat :=
  if isZero other then (Result.invalidArgument, self, quotient)
  else
    let quotient := setMonomial 0
    let remainder := self
    let inverseDenominatorLeadingTerm := F.inverse (coefficient other (degree other))
    match divideLoop F other inverseDenominatorLeadingTerm fuel quotient remainder with
    | Result.ok (quotient, remainder) => (Result.ok (), remainder, quotient)
    | Result.invalidArgument => (Result.invalidArgument, remainder, quotient)
    | Result.runtimeError => (Result.runtimeError, remainder, quotient)
    | Result.outOfFuel => (Result.outOfFuel, remainder, quotient)

/-- The general case of `evaluateAt` as the specification words it, without
the two shortcuts: starting from `coefficients[0]`, fold left to right with
`result = field.multiply(x, result) XOR coefficients[i]`. -/
def hornerFold (F : GenericGF) (c : List Nat) (x : Nat) : Nat :=
  c.tail.foldl (fun result ci => F.multiply x result ^^^ ci) (c.headD 0)

end GenericGFPoly

open GenericGFPoly

/-- The roots of the locator among the field elements `1 .. size - 1`, in
increasing order. -/
def chienRoots (F : GenericGF) (errorLocator : List Nat) : List Nat :=
  (List.range' 1 (F.size - 1)).filter (fun i => evaluateAt F errorLocator i = 0)

/-- The power `x^n` in the field, by repeated `multiply`. -/
def fieldPow (F : GenericGF) (x : Nat) : Nat → Nat
  | 0 => 1
  | n + 1 => F.multiply (fieldPow F x n) x

/-- The product of the factors `1 + X_j x` over the locations other than the
`k`-th, as a coefficient vector built with `multiply`. -/
def locatorWithout (F : GenericGF) (locations : List Nat) (k : Nat) : List Nat :=
  (List.range locations.length).foldl
    (fun acc j => if j ≠ k then multiply F acc [locations.getD j 0, 1] else acc)
    [1]

/-- The true error evaluator of the error pattern with locations `X_k` and
values `e_k` for generator base `g`: the sum over `k` of
`e_k * X_k^g * prod_{j != k} (1 + X_j x)`, as a coefficient vector built with
`multiplyByMonomial` and `addOrSubtract`. -/
def trueEvaluator (F : GenericGF) (g : Nat) (locations values : List Nat) : List Nat :=
  (List.range locations.length).foldl
    (fun acc k =>
      (addOrSubtract acc
        (multiplyByMonomial F (locatorWithout F locations k) 0
          (F.multiply (values.getD k 0) (fieldPow F (locations.getD k 0) g)))).1)
    [0]

/-- Modelled from the spec: the field GF(2^4) with primitive polynomial `0x13`
taken with generator base 2 (the field service accepts any generator base). -/
def gf16Base2Field : GenericGF :=
  logField (unpack 4 aztecParamExpTable) (unpack 4 aztecParamLogTable) 16 2

end ZXing

namespace ZXing

open GenericGFPoly

/-! ## Coefficient vectors: normalization and coefficients -/

theorem dropWhile_zero_decomp (c : List Nat) :
    c = List.replicate (c.length - (c.dropWhile (fun x => x == 0)).length) 0
      ++ c.dropWhile (fun x => x == 0) := by
  induction c with
  | nil => simp
  | cons x xs ih =>
    by_cases hx : x = 0
    · subst hx
      have hle : (xs.dropWhile (fun x => x == 0)).length ≤ xs.length :=
        (List.dropWhile_sublist _).length_le
      simp only [List.dropWhile_cons, beq_self_eq_true, if_true, List.length_cons]
      rw [Nat.succ_sub hle, List.replicate_succ, List.cons_append, ← ih]
    · have : (x == 0) = false := by simpa using hx
      simp [List.dropWhile_cons, this]

theorem dropWhile_zero_head (c : List Nat) :
    (c.dropWhile (fun x => x == 0)).headD 0 = 0 → c.dropWhile (fun x => x == 0) = [] := by
  induction c with
  | nil => simp
  | cons x xs ih =>
    by_cases hx : x = 0
    · subst hx
      simpa [List.dropWhile_cons] using ih
    · have : (x == 0) = false := by simpa using hx
      simp [List.dropWhile_cons, this, hx]

theorem normalize_ne_nil {c : List Nat} (h : c ≠ []) : normalize c ≠ [] := by
  unfold GenericGFPoly.normalize
  simp only
  split_ifs with h1 h2
  · exact h
  · simp
  · exact h2

theorem isNormalized_normalize {c : List Nat} (h : c ≠ []) : IsNormalized (normalize c) := by
  refine ⟨normalize_ne_nil h, ?_⟩
  unfold GenericGFPoly.normalize
  simp only
  split_ifs with h1 h2
  · intro h0
    have hd := dropWhile_zero_decomp c
    rw [h1] at hd
    simp only [Nat.sub_self, List.replicate_zero, List.nil_append] at hd
    have := dropWhile_zero_head c
    rw [← hd] at this
    exact absurd (this h0) h
  · intro _; rfl
  · intro h0
    exact absurd (dropWhile_zero_head c h0) h2

theorem normalize_of_isNormalized {c : List Nat} (h : IsNormalized c) : normalize c = c := by
  obtain ⟨hne, hz⟩ := h
  cases c with
  | nil => exact absurd rfl hne
  | cons x xs =>
    by_cases hx : x = 0
    · subst hx
      have := hz rfl
      rw [this]
      rfl
    · have : (x == 0) = false := by simpa using hx
      simp [GenericGFPoly.normalize, List.dropWhile_cons, this]

theorem coeffAt_replicate_append (k : Nat) (r : List Nat) (d : Nat) :
    coeffAt (List.replicate k 0 ++ r) d = coeffAt r d := by
  unfold coeffAt
  simp only [List.reverse_append, List.reverse_replicate, List.getD_eq_getElem?_getD]
  by_cases hd : d < r.length
  · rw [List.getElem?_append_left (by simpa using hd)]
  · rw [List.getElem?_append_right (by simpa using hd)]
    have h2 : r.reverse[d]? = none := by
      rw [List.getElem?_eq_none_iff]; simpa using hd
    rw [h2]
    rw [List.getElem?_replicate]
    split_ifs <;> rfl

theorem coeffAt_normalize (c : List Nat) (d : Nat) : coeffAt (normalize c) d = coeffAt c d := by
  have hd := dropWhile_zero_decomp c
  unfold GenericGFPoly.normalize
  simp only
  split_ifs with h1 h2
  · rfl
  · rw [h2] at hd
    conv_rhs => rw [hd]
    rw [coeffAt_replicate_append]
    cases d <;> simp [coeffAt]
  · conv_rhs => rw [hd]
    rw [coeffAt_replicate_append]

theorem coeffAt_of_length_le {c : List Nat} {d : Nat} (h : c.length ≤ d) : coeffAt c d = 0 := by
  unfold coeffAt
  rw [List.getD_eq_getElem?_getD, List.getElem?_eq_none_iff.mpr (by simpa using h)]
  rfl

theorem coeffAt_top {c : List Nat} (h : c ≠ []) : coeffAt c (c.length - 1) = c.headD 0 := by
  cases c with
  | nil => exact absurd rfl h
  | cons x xs =>
    unfold coeffAt
    simp [List.getD_eq_getElem?_getD]

theorem eq_of_coeffAt_eq {a b : List Nat} (ha : IsNormalized a) (hb : IsNormalized b)
    (h : ∀ d, coeffAt a d = coeffAt b d) : a = b := by
  have key : ∀ {a b : List Nat}, IsNormalized a → IsNormalized b →
      (∀ d, coeffAt a d = coeffAt b d) → b.length ≤ a.length := by
    intro a b ha hb h
    by_contra hlt
    push_neg at hlt
    have h1 := coeffAt_top hb.1
    have h2 : coeffAt a (b.length - 1) = 0 := coeffAt_of_length_le (by omega)
    rw [← h, h2] at h1
    have hb0 := hb.2 h1.symm
    have hal : a.length = 0 := by rw [hb0] at hlt; simpa using hlt
    exact ha.1 (List.length_eq_zero.mp hal)
  have hlen : a.length = b.length := le_antisymm (key hb ha (fun d => (h d).symm)) (key ha hb h)
  have hrev : a.reverse = b.reverse := by
    apply List.ext_getElem (by simpa using hlen)
    intro i h1 h2
    have := h i
    unfold coeffAt at this
    rw [List.getD_eq_getElem?_getD, List.getD_eq_getElem?_getD,
      List.getElem?_eq_getElem h1, List.getElem?_eq_getElem h2] at this
    simpa using this
  simpa using congrArg List.reverse hrev

end ZXing

namespace ZXing

open GenericGFPoly

/-! ## addOrSubtract -/

theorem coeffAt_zipWith_xor (l1 l2 : List Nat) (h : l1.length = l2.length) (d : Nat) :
    coeffAt (List.zipWith (fun x y => x ^^^ y) l1 l2) d = coeffAt l1 d ^^^ coeffAt l2 d := by
  unfold coeffAt
  rw [List.reverse_zipWith h]
  simp only [List.getD_eq_getElem?_getD, List.getElem?_zipWith]
  by_cases hd : d < l1.length
  · have h1 : d < l1.reverse.length := by simpa using hd
    have h2 : d < l2.reverse.length := by simpa [← h] using hd
    rw [List.getElem?_eq_getElem h1, List.getElem?_eq_getElem h2]
    rfl
  · have h1 : l1.reverse[d]? = none := List.getElem?_eq_none_iff.mpr (by simpa using hd)
    have h2 : l2.reverse[d]? = none := List.getElem?_eq_none_iff.mpr (by simpa [← h] using hd)
    rw [h1, h2]
    rfl

theorem coeffAt_xorAligned (a b : List Nat) (d : Nat) :
    coeffAt (xorAligned a b) d = coeffAt a d ^^^ coeffAt b d := by
  unfold xorAligned
  rw [coeffAt_zipWith_xor _ _ (by simp), coeffAt_replicate_append,
    coeffAt_replicate_append]

theorem zipWith_xor_replicate_zero (l : List Nat) :
    List.zipWith (fun x y => x ^^^ y) l (List.replicate l.length 0) = l := by
  induction l with
  | nil => rfl
  | cons x xs ih => simp [List.replicate_succ, ih]

theorem take_append_zipWith_drop_aux (L S : List Nat) (k : Nat) (h : k + S.length = L.length) :
    L.take k ++ List.zipWith (fun x y => x ^^^ y) (L.drop k) S
      = List.zipWith (fun x y => x ^^^ y) L (List.replicate k 0 ++ S) := by
  have hk : (L.take k).length = k := by
    rw [List.length_take]; omega
  have hL := List.take_append_drop k L
  conv_rhs => arg 2; rw [← hL]
  rw [List.zipWith_append _ _ _ _ _ (by simp [hk])]
  congr 1
  have := zipWith_xor_replicate_zero (L.take k)
  rw [hk] at this
  exact this.symm

theorem take_append_zipWith_drop (L S : List Nat) (h : S.length ≤ L.length) :
    L.take (L.length - S.length) ++
        List.zipWith (fun x y => x ^^^ y) (L.drop (L.length - S.length)) S
      = List.zipWith (fun x y => x ^^^ y) L (List.replicate (L.length - S.length) 0 ++ S) :=
  take_append_zipWith_drop_aux L S _ (by omega)

theorem isZero_eq_of_isNormalized {c : List Nat} (h : IsNormalized c) (hz : isZero c = true) :
    c = [0] := by
  apply h.2
  simpa [isZero] using hz

theorem coeffAt_singleton_zero (d : Nat) : coeffAt [0] d = 0 := by
  cases d <;> simp [coeffAt]

theorem isNormalized_zero : IsNormalized [0] := by decide

theorem addOrSubtract_general {a b : List Nat} (ha : isZero a = false) (hb : isZero b = false) :
    addOrSubtract a b =
      (GenericGFPoly.normalize (xorAligned a b), if b.length > a.length then a else b) := by
  unfold addOrSubtract
  simp only [ha, hb, Bool.false_eq_true, if_false]
  by_cases hlen : b.length > a.length
  · simp only [hlen, if_true]
    rw [take_append_zipWith_drop b a (by omega)]
    unfold xorAligned
    have h1 : max a.length b.length = b.length := by omega
    rw [h1, Nat.sub_self, List.replicate_zero, List.nil_append, List.zipWith_comm]
    simp only [Nat.xor_comm]
  · simp only [hlen, if_false]
    rw [take_append_zipWith_drop a b (by omega)]
    unfold xorAligned
    have h1 : max a.length b.length = a.length := by omega
    rw [h1, Nat.sub_self, List.replicate_zero, List.nil_append]

theorem length_xorAligned (a b : List Nat) :
    (xorAligned a b).length = max a.length b.length := by
  unfold xorAligned
  rw [List.length_zipWith, List.length_append, List.length_append, List.length_replicate,
    List.length_replicate]
  omega

theorem xorAligned_ne_nil {a : List Nat} (b : List Nat) (h : a ≠ []) : xorAligned a b ≠ [] := by
  intro h0
  have := congrArg List.length h0
  rw [length_xorAligned] at this
  have hl : 0 < a.length := List.length_pos.mpr h
  simp only [List.length_nil] at this
  omega

theorem coeffAt_addOrSubtract {a b : List Nat} (ha : IsNormalized a) (hb : IsNormalized b)
    (d : Nat) : coeffAt (addOrSubtract a b).1 d = coeffAt a d ^^^ coeffAt b d := by
  by_cases hza : isZero a = true
  · have := isZero_eq_of_isNormalized ha hza
    subst this
    simp [addOrSubtract, hza, coeffAt_singleton_zero]
  · by_cases hzb : isZero b = true
    · have := isZero_eq_of_isNormalized hb hzb
      subst this
      simp [addOrSubtract, hza, hzb, coeffAt_singleton_zero]
    · rw [addOrSubtract_general (by simpa using hza) (by simpa using hzb)]
      simp only
      rw [coeffAt_normalize, coeffAt_xorAligned]

theorem isNormalized_addOrSubtract_fst {a b : List Nat} (ha : IsNormalized a)
    (hb : IsNormalized b) : IsNormalized (addOrSubtract a b).1 := by
  by_cases hza : isZero a = true
  · simpa [addOrSubtract, hza] using hb
  · by_cases hzb : isZero b = true
    · simpa [addOrSubtract, hza, hzb] using ha
    · rw [addOrSubtract_general (by simpa using hza) (by simpa using hzb)]
      exact isNormalized_normalize (xorAligned_ne_nil b ha.1)

theorem isNormalized_addOrSubtract_snd {a b : List Nat} (ha : IsNormalized a)
    (hb : IsNormalized b) : IsNormalized (addOrSubtract a b).2 := by
  by_cases hza : isZero a = true
  · simpa [addOrSubtract, hza] using ha
  · by_cases hzb : isZero b = true
    · simpa [addOrSubtract, hza, hzb] using hb
    · rw [addOrSubtract_general (by simpa using hza) (by simpa using hzb)]
      simp only
      split_ifs
      · exact ha
      · exact hb

theorem addOrSubtract_fst_eq {a b : List Nat} (ha : IsNormalized a) (hb : IsNormalized b) :
    (addOrSubtract a b).1 = GenericGFPoly.normalize (xorAligned a b) := by
  apply eq_of_coeffAt_eq (isNormalized_addOrSubtract_fst ha hb)
    (isNormalized_normalize (xorAligned_ne_nil b ha.1))
  intro d
  rw [coeffAt_addOrSubtract ha hb, coeffAt_normalize, coeffAt_xorAligned]

theorem addOrSubtract_fst_comm {a b : List Nat} (ha : IsNormalized a) (hb : IsNormalized b) :
    (addOrSubtract a b).1 = (addOrSubtract b a).1 := by
  apply eq_of_coeffAt_eq (isNormalized_addOrSubtract_fst ha hb)
    (isNormalized_addOrSubtract_fst hb ha)
  intro d
  rw [coeffAt_addOrSubtract ha hb, coeffAt_addOrSubtract hb ha, Nat.xor_comm]

theorem addOrSubtract_cancel {a b : List Nat} (ha : IsNormalized a) (hb : IsNormalized b) :
    (addOrSubtract (addOrSubtract a b).1 b).1 = a := by
  apply eq_of_coeffAt_eq
    (isNormalized_addOrSubtract_fst (isNormalized_addOrSubtract_fst ha hb) hb) ha
  intro d
  rw [coeffAt_addOrSubtract (isNormalized_addOrSubtract_fst ha hb) hb,
    coeffAt_addOrSubtract ha hb, Nat.xor_assoc, Nat.xor_self, Nat.xor_zero]

theorem addOrSubtract_cancel_left {a b : List Nat} (ha : IsNormalized a) (hb : IsNormalized b) :
    (addOrSubtract (addOrSubtract a b).1 a).1 = b := by
  apply eq_of_coeffAt_eq
    (isNormalized_addOrSubtract_fst (isNormalized_addOrSubtract_fst ha hb) ha) hb
  intro d
  rw [coeffAt_addOrSubtract (isNormalized_addOrSubtract_fst ha hb) ha,
    coeffAt_addOrSubtract ha hb, Nat.xor_comm (coeffAt a d), Nat.xor_assoc, Nat.xor_self,
    Nat.xor_zero]

end ZXing

namespace ZXing

open GenericGFPoly

/-! ## multiply and multiplyByMonomial on coefficient vectors -/

theorem length_xorAt (cache : List Nat) (k v : Nat) : (xorAt cache k v).length = cache.length := by
  simp [xorAt]

theorem getD_xorAt (cache : List Nat) (k v m : Nat) :
    (xorAt cache k v).getD m 0
      = if m = k ∧ k < cache.length then cache.getD m 0 ^^^ v else cache.getD m 0 := by
  unfold xorAt
  simp only [List.getD_eq_getElem?_getD, List.getElem?_set]
  by_cases hkm : k = m
  · subst hkm
    by_cases hk : k < cache.length
    · simp [hk]
    · have hn : cache[k]? = none := List.getElem?_eq_none_iff.mpr (by omega)
      simp [hk, hn]
  · have : ¬ m = k := fun h => hkm h.symm
    simp [hkm, this]

theorem xorAt_zero (cache : List Nat) (k : Nat) : xorAt cache k 0 = cache := by
  apply List.ext_getElem (length_xorAt _ _ _)
  intro i h1 h2
  have := getD_xorAt cache k 0 i
  rw [List.getD_eq_getElem?_getD, List.getD_eq_getElem?_getD,
    List.getElem?_eq_getElem h1, List.getElem?_eq_getElem h2] at this
  simpa using this

/-- The inner loop: `n` steps `cache[i + j] ^= g j`. -/
theorem length_foldl_xorAt (i : Nat) (g : Nat → Nat) (n : Nat) (cache : List Nat) :
    ((List.range n).foldl (fun c j => xorAt c (i + j) (g j)) cache).length = cache.length := by
  induction n with
  | zero => rfl
  | succ n ih => rw [List.range_succ, List.foldl_append]; simp [length_xorAt, ih]

theorem getD_foldl_xorAt (i : Nat) (g : Nat → Nat) (n : Nat) (cache : List Nat) (k : Nat) :
    ((List.range n).foldl (fun c j => xorAt c (i + j) (g j)) cache).getD k 0
      = if i ≤ k ∧ k - i < n ∧ k < cache.length then cache.getD k 0 ^^^ g (k - i)
        else cache.getD k 0 := by
  induction n with
  | zero => simp
  | succ n ih =>
    rw [List.range_succ, List.foldl_append]
    simp only [List.foldl_cons, List.foldl_nil]
    rw [getD_xorAt, ih, length_foldl_xorAt]
    by_cases h1 : k = i + n ∧ i + n < cache.length
    · obtain ⟨hk, hlt⟩ := h1
      subst hk
      simp [hlt]
    · rw [if_neg h1]
      by_cases h2 : i ≤ k ∧ k - i < n ∧ k < cache.length
      · rw [if_pos h2, if_pos ⟨h2.1, by omega, h2.2.2⟩]
      · rw [if_neg h2, if_neg]
        intro h3
        apply h2
        refine ⟨h3.1, ?_, h3.2.2⟩
        by_contra hc
        apply h1
        exact ⟨by omega, by omega⟩

theorem length_multiplyLoop_aux (F : GenericGF) (a b : List Nat) (m : Nat) (init : List Nat) :
    ((List.range m).foldl
      (fun cache i =>
        (List.range b.length).foldl
          (fun cache j => xorAt cache (i + j) (F.multiply (a.getD i 0) (b.getD j 0)))
          cache) init).length = init.length := by
  induction m with
  | zero => rfl
  | succ m ih =>
    rw [List.range_succ, List.foldl_append]
    simp only [List.foldl_cons, List.foldl_nil]
    rw [length_foldl_xorAt, ih]

theorem length_multiplyLoop (F : GenericGF) (a b : List Nat) :
    (multiplyLoop F a b).length = a.length + b.length - 1 := by
  unfold multiplyLoop
  rw [length_multiplyLoop_aux, List.length_replicate]

theorem getD_multiplyLoop_aux (F : GenericGF) (a b : List Nat) (L m k : Nat) (hk : k < L) :
    ((List.range m).foldl
      (fun cache i =>
        (List.range b.length).foldl
          (fun cache j => xorAt cache (i + j) (F.multiply (a.getD i 0) (b.getD j 0)))
          cache) (List.replicate L 0)).getD k 0
      = ((List.range m).filter (fun i => i ≤ k ∧ k - i < b.length)).foldl
          (fun acc i => acc ^^^ F.multiply (a.getD i 0) (b.getD (k - i) 0)) 0 := by
  induction m with
  | zero =>
    simp [List.getD_eq_getElem?_getD, List.getElem?_replicate, hk]
  | succ m ih =>
    rw [List.range_succ, List.foldl_append, List.filter_append, List.foldl_append]
    simp only [List.foldl_cons, List.foldl_nil]
    rw [getD_foldl_xorAt, ih, length_multiplyLoop_aux, List.length_replicate]
    by_cases hc : m ≤ k ∧ k - m < b.length
    · rw [if_pos ⟨hc.1, hc.2, hk⟩]
      simp [List.filter_cons, hc]
    · rw [if_neg (fun h => hc ⟨h.1, h.2.1⟩)]
      simp [List.filter_cons, hc]

theorem getD_multiplyLoop (F : GenericGF) (a b : List Nat) (k : Nat)
    (hk : k < a.length + b.length - 1) :
    (multiplyLoop F a b).getD k 0 = convCoeff F a b k := by
  unfold multiplyLoop convCoeff
  exact getD_multiplyLoop_aux F a b _ _ k hk

end ZXing

namespace ZXing

open GenericGFPoly

theorem ext_getD_zero {l1 l2 : List Nat} (hl : l1.length = l2.length)
    (h : ∀ k, k < l1.length → l1.getD k 0 = l2.getD k 0) : l1 = l2 := by
  apply List.ext_getElem hl
  intro i h1 h2
  have := h i h1
  rw [List.getD_eq_getElem?_getD, List.getD_eq_getElem?_getD,
    List.getElem?_eq_getElem h1, List.getElem?_eq_getElem h2] at this
  simpa using this

theorem GenericGF.Lawful.one_mul {F : GenericGF} (hF : F.Lawful) {a : Nat} (ha : a < F.size) :
    F.multiply 1 a = a := by
  rw [hF.mul_comm 1 a hF.one_lt_size ha, hF.mul_one a ha]

theorem GenericGF.Lawful.mul_ne_zero {F : GenericGF} (hF : F.Lawful) {x y : Nat}
    (hx : x < F.size) (hy : y < F.size) (hx0 : x ≠ 0) (hy0 : y ≠ 0) : F.multiply x y ≠ 0 := by
  intro h
  have hxpos : 0 < x := Nat.pos_of_ne_zero hx0
  have hi := hF.inverse_lt x hxpos hx
  have h1 : F.multiply (F.multiply (F.inverse x) x) y = 0 := by
    rw [hF.mul_assoc _ _ _ hi hx hy, h, hF.mul_zero]
  rw [hF.mul_comm _ _ hi hx, hF.mul_inverse x hxpos hx, hF.one_mul hy] at h1
  exact hy0 h1

theorem normalize_of_head_ne_zero {c : List Nat} (h : c.headD 0 ≠ 0) :
    GenericGFPoly.normalize c = c := by
  apply normalize_of_isNormalized
  refine ⟨?_, fun h0 => absurd h0 h⟩
  intro hc
  rw [hc] at h
  exact h rfl

theorem headD_eq_getD (c : List Nat) : c.headD 0 = c.getD 0 0 := by
  cases c <;> rfl

theorem convCoeff_zero (F : GenericGF) (a b : List Nat) (ha : a ≠ []) (hb : b ≠ []) :
    convCoeff F a b 0 = F.multiply (a.headD 0) (b.headD 0) := by
  obtain ⟨x, xs, rfl⟩ := List.exists_cons_of_ne_nil ha
  obtain ⟨y, ys, rfl⟩ := List.exists_cons_of_ne_nil hb
  unfold convCoeff
  have hr : List.range (x :: xs).length = 0 :: (List.range xs.length).map Nat.succ := by
    rw [List.length_cons, List.range_succ_eq_map]
  rw [hr, List.filter_cons]
  have hf : ((List.range xs.length).map Nat.succ).filter
      (fun i => decide (i ≤ 0 ∧ 0 - i < (y :: ys).length)) = [] := by
    rw [List.filter_eq_nil_iff]
    intro i hi
    rw [List.mem_map] at hi
    obtain ⟨j, -, rfl⟩ := hi
    simp
  rw [hf]
  simp

theorem multiply_of_nonzero (F : GenericGF) (hF : F.Lawful) {a b : List Nat}
    (ha : IsNormalized a) (hb : IsNormalized b) (hfa : InField F a) (hfb : InField F b)
    (hza : isZero a = false) (hzb : isZero b = false) :
    multiply F a b = multiplyLoop F a b := by
  unfold multiply
  simp only [hza, hzb, Bool.or_self, Bool.false_eq_true, if_false]
  apply normalize_of_head_ne_zero
  have hane := ha.1
  have hbne := hb.1
  have hL : 0 < a.length + b.length - 1 := by
    have := List.length_pos.mpr hane
    have := List.length_pos.mpr hbne
    omega
  rw [headD_eq_getD, getD_multiplyLoop F a b 0 hL, convCoeff_zero F a b hane hbne]
  obtain ⟨x, xs, rfl⟩ := List.exists_cons_of_ne_nil hane
  obtain ⟨y, ys, rfl⟩ := List.exists_cons_of_ne_nil hbne
  simp only [List.headD_cons]
  apply hF.mul_ne_zero (hfa x (by simp)) (hfb y (by simp))
  · simpa [isZero] using hza
  · simpa [isZero] using hzb

/-! ### multiplyByMonomial against multiply -/

theorem multiplyLoop_monomial (F : GenericGF) (hz : ∀ x, F.multiply x 0 = 0)
    (p : List Nat) (d c : Nat) :
    multiplyLoop F p (setMonomial c d)
      = p.map (fun x => F.multiply x c) ++ List.replicate d 0 := by
  have hinner : (fun (cache : List Nat) (i : Nat) =>
      (List.range (setMonomial c d).length).foldl
        (fun cache j => xorAt cache (i + j)
          (F.multiply (p.getD i 0) ((setMonomial c d).getD j 0))) cache)
      = (fun cache i => xorAt cache (0 + i) (F.multiply (p.getD i 0) c)) := by
    funext cache i
    apply ext_getD_zero
    · rw [length_foldl_xorAt, length_xorAt]
    · intro k _
      rw [getD_foldl_xorAt i (fun j => F.multiply (p.getD i 0) ((setMonomial c d).getD j 0)),
        getD_xorAt]
      by_cases hk : k = i
      · subst hk
        by_cases hlt : k < cache.length
        · simp [hlt, setMonomial]
        · simp [hlt]
      · have h1 : ¬ (k = 0 + i ∧ 0 + i < cache.length) := by omega
        rw [if_neg h1]
        split_ifs with h2
        · have h3 : k - i = (k - i - 1) + 1 := by omega
          have hg : (setMonomial c d).getD (k - i) 0 = 0 := by
            rw [h3]
            simp only [setMonomial, List.getD_eq_getElem?_getD, List.getElem?_cons_succ,
              List.getElem?_replicate]
            split_ifs <;> rfl
          show cache.getD k 0 ^^^ F.multiply (p.getD i 0) ((setMonomial c d).getD (k - i) 0) = _
          rw [hg, hz, Nat.xor_zero]
        · rfl
  unfold multiplyLoop
  rw [hinner]
  apply ext_getD_zero
  · rw [length_foldl_xorAt]
    simp [setMonomial]
  · intro k hk
    rw [length_foldl_xorAt, List.length_replicate] at hk
    rw [getD_foldl_xorAt 0 (fun i => F.multiply (p.getD i 0) c)]
    simp only [List.length_replicate, Nat.zero_le, Nat.sub_zero, true_and]
    have h0 : (List.replicate (p.length + (setMonomial c d).length - 1) 0).getD k 0 = 0 := by
      rw [List.getD_eq_getElem?_getD, List.getElem?_replicate]
      split_ifs
      all_goals rfl
    rw [h0]
    by_cases hkp : k < p.length
    · rw [if_pos ⟨hkp, hk⟩]
      simp [List.getD_eq_getElem?_getD, List.getElem?_append_left, hkp]
    · rw [if_neg (fun h => hkp h.1)]
      rw [List.getD_eq_getElem?_getD, List.getElem?_append_right (by simpa using hkp)]
      simp [List.getElem?_replicate]
      split_ifs <;> rfl

theorem multiplyByMonomial_eq_multiply_aux (F : GenericGF) (hz : ∀ x, F.multiply x 0 = 0)
    (hz' : ∀ x, F.multiply 0 x = 0) (p : List Nat) (hp : IsNormalized p) (d c : Nat) :
    multiplyByMonomial F p d c = multiply F p (setMonomial c d) := by
  unfold multiplyByMonomial multiply
  by_cases hc : c = 0
  · subst hc
    simp [isZero, setMonomial]
  · have hzm : isZero (setMonomial c d) = false := by simp [isZero, setMonomial, hc]
    rw [if_neg hc, hzm, Bool.or_false]
    by_cases hzp : isZero p = true
    · have := isZero_eq_of_isNormalized hp hzp
      subst this
      rw [if_pos hzp]
      simp only [List.map_cons, List.map_nil, hz', List.singleton_append]
      have : (0 :: List.replicate d 0) = List.replicate (d + 1) 0 := rfl
      rw [this]
      unfold GenericGFPoly.normalize
      have hdw : (List.replicate (d + 1) 0).dropWhile (fun x => x == 0) = [] := by
        rw [List.dropWhile_eq_nil_iff]
        intro x hx
        simp [List.eq_of_mem_replicate hx]
      simp [hdw, setMonomial]
    · rw [if_neg hzp, multiplyLoop_monomial F hz]

end ZXing

namespace ZXing

/-! ## Table-driven field services are lawful -/

theorem two_pow_add_eq_xor {x j : Nat} (h : x < 2 ^ j) : 2 ^ j + x = 2 ^ j ^^^ x := by
  apply Nat.eq_of_testBit_eq
  intro i
  rw [Nat.testBit_xor, Nat.testBit_two_pow]
  rcases Nat.lt_trichotomy i j with hij | hij | hij
  · rw [Nat.testBit_two_pow_add_gt hij]
    have : decide (j = i) = false := by simp; omega
    rw [this, Bool.false_xor]
  · subst hij
    rw [Nat.testBit_two_pow_add_eq, Nat.testBit_lt_two_pow h]
    simp
  · have h1 : 2 ^ (j + 1) ≤ 2 ^ i := Nat.pow_le_pow_right (by decide) hij
    have h2 : 2 ^ j + x < 2 ^ i := by
      have : 2 ^ (j + 1) = 2 ^ j + 2 ^ j := by rw [Nat.pow_succ]; omega
      omega
    have h3 : x < 2 ^ i := by omega
    rw [Nat.testBit_lt_two_pow h2, Nat.testBit_lt_two_pow h3]
    have : decide (j = i) = false := by simp; omega
    rw [this]
    rfl

theorem xor_additive_of_basis (f : Nat → Nat) (m : Nat) (hf0 : f 0 = 0)
    (hb : ∀ b, b < 2 ^ m → ∀ j, j < m → f (b ^^^ 2 ^ j) = f b ^^^ f (2 ^ j)) :
    ∀ j, j ≤ m → ∀ c, c < 2 ^ j → ∀ b, b < 2 ^ m → f (b ^^^ c) = f b ^^^ f c := by
  intro j
  induction j with
  | zero =>
    intro _ c hc b _
    have : c = 0 := by simpa using hc
    subst this
    rw [Nat.xor_zero, hf0, Nat.xor_zero]
  | succ j ih =>
    intro hj c hc b hbm
    by_cases hlt : c < 2 ^ j
    · exact ih (by omega) c hlt b hbm
    · have hx : c - 2 ^ j < 2 ^ j := by
        have : 2 ^ (j + 1) = 2 ^ j + 2 ^ j := by rw [Nat.pow_succ]; omega
        omega
      have hc' : c = (c - 2 ^ j) ^^^ 2 ^ j := by
        rw [Nat.xor_comm, ← two_pow_add_eq_xor hx]
        omega
      have hjm : 2 ^ j ≤ 2 ^ m := Nat.pow_le_pow_right (by decide) (by omega)
      have hxm : c - 2 ^ j < 2 ^ m := by omega
      have e1 := hb (c - 2 ^ j) hxm j (by omega)
      have hbx : b ^^^ (c - 2 ^ j) < 2 ^ m := Nat.xor_lt_two_pow hbm hxm
      have e2 := hb (b ^^^ (c - 2 ^ j)) hbx j (by omega)
      have e3 := ih (by omega) (c - 2 ^ j) hx b hbm
      have e4 : f c = f (c - 2 ^ j) ^^^ f (2 ^ j) := by
        conv_lhs => rw [hc']
        exact e1
      have e5 : b ^^^ c = (b ^^^ (c - 2 ^ j)) ^^^ 2 ^ j := by
        conv_lhs => rw [hc']
        rw [Nat.xor_assoc]
      rw [e5, e2, e3, e4, Nat.xor_assoc]

/-- What the certificate `fieldCheck` establishes, as propositions. -/
theorem fieldCheck_spec {F : GenericGF} {m : Nat} (h : fieldCheck F m = true) :
    F.size = 2 ^ m ∧ 1 ≤ m ∧ F.exp 0 = 1 ∧
    (∀ i, i < F.size - 1 → 0 < F.exp i ∧ F.exp i < F.size ∧ F.log (F.exp i) = i) ∧
    (∀ a, a < F.size → a ≠ 0 → F.log a < F.size - 1 ∧ F.exp (F.log a) = a) ∧
    (∀ b, b < F.size → ∀ j, j < m →
      F.multiply (F.exp 1) (b ^^^ 2 ^ j)
        = F.multiply (F.exp 1) b ^^^ F.multiply (F.exp 1) (2 ^ j)) := by
  unfold fieldCheck at h
  simp only [Bool.and_eq_true, beq_iff_eq, decide_eq_true_eq, List.all_eq_true,
    List.mem_range, Bool.or_eq_true] at h
  obtain ⟨⟨⟨⟨⟨h1, h2⟩, h3⟩, h4⟩, h5⟩, h6⟩ := h
  refine ⟨h1, h2, h3, ?_, ?_, h6⟩
  · intro i hi
    obtain ⟨⟨a, b⟩, c⟩ := h4 i hi
    exact ⟨a, b, c⟩
  · intro a ha ha0
    rcases h5 a ha with h | h
    · exact absurd h ha0
    · exact h

theorem logField_lawful (E Lg : Nat → Nat) (size base m : Nat)
    (h : fieldCheck (logField E Lg size base) m = true) :
    (logField E Lg size base).Lawful := by
  obtain ⟨hsz, hm, hE0, hE, hL, hB⟩ := fieldCheck_spec h
  simp only [logField] at hsz hE0 hE hL hB
  have hsize2 : 2 ≤ size := by
    rw [hsz]
    calc 2 = 2 ^ 1 := rfl
      _ ≤ 2 ^ m := Nat.pow_le_pow_right (by decide) hm
  have hn : 0 < size - 1 := by omega
  have hmodlt : ∀ i, i % (size - 1) < size - 1 := fun i => Nat.mod_lt _ hn
  -- the antilog function, reduced
  have hEmod : ∀ i, i < size - 1 →
      0 < E i ∧ E i < size ∧ Lg (E i) = i := by
    intro i hi
    have := hE i hi
    rwa [Nat.mod_eq_of_lt hi] at this
  have hLg : ∀ a, a < size → a ≠ 0 → Lg a < size - 1 ∧ E (Lg a) = a := by
    intro a ha ha0
    obtain ⟨h1, h2⟩ := hL a ha ha0
    rw [Nat.mod_eq_of_lt h1] at h2
    exact ⟨h1, h2⟩
  have hE0' : E 0 = 1 := by simpa using hE0
  have hLg1 : Lg 1 = 0 := by
    have := (hEmod 0 hn).2.2
    rwa [hE0'] at this
  -- multiplication
  have mul_def : ∀ a b, (logField E Lg size base).multiply a b
      = if a = 0 ∨ b = 0 then 0 else E ((Lg a + Lg b) % (size - 1)) := fun _ _ => rfl
  have mul_nz : ∀ a b, a ≠ 0 → b ≠ 0 → (logField E Lg size base).multiply a b
      = E ((Lg a + Lg b) % (size - 1)) := by
    intro a b ha hb
    rw [mul_def, if_neg (by tauto)]
  have mul_pos : ∀ a b, a ≠ 0 → b ≠ 0 → (logField E Lg size base).multiply a b ≠ 0 := by
    intro a b ha hb
    rw [mul_nz a b ha hb]
    exact Nat.pos_iff_ne_zero.mp (hEmod _ (hmodlt _)).1
  have mul_lt : ∀ a b, a < size → b < size →
      (logField E Lg size base).multiply a b < size := by
    intro a b _ _
    rw [mul_def]
    split_ifs
    · omega
    · exact (hEmod _ (hmodlt _)).2.1
  have mul_zero : ∀ a, (logField E Lg size base).multiply a 0 = 0 := by
    intro a; rw [mul_def, if_pos (Or.inr rfl)]
  have zero_mul : ∀ a, (logField E Lg size base).multiply 0 a = 0 := by
    intro a; rw [mul_def, if_pos (Or.inl rfl)]
  have mul_comm : ∀ a b, (logField E Lg size base).multiply a b
      = (logField E Lg size base).multiply b a := by
    intro a b
    by_cases ha : a = 0 <;> by_cases hb : b = 0 <;> simp [mul_def, ha, hb, Nat.add_comm]
  have mul_one : ∀ a, a < size → (logField E Lg size base).multiply a 1 = a := by
    intro a ha
    by_cases ha0 : a = 0
    · subst ha0; exact zero_mul 1
    · rw [mul_nz a 1 ha0 (by decide), hLg1, Nat.add_zero,
        Nat.mod_eq_of_lt (hLg a ha ha0).1, (hLg a ha ha0).2]
  have log_mul : ∀ a b, a < size → b < size → a ≠ 0 → b ≠ 0 →
      Lg ((logField E Lg size base).multiply a b) = (Lg a + Lg b) % (size - 1) := by
    intro a b _ _ ha0 hb0
    rw [mul_nz a b ha0 hb0]
    exact (hEmod _ (hmodlt _)).2.2
  have mul_assoc : ∀ a b c, a < size → b < size → c < size →
      (logField E Lg size base).multiply ((logField E Lg size base).multiply a b) c
        = (logField E Lg size base).multiply a ((logField E Lg size base).multiply b c) := by
    intro a b c ha hb hc
    by_cases ha0 : a = 0
    · subst ha0; simp only [zero_mul, mul_zero]
    by_cases hb0 : b = 0
    · subst hb0; simp only [zero_mul, mul_zero]
    by_cases hc0 : c = 0
    · subst hc0; simp only [zero_mul, mul_zero]
    rw [mul_nz _ c (mul_pos a b ha0 hb0) hc0, mul_nz a _ ha0 (mul_pos b c hb0 hc0),
      log_mul a b ha hb ha0 hb0, log_mul b c hb hc hb0 hc0, Nat.mod_add_mod, Nat.add_mod_mod,
      Nat.add_assoc]
  -- powers of the generator
  have exp_def : ∀ i, (logField E Lg size base).exp i = E (i % (size - 1)) := fun _ => rfl
  have exp_lt : ∀ i, (logField E Lg size base).exp i < size := fun i =>
    (hEmod _ (hmodlt i)).2.1
  have exp_pos : ∀ i, 0 < (logField E Lg size base).exp i := fun i =>
    (hEmod _ (hmodlt i)).1
  have exp_add : ∀ i j, (logField E Lg size base).exp (i + j)
      = (logField E Lg size base).multiply ((logField E Lg size base).exp i)
          ((logField E Lg size base).exp j) := by
    intro i j
    rw [mul_nz _ _ (Nat.pos_iff_ne_zero.mp (exp_pos i)) (Nat.pos_iff_ne_zero.mp (exp_pos j)),
      exp_def, exp_def, exp_def, (hEmod _ (hmodlt i)).2.2, (hEmod _ (hmodlt j)).2.2,
      ← Nat.add_mod]
  -- multiplication by the generator is additive
  have hgen : ∀ b c, b < size → c < size →
      (logField E Lg size base).multiply ((logField E Lg size base).exp 1) (b ^^^ c)
        = (logField E Lg size base).multiply ((logField E Lg size base).exp 1) b
          ^^^ (logField E Lg size base).multiply ((logField E Lg size base).exp 1) c := by
    intro b c hb hc
    rw [hsz] at hb hc
    exact xor_additive_of_basis
      (fun x => (logField E Lg size base).multiply ((logField E Lg size base).exp 1) x) m
      (mul_zero _) (fun b hb j hj => hB b (by rw [hsz]; exact hb) j hj) m (le_refl m) c hc b hb
  have xor_lt : ∀ a b, a < size → b < size → a ^^^ b < size := by
    intro a b ha hb
    rw [hsz] at ha hb ⊢
    exact Nat.xor_lt_two_pow ha hb
  have hpow : ∀ k b c, b < size → c < size →
      (logField E Lg size base).multiply ((logField E Lg size base).exp k) (b ^^^ c)
        = (logField E Lg size base).multiply ((logField E Lg size base).exp k) b
          ^^^ (logField E Lg size base).multiply ((logField E Lg size base).exp k) c := by
    intro k
    induction k with
    | zero =>
      intro b c hb hc
      have h1 : (logField E Lg size base).exp 0 = 1 := hE0
      rw [h1, mul_comm 1, mul_comm 1 b, mul_comm 1 c, mul_one _ (xor_lt b c hb hc),
        mul_one b hb, mul_one c hc]
    | succ k ih =>
      intro b c hb hc
      have hstep : ∀ x, x < size →
          (logField E Lg size base).multiply ((logField E Lg size base).exp (k + 1)) x
            = (logField E Lg size base).multiply ((logField E Lg size base).exp 1)
                ((logField E Lg size base).multiply ((logField E Lg size base).exp k) x) := by
        intro x hx
        rw [Nat.add_comm k 1, exp_add 1 k, mul_assoc _ _ _ (exp_lt 1) (exp_lt k) hx]
      rw [hstep _ (xor_lt b c hb hc), hstep b hb, hstep c hc, ih b c hb hc,
        hgen _ _ (mul_lt _ _ (exp_lt k) hb) (mul_lt _ _ (exp_lt k) hc)]
  exact
    { one_lt_size := hsize2
      xor_lt := xor_lt
      mul_lt := mul_lt
      mul_zero := mul_zero
      zero_mul := zero_mul
      mul_one := mul_one
      mul_comm := fun a b _ _ => mul_comm a b
      mul_assoc := mul_assoc
      mul_xor := by
        intro a b c ha hb hc
        by_cases ha0 : a = 0
        · subst ha0
          simp only [zero_mul]
          rfl
        · have := hpow (Lg a) b c hb hc
          have he : (logField E Lg size base).exp (Lg a) = a := by
            rw [exp_def, Nat.mod_eq_of_lt (hLg a ha ha0).1]
            exact (hLg a ha ha0).2
          rwa [he] at this
      inverse_lt := fun a _ _ => (hEmod _ (hmodlt _)).2.1
      mul_inverse := by
        intro a hapos ha
        have ha0 : a ≠ 0 := Nat.pos_iff_ne_zero.mp hapos
        have hla := (hLg a ha ha0).1
        show (logField E Lg size base).multiply a (E ((size - 1 - Lg a) % (size - 1))) = 1
        rw [mul_nz a _ ha0 (Nat.pos_iff_ne_zero.mp (hEmod _ (hmodlt _)).1),
          (hEmod _ (hmodlt _)).2.2, Nat.add_mod_mod]
        have : Lg a + (size - 1 - Lg a) = size - 1 := by omega
        rw [this, Nat.mod_self]
        exact hE0'
      exp_lt := exp_lt
      exp_pos := exp_pos
      exp_zero := hE0
      exp_succ := fun i => exp_add i 1
      log_lt := fun a hapos ha => (hLg a ha (Nat.pos_iff_ne_zero.mp hapos)).1
      exp_log := by
        intro a hapos ha
        have ha0 : a ≠ 0 := Nat.pos_iff_ne_zero.mp hapos
        show E (Lg a % (size - 1)) = a
        rw [Nat.mod_eq_of_lt (hLg a ha ha0).1]
        exact (hLg a ha ha0).2
      log_exp := by
        intro i hi
        have hi' : i < size - 1 := hi
        show Lg (E (i % (size - 1))) = i
        rw [Nat.mod_eq_of_lt hi']
        exact (hEmod i hi').2.2 }

set_option maxRecDepth 1000000 in
theorem qrField_lawful : qrField.Lawful :=
  logField_lawful _ _ 256 0 8 (by decide!)

set_option maxRecDepth 1000000 in
theorem aztecParamField_lawful : aztecParamField.Lawful :=
  logField_lawful _ _ 16 1 4 (by decide!)

set_option maxRecDepth 1000000 in
theorem qrField_tables :
    qrExpTable = packTable 8 (expTable 0x11D 256) ∧
    qrLogTable = packTable 8 (logTable 0x11D 256) := by
  decide!

set_option maxRecDepth 1000000 in
theorem aztecParamField_tables :
    aztecParamExpTable = packTable 4 (expTable 0x13 16) ∧
    aztecParamLogTable = packTable 4 (logTable 0x13 16) := by
  decide!

end ZXing

namespace ZXing

open GenericGFPoly Polynomial

/-! ## Field elements -/

section Elements

variable {F : GenericGF} [hF : Fact F.Lawful]

theorem toElem_val {x : Nat} (hx : x < F.size) : (toElem F x).1 = x := by
  unfold toElem
  rw [dif_pos hx]

theorem GFElem.zero_val : (0 : GFElem F).1 = 0 := rfl

theorem GFElem.one_val : (1 : GFElem F).1 = 1 := rfl

theorem GFElem.add_val (a b : GFElem F) : (a + b).1 = a.1 ^^^ b.1 := rfl

theorem GFElem.mul_val (a b : GFElem F) : (a * b).1 = F.multiply a.1 b.1 := rfl

omit hF in
theorem GFElem.neg_eq (a : GFElem F) : -a = a := rfl

theorem GFElem.add_self (a : GFElem F) : a + a = 0 := Subtype.ext (Nat.xor_self _)

theorem GFElem.inv_val {a : GFElem F} (h : a.1 ≠ 0) : (a⁻¹).1 = F.inverse a.1 := by
  show (if h : a.1 = 0 then (0 : GFElem F) else _).1 = _
  rw [dif_neg h]

theorem zero_lt_size : 0 < F.size := Nat.lt_trans Nat.zero_lt_one hF.out.one_lt_size

theorem toElem_zero : toElem F 0 = 0 := Subtype.ext (toElem_val zero_lt_size)

theorem toElem_one : toElem F 1 = 1 := Subtype.ext (toElem_val hF.out.one_lt_size)

theorem toElem_xor {x y : Nat} (hx : x < F.size) (hy : y < F.size) :
    toElem F (x ^^^ y) = toElem F x + toElem F y := by
  apply Subtype.ext
  rw [GFElem.add_val, toElem_val hx, toElem_val hy, toElem_val (hF.out.xor_lt _ _ hx hy)]

theorem toElem_mul {x y : Nat} (hx : x < F.size) (hy : y < F.size) :
    toElem F (F.multiply x y) = toElem F x * toElem F y := by
  apply Subtype.ext
  rw [GFElem.mul_val, toElem_val hx, toElem_val hy, toElem_val (hF.out.mul_lt _ _ hx hy)]

theorem toElem_eq_zero_iff {x : Nat} (hx : x < F.size) : toElem F x = 0 ↔ x = 0 := by
  constructor
  · intro h
    have := congrArg Subtype.val h
    rwa [toElem_val hx] at this
  · intro h
    rw [h, toElem_zero]

theorem toElem_inverse {x : Nat} (hx : x < F.size) (hx0 : x ≠ 0) :
    toElem F (F.inverse x) = (toElem F x)⁻¹ := by
  apply Subtype.ext
  have h1 : (toElem F x).1 ≠ 0 := by rwa [toElem_val hx]
  rw [GFElem.inv_val h1, toElem_val hx,
    toElem_val (hF.out.inverse_lt _ (Nat.pos_of_ne_zero hx0) hx)]

theorem toElem_inj {x y : Nat} (hx : x < F.size) (hy : y < F.size)
    (h : toElem F x = toElem F y) : x = y := by
  have := congrArg Subtype.val h
  rwa [toElem_val hx, toElem_val hy] at this

theorem toElem_surj (a : GFElem F) : toElem F a.1 = a := Subtype.ext (toElem_val a.2)

theorem poly_add_self (p : Polynomial (GFElem F)) : p + p = 0 := by
  ext d
  rw [coeff_add, GFElem.add_self, coeff_zero]

theorem poly_neg_eq (p : Polynomial (GFElem F)) : -p = p := by
  rw [neg_eq_iff_add_eq_zero, poly_add_self]

theorem poly_sub_eq_add (p q : Polynomial (GFElem F)) : p - q = p + q := by
  rw [sub_eq_add_neg, poly_neg_eq]

end Elements

/-! ## Coefficient vectors as polynomials -/

section Polys

variable {F : GenericGF} [hF : Fact F.Lawful]

theorem toPoly_nil : toPoly F [] = 0 := rfl

theorem toPoly_append_singleton (c : List Nat) (x : Nat) :
    toPoly F (c ++ [x]) = toPoly F c * X + C (toElem F x) := by
  unfold toPoly
  rw [List.foldl_append]
  rfl

theorem toPoly_foldl (c : List Nat) (acc : Polynomial (GFElem F)) :
    c.foldl (fun p x => p * X + C (toElem F x)) acc = acc * X ^ c.length + toPoly F c := by
  induction c generalizing acc with
  | nil => simp [toPoly]
  | cons x xs ih =>
    unfold toPoly
    rw [List.foldl_cons, List.foldl_cons, ih, ih (0 * X + C (toElem F x)), List.length_cons]
    unfold toPoly
    ring

theorem toPoly_cons (x : Nat) (xs : List Nat) :
    toPoly F (x :: xs) = C (toElem F x) * X ^ xs.length + toPoly F xs := by
  have := toPoly_foldl (F := F) xs (0 * X + C (toElem F x))
  unfold toPoly at this ⊢
  rw [List.foldl_cons, this]
  ring

theorem coeffAt_cons (x : Nat) (xs : List Nat) (d : Nat) :
    coeffAt (x :: xs) d = if d = xs.length then x else coeffAt xs d := by
  unfold coeffAt
  rw [List.reverse_cons, List.getD_eq_getElem?_getD, List.getD_eq_getElem?_getD]
  by_cases hd : d < xs.length
  · rw [List.getElem?_append_left (by simpa using hd), if_neg (by omega)]
  · rw [List.getElem?_append_right (by simpa using hd)]
    have hnone : xs.reverse[d]? = none := List.getElem?_eq_none_iff.mpr (by simpa using hd)
    rw [hnone]
    by_cases he : d = xs.length
    · subst he
      simp
    · rw [if_neg he]
      have : d - xs.reverse.length = (d - xs.length - 1) + 1 := by
        rw [List.length_reverse]; omega
      rw [this]
      rfl

theorem coeff_toPoly (c : List Nat) (d : Nat) :
    (toPoly F c).coeff d = toElem F (coeffAt c d) := by
  induction c with
  | nil => simp [toPoly_nil, coeffAt, toElem_zero]
  | cons x xs ih =>
    rw [toPoly_cons, coeff_add, coeff_C_mul, coeff_X_pow, coeffAt_cons, ih]
    by_cases hd : d = xs.length
    · rw [if_pos hd, if_pos hd, coeffAt_of_length_le (by omega), toElem_zero]
      simp
    · rw [if_neg hd, if_neg hd]
      simp

theorem toPoly_congr {a b : List Nat} (h : ∀ d, coeffAt a d = coeffAt b d) :
    toPoly F a = toPoly F b := by
  ext d
  rw [coeff_toPoly, coeff_toPoly, h]

theorem toPoly_normalize (c : List Nat) :
    toPoly F (GenericGFPoly.normalize c) = toPoly F c :=
  toPoly_congr (coeffAt_normalize c)

theorem coeffAt_lt {c : List Nat} (hc : InField F c) (d : Nat) : coeffAt c d < F.size := by
  unfold coeffAt
  rw [List.getD_eq_getElem?_getD]
  by_cases hd : d < c.reverse.length
  · rw [List.getElem?_eq_getElem hd]
    apply hc
    have := List.getElem_mem hd
    rw [Option.getD_some]
    exact List.mem_reverse.mp this
  · rw [List.getElem?_eq_none_iff.mpr (by omega)]
    exact zero_lt_size

theorem toPoly_inj {a b : List Nat} (ha : IsNormalized a) (hb : IsNormalized b)
    (hfa : InField F a) (hfb : InField F b) (h : toPoly F a = toPoly F b) : a = b := by
  apply eq_of_coeffAt_eq ha hb
  intro d
  have := congrArg (fun p => Polynomial.coeff p d) h
  simp only [coeff_toPoly] at this
  exact toElem_inj (coeffAt_lt hfa d) (coeffAt_lt hfb d) this

theorem toPoly_singleton (x : Nat) : toPoly F [x] = C (toElem F x) := by
  rw [toPoly_cons, toPoly_nil]
  simp

theorem toPoly_zero : toPoly F [0] = 0 := by
  rw [toPoly_singleton, toElem_zero, C_0]

theorem toPoly_eq_zero_iff {c : List Nat} (hc : IsNormalized c) (hf : InField F c) :
    toPoly F c = 0 ↔ isZero c = true := by
  constructor
  · intro h
    have : c = [0] := by
      apply toPoly_inj hc isNormalized_zero hf
      · intro x hx
        rw [List.mem_singleton.mp hx]
        exact zero_lt_size
      · rw [h, toPoly_zero]
    rw [this]
    rfl
  · intro h
    rw [isZero_eq_of_isNormalized hc h, toPoly_zero]

theorem natDegree_toPoly_le (c : List Nat) : (toPoly F c).natDegree ≤ c.length - 1 := by
  rw [natDegree_le_iff_coeff_eq_zero]
  intro N hN
  rw [coeff_toPoly, coeffAt_of_length_le (by omega), toElem_zero]

theorem natDegree_toPoly {c : List Nat} (hc : IsNormalized c) (hf : InField F c) :
    (toPoly F c).natDegree = degree c := by
  unfold GenericGFPoly.degree
  apply le_antisymm (natDegree_toPoly_le c)
  by_cases hz : isZero c = true
  · rw [isZero_eq_of_isNormalized hc hz]
    simp
  · apply le_natDegree_of_ne_zero
    rw [coeff_toPoly, coeffAt_top hc.1]
    intro h0
    have hmem : c.headD 0 < F.size := by
      obtain ⟨x, xs, rfl⟩ := List.exists_cons_of_ne_nil hc.1
      exact hf x (by simp)
    rw [toElem_eq_zero_iff hmem] at h0
    apply hz
    unfold isZero
    rw [h0]
    rfl

theorem leadingCoeff_toPoly {c : List Nat} (hc : IsNormalized c) (hf : InField F c) :
    (toPoly F c).leadingCoeff = toElem F (c.headD 0) := by
  rw [leadingCoeff, natDegree_toPoly hc hf, coeff_toPoly]
  unfold GenericGFPoly.degree
  rw [coeffAt_top hc.1]

end Polys

end ZXing

namespace ZXing

open GenericGFPoly Polynomial

/-! ## Operations on coefficient vectors and their polynomials -/

section Ops

variable {F : GenericGF} [hF : Fact F.Lawful]

/-! ### Field membership is preserved -/

omit hF in
theorem inField_normalize {c : List Nat} (hc : InField F c) (h0 : 0 < F.size) :
    InField F (GenericGFPoly.normalize c) := by
  unfold GenericGFPoly.normalize
  simp only
  split_ifs
  · exact hc
  · intro x hx
    rw [List.mem_singleton.mp hx]
    exact h0
  · intro x hx
    exact hc x ((List.dropWhile_sublist _).subset hx)

omit hF in
theorem getD_lt {c : List Nat} (hc : InField F c) (h0 : 0 < F.size) (i : Nat) :
    c.getD i 0 < F.size := by
  rw [List.getD_eq_getElem?_getD]
  by_cases hi : i < c.length
  · rw [List.getElem?_eq_getElem hi]
    exact hc _ (List.getElem_mem hi)
  · rw [List.getElem?_eq_none_iff.mpr (by omega)]
    exact h0

theorem inField_xorAligned {a b : List Nat} (ha : InField F a) (hb : InField F b) :
    InField F (xorAligned a b) := by
  intro x hx
  unfold xorAligned at hx
  rw [List.mem_iff_getElem] at hx
  obtain ⟨i, hi, rfl⟩ := hx
  rw [List.getElem_zipWith]
  apply hF.out.xor_lt
  · have := List.getElem_mem (l := List.replicate (max a.length b.length - a.length) 0 ++ a)
      (n := i) (by simp at hi ⊢; omega)
    rcases List.mem_append.mp this with h | h
    · rw [List.eq_of_mem_replicate h]; exact zero_lt_size
    · exact ha _ h
  · have := List.getElem_mem (l := List.replicate (max a.length b.length - b.length) 0 ++ b)
      (n := i) (by simp at hi ⊢; omega)
    rcases List.mem_append.mp this with h | h
    · rw [List.eq_of_mem_replicate h]; exact zero_lt_size
    · exact hb _ h

theorem inField_addOrSubtract_fst {a b : List Nat} (ha : IsNormalized a) (hb : IsNormalized b)
    (hfa : InField F a) (hfb : InField F b) : InField F (addOrSubtract a b).1 := by
  rw [addOrSubtract_fst_eq ha hb]
  exact inField_normalize (inField_xorAligned hfa hfb) zero_lt_size

theorem inField_setMonomial {c : Nat} (hc : c < F.size) (d : Nat) :
    InField F (setMonomial c d) := by
  intro x hx
  unfold setMonomial at hx
  rcases List.mem_cons.mp hx with h | h
  · rw [h]; exact hc
  · rw [List.eq_of_mem_replicate h]; exact zero_lt_size

theorem inField_multiplyByMonomial {p : List Nat} (hp : InField F p) (d : Nat) {c : Nat}
    (hc : c < F.size) : InField F (multiplyByMonomial F p d c) := by
  unfold multiplyByMonomial
  split_ifs
  · exact inField_setMonomial zero_lt_size 0
  · apply inField_normalize _ zero_lt_size
    intro x hx
    rcases List.mem_append.mp hx with h | h
    · obtain ⟨y, hy, rfl⟩ := List.mem_map.mp h
      exact hF.out.mul_lt _ _ (hp y hy) hc
    · rw [List.eq_of_mem_replicate h]; exact zero_lt_size

theorem inField_xorAt {cache : List Nat} (hc : InField F cache) (k : Nat) {v : Nat}
    (hv : v < F.size) : InField F (xorAt cache k v) := by
  intro x hx
  unfold xorAt at hx
  rcases List.mem_or_eq_of_mem_set hx with h | h
  · exact hc x h
  · rw [h]
    exact hF.out.xor_lt _ _ (getD_lt hc zero_lt_size k) hv

theorem inField_foldl_xorAt (i : Nat) (g : Nat → Nat) (hg : ∀ j, g j < F.size) (n : Nat)
    {cache : List Nat} (hc : InField F cache) :
    InField F ((List.range n).foldl (fun c j => xorAt c (i + j) (g j)) cache) := by
  induction n with
  | zero => exact hc
  | succ n ih =>
    rw [List.range_succ, List.foldl_append]
    exact inField_xorAt ih _ (hg n)

theorem inField_replicate_zero (n : Nat) : InField F (List.replicate n 0) := by
  intro x hx
  rw [List.eq_of_mem_replicate hx]
  exact zero_lt_size

theorem inField_multiplyLoop_aux {a b : List Nat} (ha : InField F a) (hb : InField F b)
    (m : Nat) {init : List Nat} (hi : InField F init) :
    InField F ((List.range m).foldl
      (fun cache i =>
        (List.range b.length).foldl
          (fun cache j => xorAt cache (i + j) (F.multiply (a.getD i 0) (b.getD j 0)))
          cache) init) := by
  induction m with
  | zero => exact hi
  | succ m ih =>
    rw [List.range_succ, List.foldl_append]
    exact inField_foldl_xorAt m (fun j => F.multiply (a.getD m 0) (b.getD j 0))
      (fun j => hF.out.mul_lt _ _ (getD_lt ha zero_lt_size _) (getD_lt hb zero_lt_size _)) _ ih

theorem inField_multiplyLoop {a b : List Nat} (ha : InField F a) (hb : InField F b) :
    InField F (multiplyLoop F a b) :=
  inField_multiplyLoop_aux ha hb _ (inField_replicate_zero _)

theorem inField_multiply {a b : List Nat} (ha : InField F a) (hb : InField F b) :
    InField F (multiply F a b) := by
  unfold multiply
  split_ifs
  · exact inField_setMonomial zero_lt_size 0
  · exact inField_normalize (inField_multiplyLoop ha hb) zero_lt_size

/-! ### Normalization is preserved -/

omit hF in
theorem isNormalized_multiply (a b : List Nat) : IsNormalized (multiply F a b) := by
  unfold multiply
  split_ifs
  · exact isNormalized_zero
  · apply isNormalized_normalize
    intro h
    have := congrArg List.length h
    rw [length_multiplyLoop] at this
    rename_i hz
    simp only [Bool.or_eq_true, not_or, Bool.not_eq_true] at hz
    have ha : a ≠ [] := by
      intro ha; rw [ha] at hz; exact absurd hz.1 (by decide)
    have hb : b ≠ [] := by
      intro hb; rw [hb] at hz; exact absurd hz.2 (by decide)
    have := List.length_pos.mpr ha
    have := List.length_pos.mpr hb
    simp only [List.length_nil] at *
    omega

omit hF in
theorem isNormalized_multiplyByMonomial {p : List Nat} (hp : p ≠ []) (d c : Nat) :
    IsNormalized (multiplyByMonomial F p d c) := by
  unfold multiplyByMonomial
  split_ifs
  · exact isNormalized_zero
  · apply isNormalized_normalize
    intro h
    have := congrArg List.length h
    have hl := List.length_pos.mpr hp
    rw [List.length_append, List.length_map, List.length_replicate, List.length_nil] at this
    omega

/-! ### The polynomial of each operation -/

theorem toPoly_addOrSubtract {a b : List Nat} (ha : IsNormalized a) (hb : IsNormalized b)
    (hfa : InField F a) (hfb : InField F b) :
    toPoly F (addOrSubtract a b).1 = toPoly F a + toPoly F b := by
  ext d
  rw [coeff_add, coeff_toPoly, coeff_toPoly, coeff_toPoly, coeffAt_addOrSubtract ha hb,
    toElem_xor (coeffAt_lt hfa d) (coeffAt_lt hfb d)]

theorem toPoly_append (a b : List Nat) :
    toPoly F (a ++ b) = toPoly F a * X ^ b.length + toPoly F b := by
  unfold toPoly
  rw [List.foldl_append, toPoly_foldl]
  rfl

theorem toPoly_replicate_zero (n : Nat) : toPoly F (List.replicate n 0) = 0 := by
  ext d
  rw [coeff_toPoly, coeff_zero]
  have : coeffAt (List.replicate n 0) d = 0 := by
    unfold coeffAt
    rw [List.reverse_replicate, List.getD_eq_getElem?_getD, List.getElem?_replicate]
    split_ifs <;> rfl
  rw [this, toElem_zero]

theorem toPoly_setMonomial (c d : Nat) :
    toPoly F (setMonomial c d) = C (toElem F c) * X ^ d := by
  unfold setMonomial
  rw [toPoly_cons, toPoly_replicate_zero, List.length_replicate, add_zero]

theorem toPoly_map_mul {p : List Nat} (hp : InField F p) {c : Nat} (hc : c < F.size) :
    toPoly F (p.map (fun x => F.multiply x c)) = toPoly F p * C (toElem F c) := by
  induction p with
  | nil => simp [toPoly_nil]
  | cons x xs ih =>
    have hx : x < F.size := hp x (by simp)
    have hxs : InField F xs := fun y hy => hp y (by simp [hy])
    rw [List.map_cons, toPoly_cons, toPoly_cons, ih hxs, List.length_map, toElem_mul hx hc, C_mul]
    ring

theorem toPoly_multiplyByMonomial {p : List Nat} (hp : InField F p) (d : Nat) {c : Nat}
    (hc : c < F.size) :
    toPoly F (multiplyByMonomial F p d c) = toPoly F p * (C (toElem F c) * X ^ d) := by
  unfold multiplyByMonomial
  split_ifs with h0
  · rw [h0, toElem_zero, toPoly_setMonomial, toElem_zero]
    simp
  · rw [toPoly_normalize, toPoly_append, toPoly_replicate_zero, toPoly_map_mul hp hc,
      List.length_replicate]
    ring

end Ops

end ZXing

namespace ZXing

open GenericGFPoly Polynomial

/-! ## multiply and evaluateAt as polynomial operations -/

section Mul

variable {F : GenericGF} [hF : Fact F.Lawful]

omit hF in
theorem coeffAt_eq_getD (c : List Nat) (d : Nat) :
    coeffAt c d = if d < c.length then c.getD (c.length - 1 - d) 0 else 0 := by
  unfold coeffAt
  rw [List.getD_eq_getElem?_getD, List.getD_eq_getElem?_getD]
  by_cases hd : d < c.length
  · rw [if_pos hd, List.getElem?_reverse hd]
  · rw [if_neg hd, List.getElem?_eq_none_iff.mpr (by simpa using hd)]
    rfl

theorem toPoly_xorAt {cache : List Nat} (hc : InField F cache) {k : Nat}
    (hk : k < cache.length) {v : Nat} (hv : v < F.size) :
    toPoly F (xorAt cache k v)
      = toPoly F cache + C (toElem F v) * X ^ (cache.length - 1 - k) := by
  ext d
  rw [coeff_add, coeff_toPoly, coeff_toPoly, coeff_C_mul, coeff_X_pow, coeffAt_eq_getD,
    coeffAt_eq_getD, length_xorAt, getD_xorAt]
  by_cases hd : d < cache.length
  · rw [if_pos hd, if_pos hd]
    by_cases he : d = cache.length - 1 - k
    · rw [if_pos ⟨by omega, hk⟩, if_pos he, toElem_xor (getD_lt hc zero_lt_size _) hv]
      simp
    · rw [if_neg (by omega), if_neg he]
      simp
  · rw [if_neg hd, if_neg hd, if_neg (by omega)]
    simp

theorem toPoly_foldl_xorAt (i : Nat) (g : Nat → Nat) (hg : ∀ j, g j < F.size) (n : Nat)
    {cache : List Nat} (hc : InField F cache) (hn : i + n ≤ cache.length) :
    toPoly F ((List.range n).foldl (fun c j => xorAt c (i + j) (g j)) cache)
      = toPoly F cache
        + ∑ j in Finset.range n, C (toElem F (g j)) * X ^ (cache.length - 1 - (i + j)) := by
  induction n with
  | zero => simp
  | succ n ih =>
    rw [List.range_succ, List.foldl_append, Finset.sum_range_succ]
    simp only [List.foldl_cons, List.foldl_nil]
    rw [toPoly_xorAt (inField_foldl_xorAt i g hg n hc)
      (by rw [length_foldl_xorAt]; omega) (hg n), ih (by omega), length_foldl_xorAt, add_assoc]

theorem toPoly_multiplyLoop_aux {a b : List Nat} (ha : InField F a) (hb : InField F b)
    (m : Nat) {init : List Nat} (hi : InField F init) (hm : m + b.length ≤ init.length + 1) :
    toPoly F ((List.range m).foldl
      (fun cache i =>
        (List.range b.length).foldl
          (fun cache j => xorAt cache (i + j) (F.multiply (a.getD i 0) (b.getD j 0)))
          cache) init)
      = toPoly F init + ∑ i in Finset.range m, ∑ j in Finset.range b.length,
          C (toElem F (a.getD i 0) * toElem F (b.getD j 0))
            * X ^ (init.length - 1 - (i + j)) := by
  induction m with
  | zero => simp
  | succ m ih =>
    rw [List.range_succ, List.foldl_append, Finset.sum_range_succ]
    simp only [List.foldl_cons, List.foldl_nil]
    rw [toPoly_foldl_xorAt m (fun j => F.multiply (a.getD m 0) (b.getD j 0))
      (fun j => hF.out.mul_lt _ _ (getD_lt ha zero_lt_size _) (getD_lt hb zero_lt_size _)) _
      (inField_multiplyLoop_aux ha hb m hi)
      (by rw [length_multiplyLoop_aux]; omega), ih (by omega), length_multiplyLoop_aux, add_assoc]
    congr 2
    apply Finset.sum_congr rfl
    intro j _
    rw [toElem_mul (getD_lt ha zero_lt_size _) (getD_lt hb zero_lt_size _)]

theorem toPoly_eq_sum (c : List Nat) :
    toPoly F c = ∑ i in Finset.range c.length,
      C (toElem F (c.getD i 0)) * X ^ (c.length - 1 - i) := by
  induction c using List.reverseRecOn with
  | nil => simp [toPoly_nil]
  | append_singleton xs x ih =>
    rw [toPoly_append_singleton, ih, List.length_append, List.length_singleton,
      Finset.sum_range_succ, Finset.sum_mul]
    congr 1
    · apply Finset.sum_congr rfl
      intro i hi
      have hi' : i < xs.length := Finset.mem_range.mp hi
      rw [List.getD_append _ _ _ _ hi', mul_assoc, ← pow_succ]
      congr 2
      omega
    · rw [List.getD_append_right _ _ _ _ (le_refl _)]
      simp

theorem toPoly_multiplyLoop {a b : List Nat} (ha : InField F a) (hb : InField F b)
    (ha0 : a ≠ []) (hb0 : b ≠ []) :
    toPoly F (multiplyLoop F a b) = toPoly F a * toPoly F b := by
  have hla := List.length_pos.mpr ha0
  have hlb := List.length_pos.mpr hb0
  unfold multiplyLoop
  rw [toPoly_multiplyLoop_aux ha hb a.length (inField_replicate_zero _)
    (by rw [List.length_replicate]; omega), toPoly_replicate_zero, zero_add,
    toPoly_eq_sum a, toPoly_eq_sum b, Finset.sum_mul_sum, List.length_replicate]
  apply Finset.sum_congr rfl
  intro i hi
  apply Finset.sum_congr rfl
  intro j hj
  have hi' := Finset.mem_range.mp hi
  have hj' := Finset.mem_range.mp hj
  have he : a.length + b.length - 1 - 1 - (i + j) = (a.length - 1 - i) + (b.length - 1 - j) := by
    omega
  rw [he, C_mul, pow_add]
  ring

theorem toPoly_multiply {a b : List Nat} (ha : IsNormalized a) (hb : IsNormalized b)
    (hfa : InField F a) (hfb : InField F b) :
    toPoly F (multiply F a b) = toPoly F a * toPoly F b := by
  unfold multiply
  by_cases hza : isZero a = true
  · rw [hza, Bool.true_or, if_pos rfl, (toPoly_eq_zero_iff ha hfa).mpr hza, zero_mul]
    exact toPoly_zero
  · by_cases hzb : isZero b = true
    · rw [hzb, Bool.or_true, if_pos rfl, (toPoly_eq_zero_iff hb hfb).mpr hzb, mul_zero]
      exact toPoly_zero
    · have : (isZero a || isZero b) = false := by
        simp only [Bool.not_eq_true] at hza hzb
        rw [hza, hzb]
        rfl
      rw [this, if_neg (by decide), toPoly_normalize, toPoly_multiplyLoop hfa hfb ha.1 hb.1]

/-! ### Evaluation -/

theorem eval_toPoly_foldl (c : List Nat) (a : GFElem F) (acc : Polynomial (GFElem F)) :
    (c.foldl (fun p x => p * X + C (toElem F x)) acc).eval a
      = c.foldl (fun r x => r * a + toElem F x) (acc.eval a) := by
  induction c generalizing acc with
  | nil => rfl
  | cons x xs ih =>
    rw [List.foldl_cons, List.foldl_cons, ih]
    simp

theorem toElem_foldl_horner {c : List Nat} (hc : InField F c) {a : Nat} (ha : a < F.size)
    {r : Nat} (hr : r < F.size) :
    toElem F (c.foldl (fun result ci => F.multiply a result ^^^ ci) r)
      = c.foldl (fun r x => r * toElem F a + toElem F x) (toElem F r) := by
  induction c generalizing r with
  | nil => rfl
  | cons x xs ih =>
    have hx : x < F.size := hc x (by simp)
    have hxs : InField F xs := fun y hy => hc y (by simp [hy])
    rw [List.foldl_cons, List.foldl_cons,
      ih hxs (hF.out.xor_lt _ _ (hF.out.mul_lt _ _ ha hr) hx),
      toElem_xor (hF.out.mul_lt _ _ ha hr) hx, toElem_mul ha hr, mul_comm]

theorem toElem_foldl_xor {c : List Nat} (hc : InField F c) {r : Nat} (hr : r < F.size) :
    toElem F (c.foldl (fun x y => x ^^^ y) r)
      = c.foldl (fun r x => r * 1 + toElem F x) (toElem F r) := by
  induction c generalizing r with
  | nil => rfl
  | cons x xs ih =>
    have hx : x < F.size := hc x (by simp)
    have hxs : InField F xs := fun y hy => hc y (by simp [hy])
    rw [List.foldl_cons, List.foldl_cons, ih hxs (hF.out.xor_lt _ _ hr hx), toElem_xor hr hx,
      mul_one]

theorem toElem_evaluateAt {c : List Nat} (hc : InField F c) (hne : c ≠ []) {a : Nat}
    (ha : a < F.size) :
    toElem F (evaluateAt F c a) = (toPoly F c).eval (toElem F a) := by
  unfold evaluateAt
  split_ifs with h0 h1
  · rw [h0, toElem_zero, ← coeff_zero_eq_eval_zero, coeff_toPoly]
    congr 1
    unfold coefficient
    rw [coeffAt_eq_getD, if_pos (List.length_pos.mpr hne)]
  · rw [h1, toElem_one]
    unfold toPoly
    rw [eval_toPoly_foldl, toElem_foldl_xor hc zero_lt_size, toElem_zero]
    simp
  · obtain ⟨x, xs, rfl⟩ := List.exists_cons_of_ne_nil hne
    have hx : x < F.size := hc x (by simp)
    have hxs : InField F xs := fun y hy => hc y (by simp [hy])
    unfold toPoly
    rw [eval_toPoly_foldl, List.tail_cons, List.headD_cons, toElem_foldl_horner hxs ha hx,
      List.foldl_cons]
    simp

end Mul

end ZXing

namespace ZXing

open GenericGFPoly Polynomial

/-! ## divide -/

section Divide

variable {F : GenericGF} [hF : Fact F.Lawful]

omit hF in
theorem coefficient_degree {c : List Nat} : coefficient c (GenericGFPoly.degree c) = c.headD 0 := by
  unfold coefficient GenericGFPoly.degree
  rw [Nat.sub_self, headD_eq_getD]

omit hF in
theorem headD_lt {c : List Nat} (hc : InField F c) (h0 : 0 < F.size) : c.headD 0 < F.size := by
  rw [headD_eq_getD]
  exact getD_lt hc h0 0

omit hF in
theorem headD_ne_zero {c : List Nat} (hz : isZero c = false) : c.headD 0 ≠ 0 := by
  intro h
  unfold isZero at hz
  rw [h] at hz
  exact absurd hz (by decide)

omit hF in
theorem isNormalized_setMonomial {c : Nat} (hc : c ≠ 0) (d : Nat) :
    IsNormalized (setMonomial c d) := by
  refine ⟨by simp [setMonomial], ?_⟩
  intro h
  simp [setMonomial] at h
  exact absurd h hc

/-- The measure that decreases along the division loop. -/
theorem divide_step {d rem : List Nat} (hd : IsNormalized d) (hfd : InField F d)
    (hdz : isZero d = false) (hr : IsNormalized rem) (hfr : InField F rem)
    (hrz : isZero rem = false) (hdeg : GenericGFPoly.degree rem ≥ GenericGFPoly.degree d) :
    let scale := F.multiply (coefficient rem (GenericGFPoly.degree rem)) (F.inverse (coefficient d (GenericGFPoly.degree d)))
    let rem' := (addOrSubtract rem (multiplyByMonomial F d (GenericGFPoly.degree rem - GenericGFPoly.degree d) scale)).1
    scale ≠ 0 ∧ scale < F.size ∧ IsNormalized rem' ∧ InField F rem' ∧
    toPoly F rem' = toPoly F rem
      + toPoly F d * (C (toElem F scale) * X ^ (GenericGFPoly.degree rem - GenericGFPoly.degree d)) ∧
    (isZero rem' = true ∨ rem'.length < rem.length) := by
  intro scale rem'
  have hlr : rem.headD 0 < F.size := headD_lt hfr zero_lt_size
  have hld : d.headD 0 < F.size := headD_lt hfd zero_lt_size
  have hlr0 : rem.headD 0 ≠ 0 := headD_ne_zero hrz
  have hld0 : d.headD 0 ≠ 0 := headD_ne_zero hdz
  have hinv : F.inverse (d.headD 0) < F.size :=
    hF.out.inverse_lt _ (Nat.pos_of_ne_zero hld0) hld
  have hinv0 : F.inverse (d.headD 0) ≠ 0 := by
    intro h
    have := hF.out.mul_inverse _ (Nat.pos_of_ne_zero hld0) hld
    rw [h, hF.out.mul_zero] at this
    exact absurd this (by decide)
  have hscale_eq : scale = F.multiply (rem.headD 0) (F.inverse (d.headD 0)) := by
    show F.multiply _ _ = _
    rw [coefficient_degree, coefficient_degree]
  have hs0 : scale ≠ 0 := by
    rw [hscale_eq]
    exact hF.out.mul_ne_zero hlr hinv hlr0 hinv0
  have hslt : scale < F.size := by
    rw [hscale_eq]
    exact hF.out.mul_lt _ _ hlr hinv
  have hmn : IsNormalized (multiplyByMonomial F d (GenericGFPoly.degree rem - GenericGFPoly.degree d) scale) :=
    isNormalized_multiplyByMonomial hd.1 _ _
  have hmf : InField F (multiplyByMonomial F d (GenericGFPoly.degree rem - GenericGFPoly.degree d) scale) :=
    inField_multiplyByMonomial hfd _ hslt
  have hpoly : toPoly F rem' = toPoly F rem
      + toPoly F d * (C (toElem F scale) * X ^ (GenericGFPoly.degree rem - GenericGFPoly.degree d)) := by
    show toPoly F (addOrSubtract rem _).1 = _
    rw [toPoly_addOrSubtract hr hmn hfr hmf, toPoly_multiplyByMonomial hfd _ hslt]
  have hn' : IsNormalized rem' := isNormalized_addOrSubtract_fst hr hmn
  have hf' : InField F rem' := inField_addOrSubtract_fst hr hmn hfr hmf
  refine ⟨hs0, hslt, hn', hf', hpoly, ?_⟩
  -- the leading terms cancel
  by_cases hz' : isZero rem' = true
  · exact Or.inl hz'
  · right
    have hp0 : toPoly F rem ≠ 0 := by
      rw [Ne, toPoly_eq_zero_iff hr hfr, hrz]
      decide
    have hd0 : toPoly F d ≠ 0 := by
      rw [Ne, toPoly_eq_zero_iff hd hfd, hdz]
      decide
    have hse : toElem F scale ≠ 0 := by
      rw [Ne, toElem_eq_zero_iff hslt]
      exact hs0
    have hq0 : toPoly F d * (C (toElem F scale) * X ^ (GenericGFPoly.degree rem - GenericGFPoly.degree d)) ≠ 0 :=
      mul_ne_zero hd0 (mul_ne_zero (by rwa [Ne, C_eq_zero]) (pow_ne_zero _ X_ne_zero))
    have hqdeg : (toPoly F d * (C (toElem F scale) * X ^ (GenericGFPoly.degree rem - GenericGFPoly.degree d))).natDegree
        = (toPoly F rem).natDegree := by
      rw [natDegree_mul hd0 (mul_ne_zero (by rwa [Ne, C_eq_zero]) (pow_ne_zero _ X_ne_zero)),
        natDegree_C_mul_X_pow _ _ hse, natDegree_toPoly hd hfd, natDegree_toPoly hr hfr]
      omega
    have hqlead : (toPoly F d * (C (toElem F scale) * X ^ (GenericGFPoly.degree rem - GenericGFPoly.degree d))).leadingCoeff
        = (toPoly F rem).leadingCoeff := by
      rw [leadingCoeff_mul, leadingCoeff_mul, leadingCoeff_C, leadingCoeff_X_pow, mul_one,
        leadingCoeff_toPoly hd hfd, leadingCoeff_toPoly hr hfr, hscale_eq,
        toElem_mul hlr hinv, toElem_inverse hld hld0]
      have : toElem F (d.headD 0) ≠ 0 := by
        rw [Ne, toElem_eq_zero_iff hld]
        exact hld0
      rw [mul_comm (toElem F (rem.headD 0)), ← mul_assoc, mul_inv_cancel₀ this, one_mul]
    have hdegeq : (toPoly F rem).degree
        = (toPoly F d * (C (toElem F scale) * X ^ (GenericGFPoly.degree rem - GenericGFPoly.degree d))).degree := by
      rw [degree_eq_natDegree hp0, degree_eq_natDegree hq0, hqdeg]
    have hlt := degree_sub_lt hdegeq hp0 hqlead.symm
    rw [poly_sub_eq_add, ← hpoly] at hlt
    have hr'0 : toPoly F rem' ≠ 0 := by
      rw [Ne, toPoly_eq_zero_iff hn' hf']
      exact hz'
    have := natDegree_lt_natDegree hr'0 hlt
    rw [natDegree_toPoly hn' hf', natDegree_toPoly hr hfr] at this
    unfold GenericGFPoly.degree at this
    have := List.length_pos.mpr hn'.1
    omega

/-- Partial correctness of the division loop, for every budget. -/
theorem divideLoop_partial {d : List Nat} (hd : IsNormalized d) (hfd : InField F d)
    (hdz : isZero d = false) :
    ∀ (fuel : Nat) (q rem q' r' : List Nat), IsNormalized q → InField F q →
      IsNormalized rem → InField F rem →
      divideLoop F d (F.inverse (coefficient d (GenericGFPoly.degree d))) fuel q rem
          = Result.ok (q', r') →
        IsNormalized q' ∧ InField F q' ∧ IsNormalized r' ∧ InField F r' ∧
        toPoly F q' * toPoly F d + toPoly F r' = toPoly F q * toPoly F d + toPoly F rem ∧
        (isZero r' = true ∨ GenericGFPoly.degree r' < GenericGFPoly.degree d) := by
  intro fuel
  induction fuel with
  | zero =>
    intro q rem q' r' _ _ _ _ h
    unfold divideLoop at h
    exact absurd h (by simp)
  | succ fuel ih =>
    intro q rem q' r' hq hfq hr hfr h
    unfold divideLoop at h
    by_cases hcond : GenericGFPoly.degree rem ≥ GenericGFPoly.degree d ∧ ¬ isZero rem = true
    · rw [if_pos hcond] at h
      have hrz : isZero rem = false := by simpa using hcond.2
      obtain ⟨hs0, hslt, hn', hf', hpoly, -⟩ :=
        divide_step hd hfd hdz hr hfr hrz hcond.1
      simp only at h
      have hmono : IsNormalized (setMonomial
          (F.multiply (coefficient rem (GenericGFPoly.degree rem))
            (F.inverse (coefficient d (GenericGFPoly.degree d))))
          (GenericGFPoly.degree rem - GenericGFPoly.degree d)) :=
        isNormalized_setMonomial hs0 _
      have hmonof := inField_setMonomial hslt
        (GenericGFPoly.degree rem - GenericGFPoly.degree d)
      obtain ⟨h1, h2, h3, h4, h5, h6⟩ := ih _ _ q' r'
        (isNormalized_addOrSubtract_fst hq hmono)
        (inField_addOrSubtract_fst hq hmono hfq hmonof) hn' hf' h
      refine ⟨h1, h2, h3, h4, ?_, h6⟩
      rw [h5, toPoly_addOrSubtract hq hmono hfq hmonof, toPoly_setMonomial, hpoly]
      have := poly_add_self (toPoly F d * (C (toElem F (F.multiply
        (coefficient rem (GenericGFPoly.degree rem))
        (F.inverse (coefficient d (GenericGFPoly.degree d)))))
        * X ^ (GenericGFPoly.degree rem - GenericGFPoly.degree d)))
      linear_combination this
    · rw [if_neg hcond] at h
      have hqr : (q, rem) = (q', r') := Result.ok.inj h
      obtain ⟨rfl, rfl⟩ := Prod.mk.inj hqr
      refine ⟨hq, hfq, hr, hfr, rfl, ?_⟩
      by_cases hz : isZero rem = true
      · exact Or.inl hz
      · right
        by_contra hlt
        exact hcond ⟨by omega, hz⟩

/-- Termination of the division loop: a budget above the remainder's length
(or any nonzero budget for a zero remainder) is enough. -/
theorem divideLoop_total {d : List Nat} (hd : IsNormalized d) (hfd : InField F d)
    (hdz : isZero d = false) :
    ∀ (fuel : Nat) (q rem : List Nat), IsNormalized rem → InField F rem → 0 < fuel →
      (isZero rem = true ∨ rem.length < fuel) →
      ∃ q' r', divideLoop F d (F.inverse (coefficient d (GenericGFPoly.degree d))) fuel q rem
          = Result.ok (q', r') := by
  intro fuel
  induction fuel with
  | zero => intro q rem _ _ h; exact absurd h (by decide)
  | succ fuel ih =>
    intro q rem hr hfr _ hfuel
    unfold divideLoop
    by_cases hcond : GenericGFPoly.degree rem ≥ GenericGFPoly.degree d ∧ ¬ isZero rem = true
    · rw [if_pos hcond]
      have hrz : isZero rem = false := by simpa using hcond.2
      obtain ⟨-, -, hn', hf', -, hdec⟩ :=
        divide_step hd hfd hdz hr hfr hrz hcond.1
      simp only
      have hlen : rem.length < fuel + 1 := by
        rcases hfuel with h | h
        · rw [hrz] at h; exact absurd h (by decide)
        · exact h
      have hfuel0 : 0 < fuel := by
        have := List.length_pos.mpr hr.1
        omega
      exact ih _ _ hn' hf' hfuel0
        (by rcases hdec with h | h
            · exact Or.inl h
            · exact Or.inr (by omega))
    · rw [if_neg hcond]
      exact ⟨q, rem, rfl⟩

/-- Partial correctness of `divide`, for every budget. -/
theorem divide_partial {p d q r : List Nat} (hp : IsNormalized p) (hfp : InField F p)
    (hd : IsNormalized d) (hfd : InField F d) (hdz : isZero d = false) {fuel : Nat}
    (h : divide F fuel p d = Result.ok (q, r)) :
    IsNormalized q ∧ InField F q ∧ IsNormalized r ∧ InField F r ∧
      toPoly F q * toPoly F d + toPoly F r = toPoly F p ∧
      (isZero r = true ∨ GenericGFPoly.degree r < GenericGFPoly.degree d) := by
  unfold divide at h
  rw [hdz, if_neg (by decide)] at h
  obtain ⟨h1, h2, h3, h4, h5, h6⟩ := divideLoop_partial hd hfd hdz fuel (setMonomial 0) p q r
    isNormalized_zero (inField_setMonomial zero_lt_size 0) hp hfp h
  refine ⟨h1, h2, h3, h4, ?_, h6⟩
  rw [h5]
  have : toPoly F (setMonomial 0) = 0 := toPoly_zero
  rw [this, zero_mul, zero_add]

/-- `divide` returns, for a nonzero divisor and enough budget, a quotient and
a remainder with `dividend = quotient * divisor + remainder` and a remainder
that is zero or of smaller degree than the divisor. -/
theorem divide_spec {p d : List Nat} (hp : IsNormalized p) (hfp : InField F p)
    (hd : IsNormalized d) (hfd : InField F d) (hdz : isZero d = false) {fuel : Nat}
    (hfuel : p.length < fuel) :
    ∃ q r, divide F fuel p d = Result.ok (q, r) ∧
      IsNormalized q ∧ InField F q ∧ IsNormalized r ∧ InField F r ∧
      toPoly F q * toPoly F d + toPoly F r = toPoly F p ∧
      (isZero r = true ∨ GenericGFPoly.degree r < GenericGFPoly.degree d) := by
  have htot : ∃ q r, divide F fuel p d = Result.ok (q, r) := by
    unfold divide
    rw [hdz, if_neg (by decide)]
    exact divideLoop_total hd hfd hdz fuel (setMonomial 0) p hp hfp (by omega) (Or.inr hfuel)
  obtain ⟨q, r, he⟩ := htot
  exact ⟨q, r, he, divide_partial hp hfp hd hfd hdz he⟩

end Divide

end ZXing

namespace ZXing

open GenericGFPoly Polynomial

/-! ## The Euclidean algorithm -/

section Euclid

variable {F : GenericGF} [hF : Fact F.Lawful]

theorem euclid_step {S : Polynomial (GFElem F)} {R : Nat} {s : EuclidState}
    (inv : EuclidInv F S R s) (hlarge : R / 2 ≤ GenericGFPoly.degree s.r)
    (hrz : isZero s.r = false) {divFuel : Nat} {q r' : List Nat}
    (hdiv : divide F divFuel s.rLast s.r = Result.ok (q, r'))
    (hred : ¬ GenericGFPoly.degree r' ≥ GenericGFPoly.degree s.r) :
    EuclidInv F S R ⟨s.r, r', s.t, (addOrSubtract (multiply F q s.t) s.tLast).1⟩ := by
  obtain ⟨hq, hfq, hr', hfr', hpoly, hrem⟩ :=
    divide_partial inv.nrLast inv.frLast inv.nr inv.fr hrz hdiv
  have hm := isNormalized_multiply (F := F) q s.t
  have hmf := inField_multiply hfq inv.ft
  have ht' : toPoly F (addOrSubtract (multiply F q s.t) s.tLast).1
      = toPoly F q * toPoly F s.t + toPoly F s.tLast := by
    rw [toPoly_addOrSubtract hm inv.ntLast hmf inv.ftLast, toPoly_multiply hq inv.nt hfq inv.ft]
  -- degrees as natural numbers
  have hnr := natDegree_toPoly inv.nr inv.fr
  have hnrl := natDegree_toPoly inv.nrLast inv.frLast
  have hnr' := natDegree_toPoly hr' hfr'
  have hr0 : toPoly F s.r ≠ 0 := by
    rw [Ne, toPoly_eq_zero_iff inv.nr inv.fr, hrz]; decide
  have hrl0 : toPoly F s.rLast ≠ 0 := by
    rw [Ne, toPoly_eq_zero_iff inv.nrLast inv.frLast, inv.rLastNonzero]; decide
  have hlt : GenericGFPoly.degree s.r < GenericGFPoly.degree s.rLast := by
    rcases inv.degR with h | h
    · rw [hrz] at h; exact absurd h (by decide)
    · exact h
  -- the quotient's degree
  have hqdeg : (toPoly F q).natDegree + GenericGFPoly.degree s.r
      ≤ GenericGFPoly.degree s.rLast := by
    by_cases hq0 : toPoly F q = 0
    · rw [hq0, natDegree_zero]; omega
    · have hqr0 : toPoly F q * toPoly F s.r ≠ 0 := mul_ne_zero hq0 hr0
      have hqr : (toPoly F q * toPoly F s.r).natDegree
          = (toPoly F q).natDegree + GenericGFPoly.degree s.r := by
        rw [natDegree_mul hq0 hr0, hnr]
      by_cases hr'0 : toPoly F r' = 0
      · rw [hr'0, add_zero] at hpoly
        rw [← hnrl, ← hpoly, hqr]
      · have : (toPoly F r').natDegree < (toPoly F q * toPoly F s.r).natDegree := by
          rw [hqr, hnr']
          omega
        rw [← hnrl, ← hpoly, natDegree_add_eq_left_of_natDegree_lt this, hqr]
  obtain ⟨u, uLast, hu, huL, hdet⟩ := inv.bezout
  have hr'eq : toPoly F r' = toPoly F s.rLast + toPoly F q * toPoly F s.r := by
    rw [← hpoly]
    have := poly_add_self (toPoly F q * toPoly F s.r)
    linear_combination -this
  refine
    { nr := hr', fr := hfr', nrLast := inv.nr, frLast := inv.fr
      nt := isNormalized_addOrSubtract_fst hm inv.ntLast
      ft := inField_addOrSubtract_fst hm inv.ntLast hmf inv.ftLast
      ntLast := inv.nt, ftLast := inv.ft
      bezout := ⟨uLast + toPoly F q * u, u, ?_, hu, ?_⟩
      degT := ?_, degTLast := ?_
      rLastNonzero := hrz, rLastLarge := hlarge
      degR := ?_ }
  · show toPoly F r' = _
    rw [hr'eq, ht', huL, hu]
    ring
  · show u * toPoly F (addOrSubtract (multiply F q s.t) s.tLast).1
      + (uLast + toPoly F q * u) * toPoly F s.t = 1
    rw [ht']
    have := poly_add_self (toPoly F q * u * toPoly F s.t)
    linear_combination hdet + this
  · show (toPoly F (addOrSubtract (multiply F q s.t) s.tLast).1).natDegree
      + GenericGFPoly.degree s.r ≤ R
    rw [ht']
    have h1 := natDegree_add_le (toPoly F q * toPoly F s.t) (toPoly F s.tLast)
    have h2 := natDegree_mul_le (p := toPoly F q) (q := toPoly F s.t)
    have h3 := inv.degT
    have h4 := inv.degTLast
    rcases le_max_iff.mp h1 with h | h <;> omega
  · show (toPoly F s.t).natDegree + GenericGFPoly.degree s.r ≤ R
    have h3 := inv.degT
    omega
  · show isZero r' = true ∨ GenericGFPoly.degree r' < GenericGFPoly.degree s.r
    exact hrem

omit hF in
theorem isZero_false_of_degree_pos {c : List Nat} (hc : IsNormalized c)
    (h : 0 < GenericGFPoly.degree c) : isZero c = false := by
  by_contra hz
  have hz' : isZero c = true := by simpa using hz
  rw [isZero_eq_of_isNormalized hc hz'] at h
  exact absurd h (by decide)

omit hF in
theorem degree_zero_of_isZero {c : List Nat} (hc : IsNormalized c) (h : isZero c = true) :
    GenericGFPoly.degree c = 0 := by
  rw [isZero_eq_of_isNormalized hc h]
  rfl

/-- Partial correctness of the Euclidean loop, for every budget: a returned
state satisfies the invariant and has `degree(r) < R / 2`. -/
theorem euclidLoop_partial {S : Polynomial (GFElem F)} {R divFuel : Nat} :
    ∀ (fuel : Nat) (s s' : EuclidState), EuclidInv F S R s →
      euclidLoop F divFuel R fuel s = Result.ok (some s') →
      EuclidInv F S R s' ∧ GenericGFPoly.degree s'.r < R / 2 := by
  intro fuel
  induction fuel with
  | zero =>
    intro s s' _ h
    unfold euclidLoop at h
    exact absurd h (by simp)
  | succ fuel ih =>
    intro s s' inv h
    unfold euclidLoop at h
    by_cases hc : GenericGFPoly.degree s.r ≥ R / 2
    · rw [if_pos hc] at h
      simp only at h
      by_cases hz : isZero s.r = true
      · rw [if_pos hz] at h
        exact absurd h (by simp)
      · rw [if_neg hz] at h
        have hrz : isZero s.r = false := by simpa using hz
        cases hdiv : divide F divFuel s.rLast s.r with
        | ok p =>
          obtain ⟨q, r'⟩ := p
          rw [hdiv] at h
          simp only at h
          by_cases hred : GenericGFPoly.degree r' ≥ GenericGFPoly.degree s.r
          · rw [if_pos hred] at h
            exact absurd h (by simp)
          · rw [if_neg hred] at h
            exact ih _ s' (euclid_step inv hc hrz hdiv hred) h
        | invalidArgument => rw [hdiv] at h; exact absurd h (by simp)
        | runtimeError => rw [hdiv] at h; exact absurd h (by simp)
        | outOfFuel => rw [hdiv] at h; exact absurd h (by simp)
    · rw [if_neg hc] at h
      have hs : s = s' := Option.some.inj (Result.ok.inj h)
      subst hs
      exact ⟨inv, by omega⟩

/-- Termination of the Euclidean loop for `R ≥ 2`: with a division budget
above `R + 1` and a loop budget above `degree(r)`, the loop returns a state
(it neither throws nor takes the early `return false`). -/
theorem euclidLoop_total {S : Polynomial (GFElem F)} {R divFuel : Nat} (hR : 2 ≤ R)
    (hdf : R + 1 < divFuel) :
    ∀ (fuel : Nat) (s : EuclidState), EuclidInv F S R s → GenericGFPoly.degree s.r < fuel →
      ∃ s', euclidLoop F divFuel R fuel s = Result.ok (some s') := by
  intro fuel
  induction fuel with
  | zero => intro s _ h; exact absurd h (by omega)
  | succ fuel ih =>
    intro s inv hfuel
    unfold euclidLoop
    by_cases hc : GenericGFPoly.degree s.r ≥ R / 2
    · rw [if_pos hc]
      simp only
      have hpos : 0 < GenericGFPoly.degree s.r := by omega
      have hrz : isZero s.r = false := isZero_false_of_degree_pos inv.nr hpos
      rw [hrz, if_neg (by decide)]
      have hlen : s.rLast.length < divFuel := by
        have h1 := inv.degT
        have h2 : GenericGFPoly.degree s.rLast = s.rLast.length - 1 := rfl
        omega
      obtain ⟨q, r', hdiv, -, -, hr', -, -, hrem⟩ :=
        divide_spec inv.nrLast inv.frLast inv.nr inv.fr hrz hlen
      rw [hdiv]
      simp only
      have hred : ¬ GenericGFPoly.degree r' ≥ GenericGFPoly.degree s.r := by
        rcases hrem with h | h
        · rw [degree_zero_of_isZero hr' h]; omega
        · omega
      rw [if_neg hred]
      apply ih _ (euclid_step inv hc hrz hdiv hred)
      show GenericGFPoly.degree r' < fuel
      omega
    · rw [if_neg hc]
      exact ⟨s, rfl⟩

theorem toPoly_one : toPoly F [1] = 1 := by
  rw [toPoly_singleton, toElem_one, C_1]

/-- The invariant holds on entry to the Euclidean loop. -/
theorem euclid_init {rCoefs : List Nat} {R : Nat} (hf : InField F rCoefs)
    (hlen : rCoefs.length = R) (hR : 1 ≤ R) :
    EuclidInv F (toPoly F rCoefs) R
      ⟨setMonomial 1 R, GenericGFPoly.normalize rCoefs, setMonomial 0, setMonomial 1⟩ := by
  have hne : rCoefs ≠ [] := by
    intro h; rw [h] at hlen; simp at hlen; omega
  have hnn := isNormalized_normalize hne
  have hdeg : GenericGFPoly.degree (GenericGFPoly.normalize rCoefs) < R := by
    have h1 := natDegree_toPoly hnn (inField_normalize hf zero_lt_size)
    rw [toPoly_normalize] at h1
    have h2 := natDegree_toPoly_le (F := F) rCoefs
    omega
  have hmR : GenericGFPoly.degree (setMonomial 1 R) = R := by
    simp [GenericGFPoly.degree, setMonomial]
  exact
    { nr := hnn
      fr := inField_normalize hf zero_lt_size
      nrLast := isNormalized_setMonomial (by decide) R
      frLast := inField_setMonomial hF.out.one_lt_size R
      nt := isNormalized_setMonomial (by decide) 0
      ft := inField_setMonomial hF.out.one_lt_size 0
      ntLast := isNormalized_zero
      ftLast := inField_setMonomial zero_lt_size 0
      bezout := ⟨0, 1, by
        show toPoly F (GenericGFPoly.normalize rCoefs) = _
        rw [toPoly_normalize, toPoly_setMonomial, toElem_one]; simp, by
        show toPoly F (setMonomial 1 R) = _
        rw [toPoly_setMonomial, toPoly_setMonomial, toElem_one, toElem_zero]; simp, by
        show (1 : Polynomial (GFElem F)) * toPoly F (setMonomial 1) + 0 * _ = 1
        rw [toPoly_setMonomial, toElem_one]; simp⟩
      degT := by
        show (toPoly F (setMonomial 1)).natDegree + _ ≤ R
        rw [toPoly_setMonomial, toElem_one, hmR]; simp
      degTLast := by
        show (toPoly F (setMonomial 0)).natDegree + _ ≤ R
        rw [toPoly_setMonomial, toElem_zero, hmR]; simp
      rLastNonzero := rfl
      rLastLarge := by rw [hmR]; omega
      degR := Or.inr (by rw [hmR]; exact hdeg) }

omit hF in
theorem coefficient_zero_eq (c : List Nat) (hne : c ≠ []) : coefficient c 0 = coeffAt c 0 := by
  unfold coefficient
  rw [coeffAt_eq_getD, if_pos (List.length_pos.mpr hne)]

omit hF in
theorem runEuclid_unfold {rCoefs : List Nat} {R fuel : Nat}
    (hdeg : GenericGFPoly.degree (GenericGFPoly.normalize rCoefs) < R) :
    RunEuclideanAlgorithm F fuel rCoefs R =
      match euclidLoop F fuel R fuel
        ⟨setMonomial 1 R, GenericGFPoly.normalize rCoefs, setMonomial 0, setMonomial 1⟩ with
      | Result.ok none => Result.ok none
      | Result.ok (some s) =>
        if coefficient s.t 0 = 0 then Result.ok none
        else
          Result.ok (some (multiplyByMonomial F s.t 0 (F.inverse (coefficient s.t 0)),
            multiplyByMonomial F s.r 0 (F.inverse (coefficient s.t 0))))
      | Result.invalidArgument => Result.invalidArgument
      | Result.runtimeError => Result.runtimeError
      | Result.outOfFuel => Result.outOfFuel := by
  unfold RunEuclideanAlgorithm
  have hmR : GenericGFPoly.degree (setMonomial 1 R) = R := by
    simp [GenericGFPoly.degree, setMonomial]
  simp only [hmR]
  rw [if_neg (by omega)]

/-- What `RunEuclideanAlgorithm` guarantees about a returned pair
`(sigma, omega)`, for every budget: the key equation with a cofactor coprime
to `sigma`, `sigma(0) = 1`, and the degree bounds. -/
theorem runEuclid_partial {rCoefs : List Nat} {R : Nat} (hf : InField F rCoefs)
    (hlen : rCoefs.length = R) (hR : 1 ≤ R) {fuel : Nat} {sigma omega : List Nat}
    (h : RunEuclideanAlgorithm F fuel rCoefs R = Result.ok (some (sigma, omega))) :
    IsNormalized sigma ∧ InField F sigma ∧ IsNormalized omega ∧ InField F omega ∧
    (toPoly F sigma).coeff 0 = 1 ∧ (toPoly F sigma).natDegree ≤ R - R / 2 ∧
    (toPoly F omega).natDegree < R / 2 ∧
    ∃ u : Polynomial (GFElem F),
      toPoly F omega = u * X ^ R + toPoly F sigma * toPoly F rCoefs ∧
      IsCoprime u (toPoly F sigma) := by
  have inv0 := euclid_init hf hlen hR
  have hdeg : GenericGFPoly.degree (GenericGFPoly.normalize rCoefs) < R := by
    have := inv0.degR
    have hmR : GenericGFPoly.degree (setMonomial 1 R) = R := by
      simp [GenericGFPoly.degree, setMonomial]
    rcases this with hz | hlt
    · rw [degree_zero_of_isZero inv0.nr hz]; omega
    · rw [← hmR]; exact hlt
  rw [runEuclid_unfold hdeg] at h
  cases hloop : euclidLoop F fuel R fuel
      ⟨setMonomial 1 R, GenericGFPoly.normalize rCoefs, setMonomial 0, setMonomial 1⟩ with
  | invalidArgument => rw [hloop] at h; exact absurd h (by simp)
  | runtimeError => rw [hloop] at h; exact absurd h (by simp)
  | outOfFuel => rw [hloop] at h; exact absurd h (by simp)
  | ok res =>
    rw [hloop] at h
    cases res with
    | none => exact absurd h (by simp)
    | some s =>
      simp only at h
      obtain ⟨inv, hsmall⟩ := euclidLoop_partial fuel _ s inv0 hloop
      by_cases hc0 : coefficient s.t 0 = 0
      · rw [if_pos hc0] at h
        exact absurd h (by simp)
      · rw [if_neg hc0] at h
        have hpair := Option.some.inj (Result.ok.inj h)
        obtain ⟨hs, ho⟩ := Prod.mk.inj hpair
        have hclt : coefficient s.t 0 < F.size := by
          rw [coefficient_zero_eq _ inv.nt.1]
          exact coeffAt_lt inv.ft 0
        have hilt : F.inverse (coefficient s.t 0) < F.size :=
          hF.out.inverse_lt _ (Nat.pos_of_ne_zero hc0) hclt
        have hce : toElem F (coefficient s.t 0) = (toPoly F s.t).coeff 0 := by
          rw [coeff_toPoly, coefficient_zero_eq _ inv.nt.1]
        have hce0 : (toPoly F s.t).coeff 0 ≠ 0 := by
          rw [← hce, Ne, toElem_eq_zero_iff hclt]
          exact hc0
        have hsig : toPoly F sigma = toPoly F s.t * C ((toPoly F s.t).coeff 0)⁻¹ := by
          rw [← hs, toPoly_multiplyByMonomial inv.ft 0 hilt, toElem_inverse hclt hc0, hce]
          simp
        have hom : toPoly F omega = toPoly F s.r * C ((toPoly F s.t).coeff 0)⁻¹ := by
          rw [← ho, toPoly_multiplyByMonomial inv.fr 0 hilt, toElem_inverse hclt hc0, hce]
          simp
        have hk : ((toPoly F s.t).coeff 0)⁻¹ ≠ 0 := inv_ne_zero hce0
        refine ⟨?_, ?_, ?_, ?_, ?_, ?_, ?_, ?_⟩
        · rw [← hs]; exact isNormalized_multiplyByMonomial inv.nt.1 _ _
        · rw [← hs]; exact inField_multiplyByMonomial inv.ft _ hilt
        · rw [← ho]; exact isNormalized_multiplyByMonomial inv.nr.1 _ _
        · rw [← ho]; exact inField_multiplyByMonomial inv.fr _ hilt
        · rw [hsig, coeff_mul_C, mul_inv_cancel₀ hce0]
        · rw [hsig, natDegree_mul_C hk]
          have h1 := inv.degT
          have h2 := inv.rLastLarge
          omega
        · rw [hom, natDegree_mul_C hk, natDegree_toPoly inv.nr inv.fr]
          exact hsmall
        · obtain ⟨u, uLast, hu, -, hdet⟩ := inv.bezout
          refine ⟨u * C ((toPoly F s.t).coeff 0)⁻¹, ?_, ?_⟩
          · rw [hom, hsig, hu]
            ring
          · refine ⟨toPoly F s.tLast * C ((toPoly F s.t).coeff 0),
              uLast * C ((toPoly F s.t).coeff 0), ?_⟩
            rw [hsig]
            have hcc : (C ((toPoly F s.t).coeff 0) : Polynomial (GFElem F))
                * C ((toPoly F s.t).coeff 0)⁻¹ = 1 := by
              rw [← C_mul, mul_inv_cancel₀ hce0, C_1]
            linear_combination
              (toPoly F s.tLast * u + uLast * toPoly F s.t) * hcc + hdet

/-- `RunEuclideanAlgorithm` returns for `R ≥ 2` and a budget above `R + 1`:
it neither throws nor runs out of budget. -/
theorem runEuclid_total {rCoefs : List Nat} {R : Nat} (hf : InField F rCoefs)
    (hlen : rCoefs.length = R) (hR : 2 ≤ R) {fuel : Nat} (hfuel : R + 1 < fuel) :
    ∃ res, RunEuclideanAlgorithm F fuel rCoefs R = Result.ok res := by
  have inv0 := euclid_init hf hlen (by omega : 1 ≤ R)
  have hmR : GenericGFPoly.degree (setMonomial 1 R) = R := by
    simp [GenericGFPoly.degree, setMonomial]
  have hdeg : GenericGFPoly.degree (GenericGFPoly.normalize rCoefs) < R := by
    rcases inv0.degR with hz | hlt
    · rw [degree_zero_of_isZero inv0.nr hz]; omega
    · rw [← hmR]; exact hlt
  rw [runEuclid_unfold hdeg]
  obtain ⟨s', hs'⟩ := euclidLoop_total hR hfuel fuel _ inv0
    (by show GenericGFPoly.degree (GenericGFPoly.normalize rCoefs) < fuel; omega)
  rw [hs']
  simp only
  split_ifs
  · exact ⟨_, rfl⟩
  · exact ⟨_, rfl⟩

/-- For `R ≥ 2` and enough budget `RunEuclideanAlgorithm` is decided by the
state on which the loop stops: `false` when its `t` has constant term `0`,
otherwise `true` with `t` and `r` scaled by the inverse of that term. -/
theorem runEuclid_eq {rCoefs : List Nat} {R : Nat} (hf : InField F rCoefs)
    (hlen : rCoefs.length = R) (hR : 2 ≤ R) {fuel : Nat} (hfuel : R + 1 < fuel) :
    ∃ s, EuclidInv F (toPoly F rCoefs) R s ∧ GenericGFPoly.degree s.r < R / 2 ∧
      RunEuclideanAlgorithm F fuel rCoefs R =
        if coefficient s.t 0 = 0 then Result.ok none
        else Result.ok (some (multiplyByMonomial F s.t 0 (F.inverse (coefficient s.t 0)),
          multiplyByMonomial F s.r 0 (F.inverse (coefficient s.t 0)))) := by
  have inv0 := euclid_init hf hlen (by omega : 1 ≤ R)
  have hmR : GenericGFPoly.degree (setMonomial 1 R) = R := by
    simp [GenericGFPoly.degree, setMonomial]
  have hdeg : GenericGFPoly.degree (GenericGFPoly.normalize rCoefs) < R := by
    rcases inv0.degR with hz | hlt
    · rw [degree_zero_of_isZero inv0.nr hz]; omega
    · rw [← hmR]; exact hlt
  obtain ⟨s, hs⟩ := euclidLoop_total hR hfuel fuel _ inv0
    (by show GenericGFPoly.degree (GenericGFPoly.normalize rCoefs) < fuel; omega)
  obtain ⟨inv, hsmall⟩ := euclidLoop_partial fuel _ s inv0 hs
  refine ⟨s, inv, hsmall, ?_⟩
  rw [runEuclid_unfold hdeg, hs]

/-- The algebraic content of a state on which the loop stops. -/
theorem euclidInv_facts {S : Polynomial (GFElem F)} {R : Nat} {s : EuclidState}
    (inv : EuclidInv F S R s) (hsmall : GenericGFPoly.degree s.r < R / 2) :
    (toPoly F s.t).natDegree ≤ R - R / 2 ∧ (toPoly F s.r).natDegree < R / 2 ∧
    ∃ u : Polynomial (GFElem F),
      toPoly F s.r = u * X ^ R + toPoly F s.t * S ∧ IsCoprime u (toPoly F s.t) := by
  refine ⟨?_, ?_, ?_⟩
  · have h1 := inv.degT
    have h2 := inv.rLastLarge
    omega
  · rw [natDegree_toPoly inv.nr inv.fr]
    exact hsmall
  · obtain ⟨u, uLast, hu, -, hdet⟩ := inv.bezout
    exact ⟨u, hu, toPoly F s.tLast, uLast, by linear_combination hdet⟩

end Euclid

end ZXing

namespace ZXing

open Polynomial

/-! ## The key equation over a field of characteristic two -/

section KeyEquation

variable {K : Type} [Field K]

theorem char2_poly_add_self (h2 : ∀ a : K, a + a = 0) (p : K[X]) : p + p = 0 := by
  ext d
  rw [coeff_add, h2, coeff_zero]

theorem char2_eq_of_add_eq_zero (h2 : ∀ a : K, a + a = 0) {p q : K[X]} (h : p + q = 0) :
    p = q := by
  have := char2_poly_add_self h2 q
  linear_combination h - this

/-- Uniqueness of the solution of the key equation: a pair `(t, r)` produced
by the Euclidean algorithm (a combination of `x^R` and `S` with coprime
cofactors and the stopping degrees) is a constant multiple of every coprime
solution `(σ, ω)` of low degree. -/
theorem key_equation_unique (h2 : ∀ a : K, a + a = 0) {S u t r us σs ωs : K[X]} {R e : Nat}
    (hr : r = u * X ^ R + t * S) (hcop : IsCoprime u t)
    (hs : ωs = us * X ^ R + σs * S) (hcops : IsCoprime σs ωs) (hσ0 : σs ≠ 0)
    (hdt : t.natDegree ≤ R - R / 2) (hdr : r.natDegree < R / 2)
    (hdσ : σs.natDegree ≤ e) (hdω : ωs.natDegree < e) (he : e ≤ R / 2) :
    ∃ c : K, c ≠ 0 ∧ σs = C c * t ∧ ωs = C c * r := by
  have hkey : t * ωs + r * σs = (t * us + u * σs) * X ^ R := by
    rw [hr, hs]
    have := char2_poly_add_self h2 (t * σs * S)
    linear_combination this
  have hdeg : (t * ωs + r * σs).natDegree < R := by
    have h1 := natDegree_add_le (t * ωs) (r * σs)
    have h3 := natDegree_mul_le (p := t) (q := ωs)
    have h4 := natDegree_mul_le (p := r) (q := σs)
    rcases le_max_iff.mp h1 with h | h <;> omega
  have hzero : t * us + u * σs = 0 := by
    by_contra hne
    have : ((t * us + u * σs) * X ^ R).natDegree = (t * us + u * σs).natDegree + R := by
      rw [natDegree_mul hne (pow_ne_zero _ X_ne_zero), natDegree_X_pow]
    rw [hkey, this] at hdeg
    omega
  have h1 : t * us = u * σs := char2_eq_of_add_eq_zero h2 hzero
  have h2' : t * ωs = r * σs := by
    apply char2_eq_of_add_eq_zero h2
    rw [hkey, hzero, zero_mul]
  have hdvd : t ∣ σs := by
    apply hcop.symm.dvd_of_dvd_mul_left
    exact ⟨us, h1.symm⟩
  obtain ⟨μ, hμ⟩ := hdvd
  have ht0 : t ≠ 0 := by
    intro h
    rw [h, zero_mul] at hμ
    exact hσ0 hμ
  have hω : ωs = r * μ := by
    apply mul_left_cancel₀ ht0
    rw [h2', hμ]
    ring
  have hunit : IsUnit μ :=
    hcops.isUnit_of_dvd' ⟨t, by rw [hμ]; ring⟩ ⟨r, by rw [hω]; ring⟩
  obtain ⟨c, hc, hcμ⟩ := Polynomial.isUnit_iff.mp hunit
  refine ⟨c, hc.ne_zero, ?_, ?_⟩
  · rw [hμ, ← hcμ]; ring
  · rw [hω, ← hcμ]; ring

theorem geom_factor (h2 : ∀ a : K, a + a = 0) (a : K) (R : ℕ) :
    (1 + C a * X) * ∑ i in Finset.range R, C (a ^ i) * X ^ i = 1 + C (a ^ R) * X ^ R := by
  have h := mul_geom_sum (C a * X) R
  have e1 : ∀ i, (C a * X : K[X]) ^ i = C (a ^ i) * X ^ i := by
    intro i; rw [mul_pow, C_pow]
  simp only [e1] at h
  have h3 := char2_poly_add_self h2 (1 : K[X])
  have h4 := char2_poly_add_self h2 (∑ i in Finset.range R, C (a ^ i) * X ^ i)
  linear_combination h + h4 - h3

theorem syndromePoly_eq (P : Finset ℕ) (Xf yf : ℕ → K) (g R : ℕ) :
    syndromePoly P Xf yf g R
      = ∑ p in P, C (yf p * Xf p ^ g) * ∑ i in Finset.range R, C (Xf p ^ i) * X ^ i := by
  unfold syndromePoly
  simp only [map_sum, Finset.sum_mul, Finset.mul_sum]
  rw [Finset.sum_comm]
  apply Finset.sum_congr rfl
  intro p _
  apply Finset.sum_congr rfl
  intro i _
  rw [← mul_assoc, ← C_mul]
  congr 2
  rw [pow_add]
  ring

/-- The key equation for the true locator and evaluator. -/
theorem key_equation (h2 : ∀ a : K, a + a = 0) (P : Finset ℕ) (Xf yf : ℕ → K) (g R : ℕ) :
    evaluatorPoly P Xf yf g
      = (∑ p in P, C (yf p * Xf p ^ g * Xf p ^ R) * ∏ q in P.erase p, (1 + C (Xf q) * X))
          * X ^ R
        + locatorPoly P Xf * syndromePoly P Xf yf g R := by
  rw [syndromePoly_eq, Finset.mul_sum, Finset.sum_mul]
  unfold evaluatorPoly
  rw [← Finset.sum_add_distrib]
  apply Finset.sum_congr rfl
  intro p hp
  have hsplit : locatorPoly P Xf
      = (1 + C (Xf p) * X) * ∏ q in P.erase p, (1 + C (Xf q) * X) := by
    unfold locatorPoly
    rw [Finset.mul_prod_erase P (fun q => 1 + C (Xf q) * X) hp]
  have hg := geom_factor h2 (Xf p) R
  rw [hsplit]
  have h5 := char2_poly_add_self h2
    (C (yf p * Xf p ^ g * Xf p ^ R) * (∏ q in P.erase p, (1 + C (Xf q) * X)) * X ^ R)
  have hC : (C (yf p * Xf p ^ g * Xf p ^ R) : K[X]) = C (yf p * Xf p ^ g) * C (Xf p ^ R) := by
    rw [← C_mul]
  rw [hC] at h5 ⊢
  linear_combination
    (-(C (yf p * Xf p ^ g) * ∏ q in P.erase p, (1 + C (Xf q) * X))) * hg - h5

theorem eval_locatorPoly (P : Finset ℕ) (Xf : ℕ → K) (a : K) :
    (locatorPoly P Xf).eval a = ∏ p in P, (1 + Xf p * a) := by
  unfold locatorPoly
  rw [eval_prod]
  apply Finset.prod_congr rfl
  intro p _
  simp

theorem eval_evaluatorPoly (P : Finset ℕ) (Xf yf : ℕ → K) (g : ℕ) (a : K) :
    (evaluatorPoly P Xf yf g).eval a
      = ∑ p in P, yf p * Xf p ^ g * ∏ q in P.erase p, (1 + Xf q * a) := by
  unfold evaluatorPoly
  rw [eval_finset_sum]
  apply Finset.sum_congr rfl
  intro p _
  rw [eval_mul, eval_C, eval_prod]
  congr 1
  apply Finset.prod_congr rfl
  intro q _
  simp

theorem char2_one_add_eq_zero (h2 : ∀ a : K, a + a = 0) {b : K} (h : 1 + b = 0) : b = 1 := by
  have := h2 b
  linear_combination this - h

theorem linear_factor_ne_zero (x : K) : (1 + C x * X : K[X]) ≠ 0 := by
  intro h
  have := congrArg (fun p => Polynomial.coeff p 0) h
  simp at this

theorem natDegree_linear_factor {x : K} (hx : x ≠ 0) : (1 + C x * X : K[X]).natDegree = 1 := by
  have : (1 + C x * X : K[X]) = C x * X + C 1 := by rw [C_1]; ring
  rw [this, natDegree_linear hx]

theorem natDegree_linear_factor_le (x : K) : (1 + C x * X : K[X]).natDegree ≤ 1 := by
  by_cases hx : x = 0
  · rw [hx]; simp
  · rw [natDegree_linear_factor hx]

theorem locatorPoly_ne_zero (P : Finset ℕ) (Xf : ℕ → K) : locatorPoly P Xf ≠ 0 := by
  unfold locatorPoly
  rw [Finset.prod_ne_zero_iff]
  intro p _
  exact linear_factor_ne_zero _

theorem natDegree_locatorPoly (P : Finset ℕ) (Xf : ℕ → K) (hX : ∀ p ∈ P, Xf p ≠ 0) :
    (locatorPoly P Xf).natDegree = P.card := by
  unfold locatorPoly
  rw [natDegree_prod _ _ (fun p _ => linear_factor_ne_zero _)]
  rw [Finset.sum_congr rfl (fun p hp => natDegree_linear_factor (hX p hp))]
  simp

theorem coeff_zero_locatorPoly (P : Finset ℕ) (Xf : ℕ → K) :
    (locatorPoly P Xf).coeff 0 = 1 := by
  rw [coeff_zero_eq_eval_zero, eval_locatorPoly]
  simp

theorem natDegree_evaluatorPoly_lt (P : Finset ℕ) (Xf yf : ℕ → K) (g : ℕ)
    (hP : 0 < P.card) : (evaluatorPoly P Xf yf g).natDegree < P.card := by
  have hle : (evaluatorPoly P Xf yf g).natDegree ≤ P.card - 1 := by
    unfold evaluatorPoly
    apply natDegree_sum_le_of_forall_le
    intro p hp
    refine le_trans (natDegree_C_mul_le _ _) ?_
    refine le_trans (natDegree_prod_le _ _) ?_
    refine le_trans (Finset.sum_le_card_nsmul _ _ 1 (fun q _ => natDegree_linear_factor_le _)) ?_
    rw [Finset.card_erase_of_mem hp]
    simp
  omega

/-- The evaluator at the inverse of a locator: only that place contributes. -/
theorem eval_evaluatorPoly_inv (h2 : ∀ a : K, a + a = 0) (P : Finset ℕ) (Xf yf : ℕ → K)
    (g : ℕ) {p0 : ℕ} (hp0 : p0 ∈ P) (hX0 : Xf p0 ≠ 0) :
    (evaluatorPoly P Xf yf g).eval (Xf p0)⁻¹
      = yf p0 * Xf p0 ^ g * ∏ q in P.erase p0, (1 + Xf q * (Xf p0)⁻¹) := by
  rw [eval_evaluatorPoly]
  apply Finset.sum_eq_single p0
  · intro p hp hne
    have hmem : p0 ∈ P.erase p := Finset.mem_erase.mpr ⟨fun h => hne h.symm, hp0⟩
    rw [Finset.prod_eq_zero hmem, mul_zero]
    rw [mul_inv_cancel₀ hX0]
    exact h2 1
  · intro h
    exact absurd hp0 h

theorem forney_denominator_ne_zero (h2 : ∀ a : K, a + a = 0) (P : Finset ℕ) (Xf : ℕ → K)
    (hinj : Set.InjOn Xf P) {p0 : ℕ} (hp0 : p0 ∈ P) (hX0 : Xf p0 ≠ 0) :
    ∏ q in P.erase p0, (1 + Xf q * (Xf p0)⁻¹) ≠ 0 := by
  rw [Finset.prod_ne_zero_iff]
  intro q hq h
  have hq' := Finset.mem_erase.mp hq
  have h1 := char2_one_add_eq_zero h2 h
  have : Xf q = Xf p0 := by
    field_simp at h1
    exact h1
  exact hq'.1 (hinj (Finset.mem_coe.mpr hq'.2) (Finset.mem_coe.mpr hp0) this)

theorem isCoprime_linear_factor (h2 : ∀ a : K, a + a = 0) {x : K} (hx : x ≠ 0) {ω : K[X]}
    (hω : ω.eval x⁻¹ ≠ 0) : IsCoprime (1 + C x * X) ω := by
  have hmod := modByMonic_add_div ω (monic_X_sub_C x⁻¹)
  rw [modByMonic_X_sub_C_eq_C_eval] at hmod
  have hlin : (1 + C x * X : K[X]) = C x * (X - C x⁻¹) := by
    have h1 : (C x * C x⁻¹ : K[X]) = 1 := by rw [← C_mul, mul_inv_cancel₀ hx, C_1]
    have h3 := char2_poly_add_self h2 (1 : K[X])
    linear_combination h3 + h1
  have hx' : (C x⁻¹ * C x : K[X]) = 1 := by rw [← C_mul, inv_mul_cancel₀ hx, C_1]
  have hv : (C (ω.eval x⁻¹)⁻¹ * C (ω.eval x⁻¹) : K[X]) = 1 := by
    rw [← C_mul, inv_mul_cancel₀ hω, C_1]
  refine ⟨-(C (ω.eval x⁻¹)⁻¹ * C x⁻¹ * (ω /ₘ (X - C x⁻¹))), C (ω.eval x⁻¹)⁻¹, ?_⟩
  rw [hlin]
  linear_combination (-(C (ω.eval x⁻¹)⁻¹)) * hmod + hv
    - (C (ω.eval x⁻¹)⁻¹ * (X - C x⁻¹) * (ω /ₘ (X - C x⁻¹))) * hx'

/-- The true locator and evaluator are coprime. -/
theorem isCoprime_locator_evaluator (h2 : ∀ a : K, a + a = 0) (P : Finset ℕ) (Xf yf : ℕ → K)
    (g : ℕ) (hinj : Set.InjOn Xf P) (hX : ∀ p ∈ P, Xf p ≠ 0) (hy : ∀ p ∈ P, yf p ≠ 0) :
    IsCoprime (locatorPoly P Xf) (evaluatorPoly P Xf yf g) := by
  unfold locatorPoly
  apply IsCoprime.prod_left
  intro p hp
  apply isCoprime_linear_factor h2 (hX p hp)
  rw [eval_evaluatorPoly_inv h2 P Xf yf g hp (hX p hp)]
  exact mul_ne_zero (mul_ne_zero (hy p hp) (pow_ne_zero _ (hX p hp)))
    (forney_denominator_ne_zero h2 P Xf hinj hp (hX p hp))

/-- The roots of the locator are the inverses of the locators. -/
theorem locatorPoly_root_iff (h2 : ∀ a : K, a + a = 0) (P : Finset ℕ) (Xf : ℕ → K)
    (hX : ∀ p ∈ P, Xf p ≠ 0) (a : K) :
    (locatorPoly P Xf).eval a = 0 ↔ ∃ p ∈ P, a = (Xf p)⁻¹ := by
  rw [eval_locatorPoly, Finset.prod_eq_zero_iff]
  constructor
  · rintro ⟨p, hp, h⟩
    refine ⟨p, hp, ?_⟩
    have h1 := char2_one_add_eq_zero h2 h
    exact eq_inv_of_mul_eq_one_right h1
  · rintro ⟨p, hp, rfl⟩
    refine ⟨p, hp, ?_⟩
    rw [mul_inv_cancel₀ (hX p hp)]
    exact h2 1

end KeyEquation

end ZXing

namespace ZXing

open GenericGFPoly Polynomial

/-! ## Syndromes of a received word -/

section Syndromes

variable {F : GenericGF} [hF : Fact F.Lawful]

theorem char2 (a : GFElem F) : a + a = 0 := GFElem.add_self a

theorem toElem_exp (k : Nat) : toElem F (F.exp k) = toElem F (F.exp 1) ^ k := by
  induction k with
  | zero => rw [hF.out.exp_zero, toElem_one, pow_zero]
  | succ k ih =>
    rw [hF.out.exp_succ, toElem_mul (hF.out.exp_lt _) (hF.out.exp_lt _), ih, pow_succ]

theorem errLocator_ne_zero (n p : Nat) : errLocator F n p ≠ 0 := by
  unfold errLocator
  rw [Ne, toElem_eq_zero_iff (hF.out.exp_lt _)]
  exact Nat.pos_iff_ne_zero.mp (hF.out.exp_pos _)

theorem errLocator_injOn {n : Nat} (hn : n ≤ F.size - 1) :
    Set.InjOn (errLocator F n) (Finset.range n : Finset Nat) := by
  intro p hp q hq h
  have hp' : p < n := Finset.mem_range.mp (Finset.mem_coe.mp hp)
  have hq' : q < n := Finset.mem_range.mp (Finset.mem_coe.mp hq)
  unfold errLocator at h
  have h1 := toElem_inj (hF.out.exp_lt _) (hF.out.exp_lt _) h
  have h2 := congrArg F.log h1
  rw [hF.out.log_exp _ (by omega), hF.out.log_exp _ (by omega)] at h2
  omega

theorem errLocator_pow (n p m : Nat) :
    errLocator F n p ^ m = toElem F (F.exp m) ^ (n - 1 - p) := by
  unfold errLocator
  rw [toElem_exp, toElem_exp m, ← pow_mul, ← pow_mul, Nat.mul_comm]

theorem foldl_xor_lt {c : List Nat} (hc : InField F c) {r : Nat} (hr : r < F.size) :
    c.foldl (fun x y => x ^^^ y) r < F.size := by
  induction c generalizing r with
  | nil => exact hr
  | cons x xs ih =>
    exact ih (fun y hy => hc y (by simp [hy])) (hF.out.xor_lt _ _ hr (hc x (by simp)))

theorem foldl_horner_lt {c : List Nat} (hc : InField F c) {a : Nat} (ha : a < F.size)
    {r : Nat} (hr : r < F.size) :
    c.foldl (fun result ci => F.multiply a result ^^^ ci) r < F.size := by
  induction c generalizing r with
  | nil => exact hr
  | cons x xs ih =>
    exact ih (fun y hy => hc y (by simp [hy]))
      (hF.out.xor_lt _ _ (hF.out.mul_lt _ _ ha hr) (hc x (by simp)))

theorem evaluateAt_lt {c : List Nat} (hc : InField F c) {a : Nat} (ha : a < F.size) :
    evaluateAt F c a < F.size := by
  unfold evaluateAt
  split_ifs
  · exact getD_lt hc zero_lt_size _
  · exact foldl_xor_lt hc zero_lt_size
  · apply foldl_horner_lt _ ha (headD_lt hc zero_lt_size)
    intro y hy
    exact hc y (List.mem_of_mem_tail hy)

theorem inField_syndromeCoefficients {poly : List Nat} (hp : InField F poly) (twoS : Nat) :
    InField F (syndromeCoefficients F poly twoS) := by
  intro x hx
  unfold syndromeCoefficients at hx
  rw [List.mem_reverse, List.mem_map] at hx
  obtain ⟨i, -, rfl⟩ := hx
  exact evaluateAt_lt hp (hF.out.exp_lt _)

omit hF in
theorem length_syndromeCoefficients (poly : List Nat) (twoS : Nat) :
    (syndromeCoefficients F poly twoS).length = twoS := by
  simp [syndromeCoefficients]

omit hF in
theorem coeffAt_syndromeCoefficients (c : List Nat) (twoS d : Nat) :
    coeffAt (syndromeCoefficients F (GenericGFPoly.normalize c) twoS) d
      = if d < twoS then syndrome F c d else 0 := by
  unfold coeffAt syndromeCoefficients
  rw [List.reverse_reverse, List.getD_eq_getElem?_getD, List.getElem?_map]
  by_cases hd : d < twoS
  · rw [if_pos hd, List.getElem?_range hd]
    rfl
  · rw [if_neg hd, List.getElem?_eq_none_iff.mpr (by simpa using hd)]
    rfl

/-- The value of a word's polynomial at a point, as a sum over the places. -/
theorem eval_toPoly_eq_sum (c : List Nat) (a : GFElem F) :
    (toPoly F c).eval a
      = ∑ p in Finset.range c.length, toElem F (c.getD p 0) * a ^ (c.length - 1 - p) := by
  rw [toPoly_eq_sum, eval_finset_sum]
  apply Finset.sum_congr rfl
  intro p _
  simp

theorem toElem_syndrome {c : List Nat} (hc : InField F c) (hne : c ≠ []) (k : Nat) :
    toElem F (syndrome F c k)
      = ∑ p in Finset.range c.length,
          toElem F (c.getD p 0) * toElem F (F.exp (k + F.generatorBase)) ^ (c.length - 1 - p) := by
  unfold syndrome
  rw [toElem_evaluateAt (inField_normalize hc zero_lt_size) (normalize_ne_nil hne)
    (hF.out.exp_lt _), toPoly_normalize, eval_toPoly_eq_sum]

/-- The syndromes of the received word are the power sums of the error
pattern, when the codeword's syndromes vanish. -/
theorem toElem_syndrome_received {c received : List Nat} (hc : InField F c)
    (hr : InField F received) (hlen : received.length = c.length) (hne : c ≠ []) {k : Nat}
    (hk : syndrome F c k = 0) :
    toElem F (syndrome F received k)
      = ∑ p in errPlaces received c,
          errValue F received c p * errLocator F c.length p ^ (k + F.generatorBase) := by
  have hner : received ≠ [] := by
    intro h
    rw [h] at hlen
    exact hne (List.length_eq_zero.mp hlen.symm)
  have h0 : toElem F (syndrome F c k) = 0 := by rw [hk, toElem_zero]
  rw [toElem_syndrome hc hne] at h0
  rw [toElem_syndrome hr hner, hlen]
  have hsum : ∑ p in Finset.range c.length,
        toElem F (received.getD p 0)
          * toElem F (F.exp (k + F.generatorBase)) ^ (c.length - 1 - p)
      = ∑ p in Finset.range c.length,
        errValue F received c p * errLocator F c.length p ^ (k + F.generatorBase) := by
    have : ∀ p ∈ Finset.range c.length,
        errValue F received c p * errLocator F c.length p ^ (k + F.generatorBase)
          = toElem F (received.getD p 0)
              * toElem F (F.exp (k + F.generatorBase)) ^ (c.length - 1 - p)
            + toElem F (c.getD p 0)
              * toElem F (F.exp (k + F.generatorBase)) ^ (c.length - 1 - p) := by
      intro p _
      unfold errValue
      rw [toElem_xor (getD_lt hr zero_lt_size _) (getD_lt hc zero_lt_size _), errLocator_pow]
      ring
    rw [Finset.sum_congr rfl this, Finset.sum_add_distrib, h0, add_zero]
  rw [hsum]
  unfold errPlaces
  rw [hlen, Finset.sum_filter]
  apply Finset.sum_congr rfl
  intro p _
  split_ifs with h
  · rfl
  · have : received.getD p 0 = c.getD p 0 := by
      by_contra hne'
      exact h hne'
    unfold errValue
    rw [this, Nat.xor_self, toElem_zero, zero_mul]

theorem errValue_ne_zero {c received : List Nat} (hc : InField F c) (hr : InField F received)
    {p : Nat} (hp : p ∈ errPlaces received c) : errValue F received c p ≠ 0 := by
  unfold errPlaces at hp
  have hne := (Finset.mem_filter.mp hp).2
  unfold errValue
  rw [Ne, toElem_eq_zero_iff (hF.out.xor_lt _ _ (getD_lt hr zero_lt_size _)
    (getD_lt hc zero_lt_size _))]
  intro h
  apply hne
  have := congrArg (fun x => x ^^^ c.getD p 0) h
  simp only [Nat.xor_assoc, Nat.xor_self, Nat.xor_zero, Nat.zero_xor] at this
  exact this

/-- The syndrome vector handed to the Euclidean algorithm stands for the
syndrome polynomial of the error pattern. -/
theorem toPoly_syndromeCoefficients {c received : List Nat} (hc : InField F c)
    (hr : InField F received) (hlen : received.length = c.length) (hne : c ≠ []) {twoS : Nat}
    (hvalid : IsValidCodeword F c twoS) :
    toPoly F (syndromeCoefficients F (GenericGFPoly.normalize received) twoS)
      = syndromePoly (errPlaces received c) (errLocator F c.length) (errValue F received c)
          F.generatorBase twoS := by
  ext d
  rw [coeff_toPoly, coeffAt_syndromeCoefficients]
  unfold syndromePoly
  rw [finset_sum_coeff]
  simp only [coeff_C_mul, coeff_X_pow]
  by_cases hd : d < twoS
  · rw [if_pos hd, Finset.sum_eq_single d]
    · rw [if_pos rfl, mul_one, toElem_syndrome_received hc hr hlen hne (hvalid d hd)]
    · intro i _ hid
      rw [if_neg (fun h => hid h.symm), mul_zero]
    · intro h
      exact absurd (Finset.mem_range.mpr hd) h
  · rw [if_neg hd, toElem_zero]
    symm
    apply Finset.sum_eq_zero
    intro i hi
    have := Finset.mem_range.mp hi
    rw [if_neg (by omega), mul_zero]

end Syndromes

end ZXing

namespace ZXing

open GenericGFPoly Polynomial

/-! ## Chien search -/

section Chien

variable {F : GenericGF} [hF : Fact F.Lawful]

omit hF in
/-- A guarded collecting loop is a filter, a map and a truncation. -/
theorem foldl_guard_eq (f : Nat → Nat) (P : Nat → Prop) [DecidablePred P] (n : Nat) :
    ∀ (l acc : List Nat),
      l.foldl (fun res i => if res.length < n ∧ P i then res ++ [f i] else res) acc
        = acc ++ (((l.filter (fun i => decide (P i))).map f).take (n - acc.length)) := by
  intro l
  induction l with
  | nil => intro acc; simp
  | cons x xs ih =>
    intro acc
    rw [List.foldl_cons]
    by_cases hP : P x
    · by_cases hlen : acc.length < n
      · rw [if_pos ⟨hlen, hP⟩, ih, List.filter_cons_of_pos (by simpa using hP), List.map_cons,
          List.length_append, List.length_singleton, List.append_assoc]
        have : n - acc.length = (n - (acc.length + 1)) + 1 := by omega
        rw [this, List.take_succ_cons]
        rfl
      · rw [if_neg (fun h => hlen h.1), ih]
        have : n - acc.length = 0 := by omega
        rw [this, List.take_zero, List.take_zero]
    · rw [if_neg (fun h => hP h.2), ih, List.filter_cons_of_neg (by simpa using hP)]

omit hF in
theorem chienLoop_eq (errorLocator : List Nat) (numErrors : Nat) :
    chienLoop F errorLocator numErrors
      = ((((List.range' 1 (F.size - 1)).filter
          (fun i => decide (evaluateAt F errorLocator i = 0))).map F.inverse).take numErrors) := by
  unfold chienLoop
  rw [foldl_guard_eq F.inverse (fun i => evaluateAt F errorLocator i = 0) numErrors]
  simp

/-- The place a root `i` of the locator stands for. -/
theorem root_place {n : Nat} (hn : n ≤ F.size - 1) {i p : Nat} (hi : i < F.size) (hp : p < n)
    (h : toElem F i = (errLocator F n p)⁻¹) :
    i ≠ 0 ∧ F.inverse i = F.exp (n - 1 - p) ∧ n - 1 - F.log (F.inverse i) = p := by
  have hi0 : i ≠ 0 := by
    intro h0
    rw [h0, toElem_zero] at h
    exact inv_ne_zero (errLocator_ne_zero n p) h.symm
  have h1 : toElem F (F.inverse i) = toElem F (F.exp (n - 1 - p)) := by
    rw [toElem_inverse hi hi0, h, inv_inv]
    rfl
  have h2 := toElem_inj (hF.out.inverse_lt _ (Nat.pos_of_ne_zero hi0) hi) (hF.out.exp_lt _) h1
  refine ⟨hi0, h2, ?_⟩
  rw [h2, hF.out.log_exp _ (by omega)]
  omega

/-- Chien search on the true locator finds exactly the locators of the error
places: the returned vector lists `exp(n - 1 - p)` for the places `p` of the
pattern, each once. -/
theorem findErrorLocations_spec {n : Nat} (hn : n ≤ F.size - 1) {P : Finset Nat}
    (hP : ∀ p ∈ P, p < n) {sigma : List Nat} (hs : IsNormalized sigma)
    (hfs : InField F sigma)
    (hpoly : toPoly F sigma = locatorPoly P (errLocator F n)) :
    ∃ Pl : List Nat, Pl.Nodup ∧ (∀ p, p ∈ Pl ↔ p ∈ P) ∧
      FindErrorLocations F sigma = Pl.map (fun p => F.exp (n - 1 - p)) := by
  have hdeg : GenericGFPoly.degree sigma = P.card := by
    rw [← natDegree_toPoly hs hfs, hpoly, natDegree_locatorPoly _ _
      (fun p _ => errLocator_ne_zero n p)]
  -- the roots found by the search
  have hroot : ∀ i, i < F.size →
      (evaluateAt F sigma i = 0 ↔ ∃ p ∈ P, toElem F i = (errLocator F n p)⁻¹) := by
    intro i hi
    rw [← toElem_eq_zero_iff (evaluateAt_lt hfs hi), toElem_evaluateAt hfs hs.1 hi, hpoly]
    exact locatorPoly_root_iff char2 P _ (fun p _ => errLocator_ne_zero n p) _
  let Lr := (List.range' 1 (F.size - 1)).filter (fun i => decide (evaluateAt F sigma i = 0))
  have hLr_mem : ∀ i, i ∈ Lr ↔
      (1 ≤ i ∧ i < F.size) ∧ ∃ p ∈ P, toElem F i = (errLocator F n p)⁻¹ := by
    intro i
    have h1 := hF.out.one_lt_size
    constructor
    · intro h
      obtain ⟨hr, he⟩ := List.mem_filter.mp h
      rw [List.mem_range'_1] at hr
      have hi : i < F.size := by omega
      exact ⟨⟨hr.1, hi⟩, (hroot i hi).mp (by simpa using he)⟩
    · rintro ⟨⟨h1i, hi⟩, he⟩
      apply List.mem_filter.mpr
      refine ⟨?_, by simpa using (hroot i hi).mpr he⟩
      rw [List.mem_range'_1]
      omega
  have hLr_nodup : Lr.Nodup := (List.nodup_range' 1 (F.size - 1)).filter _
  let ψ : Nat → Nat := fun i => n - 1 - F.log (F.inverse i)
  have hψ : ∀ i ∈ Lr, ψ i ∈ P ∧ F.inverse i = F.exp (n - 1 - ψ i) ∧
      toElem F i = (errLocator F n (ψ i))⁻¹ := by
    intro i hi
    obtain ⟨⟨_, hlt⟩, p, hp, he⟩ := (hLr_mem i).mp hi
    obtain ⟨_, h2, h3⟩ := root_place hn hlt (hP p hp) he
    have : ψ i = p := h3
    rw [this]
    exact ⟨hp, h2, he⟩
  have hPl_nodup : (Lr.map ψ).Nodup := by
    rw [List.nodup_map_iff_inj_on hLr_nodup]
    intro i hi j hj hij
    have hi' := (hψ i hi).2.2
    have hj' := (hψ j hj).2.2
    rw [hij] at hi'
    have := hi'.trans hj'.symm
    exact toElem_inj ((hLr_mem i).mp hi).1.2 ((hLr_mem j).mp hj).1.2 this
  have hPl_mem : ∀ p, p ∈ Lr.map ψ ↔ p ∈ P := by
    intro p
    constructor
    · intro h
      obtain ⟨i, hi, rfl⟩ := List.mem_map.mp h
      exact (hψ i hi).1
    · intro hp
      -- the root belonging to place p
      have hne : (errLocator F n p)⁻¹ ≠ 0 := inv_ne_zero (errLocator_ne_zero n p)
      have hval : toElem F ((errLocator F n p)⁻¹).1 = (errLocator F n p)⁻¹ := toElem_surj _
      have hi : ((errLocator F n p)⁻¹).1 ∈ Lr := by
        rw [hLr_mem]
        refine ⟨⟨?_, ((errLocator F n p)⁻¹).2⟩, p, hp, hval⟩
        apply Nat.pos_of_ne_zero
        intro h0
        apply hne
        exact Subtype.ext h0
      apply List.mem_map.mpr
      refine ⟨_, hi, ?_⟩
      exact (root_place hn ((errLocator F n p)⁻¹).2 (hP p hp) hval).2.2
  have hlen : Lr.length = P.card := by
    have h1 : (Lr.map ψ).toFinset = P := by
      ext p
      rw [List.mem_toFinset, hPl_mem]
    rw [← h1, List.toFinset_card_of_nodup hPl_nodup, List.length_map]
  refine ⟨Lr.map ψ, hPl_nodup, hPl_mem, ?_⟩
  unfold FindErrorLocations
  simp only
  rw [chienLoop_eq, hdeg]
  have htake : (Lr.map F.inverse).take P.card = Lr.map F.inverse := by
    apply List.take_of_length_le
    rw [List.length_map, hlen]
  show (if ((Lr.map F.inverse).take P.card).length ≠ P.card then []
    else (Lr.map F.inverse).take P.card) = _
  rw [htake, List.length_map, hlen, if_neg (by simp), List.map_map]
  apply List.map_congr_left
  intro i hi
  exact (hψ i hi).2.1

end Chien

end ZXing

namespace ZXing

open GenericGFPoly Polynomial

/-! ## Forney's formula -/

section Forney

variable {F : GenericGF} [hF : Fact F.Lawful]

/-- The denominator loop, as a product over the other indices. -/
theorem forneyDenominator_aux (locs : List Nat) (hl : InField F locs) (i : Nat) {xiInverse : Nat}
    (hx : xiInverse < F.size) (m : Nat) :
    (List.range m).foldl
        (fun denom j =>
          if i ≠ j then F.multiply denom (1 ^^^ F.multiply (locs.getD j 0) xiInverse)
          else denom) 1 < F.size ∧
    toElem F ((List.range m).foldl
        (fun denom j =>
          if i ≠ j then F.multiply denom (1 ^^^ F.multiply (locs.getD j 0) xiInverse)
          else denom) 1)
      = ∏ j in (Finset.range m).filter (fun j => i ≠ j),
          (1 + toElem F (locs.getD j 0) * toElem F xiInverse) := by
  induction m with
  | zero =>
    refine ⟨hF.out.one_lt_size, ?_⟩
    simp [toElem_one]
  | succ m ih =>
    obtain ⟨ih1, ih2⟩ := ih
    rw [List.range_succ, List.foldl_append]
    simp only [List.foldl_cons, List.foldl_nil]
    have hterm : 1 ^^^ F.multiply (locs.getD m 0) xiInverse < F.size :=
      hF.out.xor_lt _ _ hF.out.one_lt_size (hF.out.mul_lt _ _ (getD_lt hl zero_lt_size _) hx)
    by_cases him : i ≠ m
    · rw [if_pos him]
      refine ⟨hF.out.mul_lt _ _ ih1 hterm, ?_⟩
      rw [toElem_mul ih1 hterm, ih2, toElem_xor hF.out.one_lt_size
        (hF.out.mul_lt _ _ (getD_lt hl zero_lt_size _) hx), toElem_one,
        toElem_mul (getD_lt hl zero_lt_size _) hx, Finset.range_succ,
        Finset.filter_insert, if_pos him, Finset.prod_insert (by simp), mul_comm]
    · rw [if_neg him]
      refine ⟨ih1, ?_⟩
      rw [ih2, Finset.range_succ, Finset.filter_insert, if_neg him]

omit hF in
theorem getD_map_exp (Pl : List Nat) (n j : Nat) (hj : j < Pl.length) :
    (Pl.map (fun p => F.exp (n - 1 - p))).getD j 0 = F.exp (n - 1 - Pl.getD j 0) := by
  rw [List.getD_eq_getElem?_getD, List.getD_eq_getElem?_getD, List.getElem?_map,
    List.getElem?_eq_getElem hj]
  rfl

omit hF in
theorem getD_mem {l : List Nat} {j : Nat} (hj : j < l.length) : l.getD j 0 ∈ l := by
  rw [List.getD_eq_getElem?_getD, List.getElem?_eq_getElem hj]
  exact List.getElem_mem hj

omit hF in
theorem getD_inj_of_nodup {l : List Nat} (hl : l.Nodup) {i j : Nat} (hi : i < l.length)
    (hj : j < l.length) (h : l.getD i 0 = l.getD j 0) : i = j := by
  rw [List.getD_eq_getElem?_getD, List.getD_eq_getElem?_getD, List.getElem?_eq_getElem hi,
    List.getElem?_eq_getElem hj] at h
  exact (hl.getElem_inj_iff).mp (by simpa using h)

/-- Forney's formula on the true evaluator returns the error values, for
generator base 0 or 1. -/
theorem findErrorMagnitudes_spec {n : Nat} (hn : n ≤ F.size - 1) (hbase : F.generatorBase ≤ 1)
    {P : Finset Nat} (hP : ∀ p ∈ P, p < n) {Pl : List Nat} (hnd : Pl.Nodup)
    (hmem : ∀ p, p ∈ Pl ↔ p ∈ P) {omega : List Nat} (ho : omega ≠ [])
    (hfo : InField F omega) (v : Nat → Nat) (hv : ∀ p, v p < F.size)
    (hpoly : toPoly F omega
      = evaluatorPoly P (errLocator F n) (fun p => toElem F (v p)) F.generatorBase) :
    FindErrorMagnitudes F omega (Pl.map (fun p => F.exp (n - 1 - p))) = Pl.map v := by
  unfold FindErrorMagnitudes
  rw [List.length_map]
  apply List.ext_getElem (by simp)
  intro i h1 h2
  have hi : i < Pl.length := by simpa using h2
  rw [List.getElem_map, List.getElem_map, List.getElem_range]
  simp only
  have hp_mem : Pl.getD i 0 ∈ P := (hmem _).mp (getD_mem hi)
  have hpi : Pl[i] = Pl.getD i 0 := by
    rw [List.getD_eq_getElem?_getD, List.getElem?_eq_getElem hi]
    rfl
  rw [hpi, getD_map_exp Pl n i hi]
  set p := Pl.getD i 0 with hp
  have hX : toElem F (F.exp (n - 1 - p)) = errLocator F n p := rfl
  have hXne : F.exp (n - 1 - p) ≠ 0 := Nat.pos_iff_ne_zero.mp (hF.out.exp_pos _)
  have hXlt : F.exp (n - 1 - p) < F.size := hF.out.exp_lt _
  have hxi : F.inverse (F.exp (n - 1 - p)) < F.size :=
    hF.out.inverse_lt _ (hF.out.exp_pos _) hXlt
  have hxiE : toElem F (F.inverse (F.exp (n - 1 - p))) = (errLocator F n p)⁻¹ := by
    rw [toElem_inverse hXlt hXne, hX]
  have hlocs : InField F (Pl.map (fun p => F.exp (n - 1 - p))) := by
    intro x hx
    obtain ⟨q, -, rfl⟩ := List.mem_map.mp hx
    exact hF.out.exp_lt _
  -- the denominator
  obtain ⟨hden_lt, hden⟩ := forneyDenominator_aux (Pl.map (fun p => F.exp (n - 1 - p)))
    hlocs i hxi Pl.length
  have hdenE : toElem F (forneyDenominator F (Pl.map (fun p => F.exp (n - 1 - p))) i
      (F.inverse (F.exp (n - 1 - p))))
      = ∏ q in P.erase p, (1 + errLocator F n q * (errLocator F n p)⁻¹) := by
    unfold forneyDenominator
    rw [List.length_map, hden, hxiE]
    have himg : P.erase p
        = ((Finset.range Pl.length).filter (fun j => i ≠ j)).image (fun j => Pl.getD j 0) := by
      ext q
      rw [Finset.mem_erase, Finset.mem_image]
      constructor
      · rintro ⟨hqp, hq⟩
        obtain ⟨j, hj, hjq⟩ := List.getElem_of_mem ((hmem q).mpr hq)
        have hjq' : Pl.getD j 0 = q := by
          rw [List.getD_eq_getElem?_getD, List.getElem?_eq_getElem hj]
          exact hjq
        refine ⟨j, Finset.mem_filter.mpr ⟨Finset.mem_range.mpr hj, ?_⟩, hjq'⟩
        intro hij
        apply hqp
        rw [← hjq', ← hij]
      · rintro ⟨j, hj, rfl⟩
        obtain ⟨hjr, hij⟩ := Finset.mem_filter.mp hj
        have hjl := Finset.mem_range.mp hjr
        refine ⟨?_, (hmem _).mp (getD_mem hjl)⟩
        intro heq
        exact hij (getD_inj_of_nodup hnd hi hjl heq.symm)
    rw [himg, Finset.prod_image]
    · apply Finset.prod_congr rfl
      intro j hj
      have hjl := Finset.mem_range.mp (Finset.mem_filter.mp hj).1
      rw [getD_map_exp Pl n j hjl]
      rfl
    · intro j hj j' hj' h
      have hjl := Finset.mem_range.mp (Finset.mem_filter.mp hj).1
      have hjl' := Finset.mem_range.mp (Finset.mem_filter.mp hj').1
      exact getD_inj_of_nodup hnd hjl hjl' h
  have hden_lt' : forneyDenominator F (Pl.map (fun p => F.exp (n - 1 - p))) i
      (F.inverse (F.exp (n - 1 - p))) < F.size := by
    unfold forneyDenominator
    rw [List.length_map]
    exact hden_lt
  have hinj : Set.InjOn (errLocator F n) P := by
    intro a ha b hb h
    exact errLocator_injOn hn (Finset.mem_coe.mpr (Finset.mem_range.mpr (hP a ha)))
      (Finset.mem_coe.mpr (Finset.mem_range.mpr (hP b hb))) h
  have hD0 : ∏ q in P.erase p, (1 + errLocator F n q * (errLocator F n p)⁻¹) ≠ 0 :=
    forney_denominator_ne_zero char2 P _ hinj hp_mem (errLocator_ne_zero n p)
  have hden0 : forneyDenominator F (Pl.map (fun p => F.exp (n - 1 - p))) i
      (F.inverse (F.exp (n - 1 - p))) ≠ 0 := by
    intro h0
    rw [h0, toElem_zero] at hdenE
    exact hD0 hdenE.symm
  have hinvden := hF.out.inverse_lt _ (Nat.pos_of_ne_zero hden0) hden_lt'
  -- the evaluator at the inverse locator
  have hev_lt := evaluateAt_lt hfo hxi
  have hev : toElem F (evaluateAt F omega (F.inverse (F.exp (n - 1 - p))))
      = toElem F (v p) * errLocator F n p ^ F.generatorBase
        * ∏ q in P.erase p, (1 + errLocator F n q * (errLocator F n p)⁻¹) := by
    rw [toElem_evaluateAt hfo ho hxi, hxiE, hpoly,
      eval_evaluatorPoly_inv char2 P _ _ _ hp_mem (errLocator_ne_zero n p)]
  have hres_lt := hF.out.mul_lt _ _ hev_lt hinvden
  have hres : toElem F (F.multiply (evaluateAt F omega (F.inverse (F.exp (n - 1 - p))))
      (F.inverse (forneyDenominator F (Pl.map (fun p => F.exp (n - 1 - p))) i
        (F.inverse (F.exp (n - 1 - p))))))
      = toElem F (v p) * errLocator F n p ^ F.generatorBase := by
    rw [toElem_mul hev_lt hinvden, toElem_inverse hden_lt' hden0, hev, hdenE,
      mul_assoc, mul_inv_cancel₀ hD0, mul_one]
  by_cases hg : F.generatorBase = 0
  · rw [if_neg (by simpa using hg)]
    apply toElem_inj hres_lt (hv p)
    rw [hres, hg, pow_zero, mul_one]
  · rw [if_pos hg]
    have hg1 : F.generatorBase = 1 := by omega
    apply toElem_inj (hF.out.mul_lt _ _ hres_lt hxi) (hv p)
    rw [toElem_mul hres_lt hxi, hres, hxiE, hg1, pow_one, mul_assoc,
      mul_inv_cancel₀ (errLocator_ne_zero n p), mul_one]

end Forney

end ZXing

namespace ZXing

open GenericGFPoly Polynomial

/-! ## The correction loop -/

section Correction

variable {F : GenericGF} [hF : Fact F.Lawful]

omit hF in
theorem card_filter_range (n : Nat) (P : Nat → Prop) [DecidablePred P] :
    ((Finset.range n).filter P).card
      = ((List.range n).filter (fun p => decide (P p))).length := by
  rfl

omit hF in
theorem hammingDistance_eq_filter_range : ∀ (a b : List Nat), a.length = b.length →
    hammingDistance a b
      = ((List.range a.length).filter (fun p => decide (a.getD p 0 ≠ b.getD p 0))).length := by
  intro a
  induction a with
  | nil => intro b _; simp [hammingDistance]
  | cons x xs ih =>
    intro b hb
    cases b with
    | nil => simp at hb
    | cons y ys =>
      have hl : xs.length = ys.length := by simpa using hb
      have ih' := ih ys hl
      unfold hammingDistance at ih' ⊢
      rw [List.zip_cons_cons, List.length_cons, List.range_succ_eq_map, List.filter_cons,
        List.filter_cons, List.filter_map]
      simp only [List.getD_cons_zero, Function.comp_def, List.getD_cons_succ]
      by_cases hxy : x = y
      · simp [hxy, ih']
      · simp [hxy, ih']

omit hF in
theorem hammingDistance_eq_card {a b : List Nat} (h : a.length = b.length) :
    hammingDistance a b = (errPlaces a b).card := by
  rw [hammingDistance_eq_filter_range a b h]
  unfold errPlaces
  rw [card_filter_range]

omit hF in
theorem eq_of_errPlaces_empty {a b : List Nat} (h : a.length = b.length)
    (he : errPlaces a b = ∅) : a = b := by
  apply ext_getD_zero h
  intro k hk
  by_contra hne
  have : k ∈ errPlaces a b := by
    unfold errPlaces
    exact Finset.mem_filter.mpr ⟨Finset.mem_range.mpr hk, hne⟩
  rw [he] at this
  exact absurd this (Finset.not_mem_empty k)

omit hF in
/-- Patching distinct places: each patched place is changed once. -/
theorem foldl_xorAt_places (v : Nat → Nat) :
    ∀ (Pl rec : List Nat), Pl.Nodup → (∀ p ∈ Pl, p < rec.length) →
      (Pl.foldl (fun r p => xorAt r p (v p)) rec).length = rec.length ∧
      ∀ q, (Pl.foldl (fun r p => xorAt r p (v p)) rec).getD q 0
        = if q ∈ Pl then rec.getD q 0 ^^^ v q else rec.getD q 0 := by
  intro Pl
  induction Pl with
  | nil => intro rec _ _; simp
  | cons p ps ih =>
    intro rec hnd hlt
    have hp : p < rec.length := hlt p (by simp)
    have hnd' := (List.nodup_cons.mp hnd)
    obtain ⟨ih1, ih2⟩ := ih (xorAt rec p (v p)) hnd'.2
      (by intro q hq; rw [length_xorAt]; exact hlt q (by simp [hq]))
    rw [List.foldl_cons]
    refine ⟨by rw [ih1, length_xorAt], ?_⟩
    intro q
    rw [ih2]
    by_cases hqp : q = p
    · subst hqp
      rw [if_neg hnd'.1, getD_xorAt, if_pos ⟨rfl, hp⟩, if_pos (List.mem_cons_self _ _)]
    · have hx : (xorAt rec p (v p)).getD q 0 = rec.getD q 0 := by
        rw [getD_xorAt, if_neg (fun h => hqp h.1)]
      rw [hx]
      by_cases hq : q ∈ ps
      · rw [if_pos hq, if_pos (List.mem_cons_of_mem _ hq)]
      · rw [if_neg hq, if_neg]
        intro h
        rcases List.mem_cons.mp h with h | h
        · exact hqp h
        · exact hq h

/-- The correction loop on the locators of the places `Pl` patches exactly
those places and returns `true`. -/
theorem correctionLoop_eq {n : Nat} (hn : n ≤ F.size - 1) (Pl : List Nat)
    (hPl : ∀ p ∈ Pl, p < n) (v : Nat → Nat) :
    ∀ (k i : Nat) (rec : List Nat), i + k = Pl.length →
      correctionLoop F (Pl.map (fun p => F.exp (n - 1 - p))) (Pl.map v) n k i rec
        = (true, (Pl.drop i).foldl (fun r p => xorAt r p (v p)) rec) := by
  intro k
  induction k with
  | zero =>
    intro i rec hi
    unfold correctionLoop
    rw [List.drop_of_length_le (by omega)]
    rfl
  | succ k ih =>
    intro i rec hi
    have hil : i < Pl.length := by omega
    have hp := hPl _ (getD_mem hil)
    unfold correctionLoop
    simp only
    rw [getD_map_exp Pl n i hil, hF.out.log_exp _ (by omega)]
    have hpos : ((n : Int) - 1 - ((n - 1 - Pl.getD i 0 : Nat) : Int)) = ((Pl.getD i 0 : Nat) : Int) := by
      omega
    rw [hpos, if_neg (by omega), Int.toNat_ofNat, ih (i + 1) _ (by omega)]
    have hv : (Pl.map v).getD i 0 = v (Pl.getD i 0) := by
      rw [List.getD_eq_getElem?_getD, List.getD_eq_getElem?_getD, List.getElem?_map,
        List.getElem?_eq_getElem hil]
      rfl
    have hdrop : Pl.drop i = Pl.getD i 0 :: Pl.drop (i + 1) := by
      rw [List.getD_eq_getElem?_getD, List.getElem?_eq_getElem hil]
      exact List.drop_eq_getElem_cons hil
    rw [hv, hdrop, List.foldl_cons]

omit hF in
/-- The early exit: a word with vanishing syndromes is returned unchanged. -/
theorem decode_of_valid (F : GenericGF) (fuel : Nat) (received : List Nat) (twoS : Nat)
    (h : IsValidCodeword F received twoS) :
    ReedSolomonDecode F fuel received twoS = Result.ok (true, received) := by
  have hall : (syndromeCoefficients F (GenericGFPoly.normalize received) twoS).all
      (fun c => c == 0) = true := by
    rw [List.all_eq_true]
    intro x hx
    unfold syndromeCoefficients at hx
    rw [List.mem_reverse, List.mem_map] at hx
    obtain ⟨i, hi, rfl⟩ := hx
    have := h i (List.mem_range.mp hi)
    unfold syndrome at this
    simp [this]
  unfold ReedSolomonDecode
  simp only [hall, if_true]

theorem toPoly_eq_zero_of_all_zero {l : List Nat} (h : l.all (fun c => c == 0) = true) :
    toPoly F l = 0 := by
  rw [List.all_eq_true] at h
  have : l = List.replicate l.length 0 := by
    apply List.eq_replicate_of_mem
    intro x hx
    simpa using h x hx
  rw [this, toPoly_replicate_zero]

end Correction

end ZXing

namespace ZXing

open GenericGFPoly Polynomial

/-! ## The decoder on a correctable word -/

section Decode

variable {F : GenericGF} [hF : Fact F.Lawful]

/-- What the Euclidean stage returns on the syndromes of a correctable word:
`true`, with the true locator and evaluator of the error pattern. -/
theorem runEuclid_on_pattern {c received : List Nat} (hc : InField F c)
    (hr : InField F received) (hlen : received.length = c.length)
    (hn : c.length ≤ F.size - 1) {twoS : Nat} (hvalid : IsValidCodeword F c twoS)
    (hpos : 0 < (errPlaces received c).card)
    (hdist : (errPlaces received c).card ≤ twoS / 2) {fuel : Nat} (hfuel : twoS + 1 < fuel) :
    ∃ sigma omega,
      RunEuclideanAlgorithm F fuel
          (syndromeCoefficients F (GenericGFPoly.normalize received) twoS) twoS
        = Result.ok (some (sigma, omega)) ∧
      IsNormalized sigma ∧ InField F sigma ∧ IsNormalized omega ∧ InField F omega ∧
      toPoly F sigma = locatorPoly (errPlaces received c) (errLocator F c.length) ∧
      toPoly F omega = evaluatorPoly (errPlaces received c) (errLocator F c.length)
        (errValue F received c) F.generatorBase := by
  have hPn : ∀ p ∈ errPlaces received c, p < c.length := by
    intro p hp
    unfold errPlaces at hp
    rw [← hlen]
    exact Finset.mem_range.mp (Finset.mem_filter.mp hp).1
  have hne : c ≠ [] := by
    obtain ⟨p, hp⟩ := Finset.card_pos.mp hpos
    have := hPn p hp
    intro h
    rw [h] at this
    exact absurd this (by simp)
  have hR : 2 ≤ twoS := by omega
  have hinj : Set.InjOn (errLocator F c.length) (errPlaces received c) := by
    intro a ha b hb h
    exact errLocator_injOn hn (Finset.mem_coe.mpr (Finset.mem_range.mpr (hPn a ha)))
      (Finset.mem_coe.mpr (Finset.mem_range.mpr (hPn b hb))) h
  have hX : ∀ p ∈ errPlaces received c, errLocator F c.length p ≠ 0 :=
    fun p _ => errLocator_ne_zero _ p
  have hy : ∀ p ∈ errPlaces received c, errValue F received c p ≠ 0 :=
    fun p hp => errValue_ne_zero hc hr hp
  have hfS := inField_syndromeCoefficients (F := F)
    (inField_normalize hr zero_lt_size) twoS
  have hlS := length_syndromeCoefficients (F := F) (GenericGFPoly.normalize received) twoS
  have hSpoly := toPoly_syndromeCoefficients hc hr hlen hne hvalid
  obtain ⟨s, inv, hsmall, hrun⟩ := runEuclid_eq hfS hlS hR hfuel
  obtain ⟨hdt, hdr, u, hu, hcop⟩ := euclidInv_facts inv hsmall
  have hkey := key_equation (char2 (F := F)) (errPlaces received c) (errLocator F c.length)
    (errValue F received c) F.generatorBase twoS
  rw [← hSpoly] at hkey
  obtain ⟨k, hk, hσ, hω⟩ := key_equation_unique (char2 (F := F)) hu hcop hkey
    (isCoprime_locator_evaluator char2 _ _ _ _ hinj hX hy) (locatorPoly_ne_zero _ _) hdt hdr
    (le_of_eq (natDegree_locatorPoly _ _ hX))
    (natDegree_evaluatorPoly_lt _ _ _ _ hpos) hdist
  -- the constant term of t
  have hc0 : (1 : GFElem F) = k * (toPoly F s.t).coeff 0 := by
    have := congrArg (fun p => Polynomial.coeff p 0) hσ
    simp only [coeff_zero_locatorPoly, coeff_C_mul] at this
    exact this
  have ht0 : (toPoly F s.t).coeff 0 ≠ 0 := by
    intro h0
    rw [h0, mul_zero] at hc0
    exact one_ne_zero hc0
  have hinvk : ((toPoly F s.t).coeff 0)⁻¹ = k := by
    exact (eq_inv_of_mul_eq_one_left hc0.symm).symm
  have hclt : coefficient s.t 0 < F.size := by
    rw [coefficient_zero_eq _ inv.nt.1]
    exact coeffAt_lt inv.ft 0
  have hce : toElem F (coefficient s.t 0) = (toPoly F s.t).coeff 0 := by
    rw [coeff_toPoly, coefficient_zero_eq _ inv.nt.1]
  have hcne : coefficient s.t 0 ≠ 0 := by
    intro h0
    rw [h0, toElem_zero] at hce
    exact ht0 hce.symm
  have hilt : F.inverse (coefficient s.t 0) < F.size :=
    hF.out.inverse_lt _ (Nat.pos_of_ne_zero hcne) hclt
  rw [if_neg hcne] at hrun
  refine ⟨_, _, hrun, isNormalized_multiplyByMonomial inv.nt.1 _ _,
    inField_multiplyByMonomial inv.ft _ hilt, isNormalized_multiplyByMonomial inv.nr.1 _ _,
    inField_multiplyByMonomial inv.fr _ hilt, ?_, ?_⟩
  · rw [toPoly_multiplyByMonomial inv.ft 0 hilt, toElem_inverse hclt hcne, hce, hinvk, hσ]
    simp [mul_comm]
  · rw [toPoly_multiplyByMonomial inv.fr 0 hilt, toElem_inverse hclt hcne, hce, hinvk, hω]
    simp [mul_comm]

/-- The syndromes of a word with between `1` and `twoS / 2` errors are not
all zero. -/
theorem syndromes_not_all_zero {c received : List Nat} (hc : InField F c)
    (hr : InField F received) (hlen : received.length = c.length)
    (hn : c.length ≤ F.size - 1) {twoS : Nat} (hvalid : IsValidCodeword F c twoS)
    (hpos : 0 < (errPlaces received c).card)
    (hdist : (errPlaces received c).card ≤ twoS / 2) :
    ¬ ((syndromeCoefficients F (GenericGFPoly.normalize received) twoS).all
      (fun c => c == 0) = true) := by
  intro hall
  have hPn : ∀ p ∈ errPlaces received c, p < c.length := by
    intro p hp
    unfold errPlaces at hp
    rw [← hlen]
    exact Finset.mem_range.mp (Finset.mem_filter.mp hp).1
  obtain ⟨p, hp⟩ := Finset.card_pos.mp hpos
  have hne : c ≠ [] := by
    have := hPn p hp
    intro h
    rw [h] at this
    exact absurd this (by simp)
  have hinj : Set.InjOn (errLocator F c.length) (errPlaces received c) := by
    intro a ha b hb h
    exact errLocator_injOn hn (Finset.mem_coe.mpr (Finset.mem_range.mpr (hPn a ha)))
      (Finset.mem_coe.mpr (Finset.mem_range.mpr (hPn b hb))) h
  have hS0 := toPoly_eq_zero_of_all_zero (F := F) hall
  rw [toPoly_syndromeCoefficients hc hr hlen hne hvalid] at hS0
  have hkey := key_equation (char2 (F := F)) (errPlaces received c) (errLocator F c.length)
    (errValue F received c) F.generatorBase twoS
  rw [hS0, mul_zero, add_zero] at hkey
  -- the evaluator has degree below twoS and is a multiple of x^twoS: it is zero
  have hdeg := natDegree_evaluatorPoly_lt (errPlaces received c) (errLocator F c.length)
    (errValue F received c) F.generatorBase hpos
  have hzero : evaluatorPoly (errPlaces received c) (errLocator F c.length)
      (errValue F received c) F.generatorBase = 0 := by
    by_contra hne0
    rw [hkey] at hne0 hdeg
    have hu0 := left_ne_zero_of_mul hne0
    rw [natDegree_mul hu0 (pow_ne_zero _ X_ne_zero), natDegree_X_pow] at hdeg
    omega
  have hev := eval_evaluatorPoly_inv (char2 (F := F)) (errPlaces received c)
    (errLocator F c.length) (errValue F received c) F.generatorBase hp
    (errLocator_ne_zero _ p)
  rw [hzero, eval_zero] at hev
  have : errValue F received c p * errLocator F c.length p ^ F.generatorBase
      * ∏ q in (errPlaces received c).erase p,
          (1 + errLocator F c.length q * (errLocator F c.length p)⁻¹) ≠ 0 :=
    mul_ne_zero (mul_ne_zero (errValue_ne_zero hc hr hp)
      (pow_ne_zero _ (errLocator_ne_zero _ p)))
      (forney_denominator_ne_zero char2 _ _ hinj hp (errLocator_ne_zero _ p))
  exact this hev.symm

/-- Correction capacity: a word within `twoS / 2` symbol errors of a valid
codeword is decoded to that codeword. -/
theorem decode_corrects (hbase : F.generatorBase ≤ 1) {c received : List Nat}
    (hc : InField F c) (hr : InField F received) (hlen : received.length = c.length)
    (hn : c.length ≤ F.size - 1) {twoS : Nat} (hvalid : IsValidCodeword F c twoS)
    (hdist : hammingDistance received c ≤ twoS / 2) {fuel : Nat} (hfuel : twoS + 1 < fuel) :
    ReedSolomonDecode F fuel received twoS = Result.ok (true, c) := by
  rw [hammingDistance_eq_card hlen] at hdist
  by_cases hP : errPlaces received c = ∅
  · have := eq_of_errPlaces_empty hlen hP
    subst this
    exact decode_of_valid F fuel received twoS hvalid
  · have hpos : 0 < (errPlaces received c).card :=
      Finset.card_pos.mpr (Finset.nonempty_iff_ne_empty.mpr hP)
    have hPn : ∀ p ∈ errPlaces received c, p < c.length := by
      intro p hp
      unfold errPlaces at hp
      rw [← hlen]
      exact Finset.mem_range.mp (Finset.mem_filter.mp hp).1
    obtain ⟨sigma, omega, hrun, hns, hfs, hno, hfo, hσ, hω⟩ :=
      runEuclid_on_pattern hc hr hlen hn hvalid hpos hdist hfuel
    obtain ⟨Pl, hnd, hmem, hlocs⟩ := findErrorLocations_spec hn hPn hns hfs hσ
    have hmags := findErrorMagnitudes_spec hn hbase hPn hnd hmem hno.1 hfo
      (fun p => received.getD p 0 ^^^ c.getD p 0)
      (fun p => hF.out.xor_lt _ _ (getD_lt hr zero_lt_size _) (getD_lt hc zero_lt_size _)) hω
    have hPl_ne : Pl ≠ [] := by
      intro h
      obtain ⟨p, hp⟩ := Finset.card_pos.mp hpos
      have := (hmem p).mpr hp
      rw [h] at this
      exact absurd this (List.not_mem_nil p)
    unfold ReedSolomonDecode
    simp only
    rw [if_neg (syndromes_not_all_zero hc hr hlen hn hvalid hpos hdist), hrun]
    simp only
    rw [hlocs, hmags]
    have hemp : (Pl.map (fun p => F.exp (c.length - 1 - p))).isEmpty = false := by
      cases Pl with
      | nil => exact absurd rfl hPl_ne
      | cons a as => rfl
    rw [hemp, if_neg (by decide), hlen, List.length_map,
      correctionLoop_eq hn Pl (fun p hp => hPn p ((hmem p).mp hp)) _ Pl.length 0 received
        (by omega), List.drop_zero]
    obtain ⟨hl, hget⟩ := foldl_xorAt_places (fun p => received.getD p 0 ^^^ c.getD p 0) Pl
      received hnd (fun p hp => by rw [hlen]; exact hPn p ((hmem p).mp hp))
    congr 2
    apply ext_getD_zero (by rw [hl, hlen])
    intro q _
    rw [hget q]
    by_cases hq : q ∈ Pl
    · rw [if_pos hq, ← Nat.xor_assoc, Nat.xor_self, Nat.zero_xor]
    · rw [if_neg hq]
      by_contra hne
      apply hq
      rw [hmem]
      unfold errPlaces
      apply Finset.mem_filter.mpr
      refine ⟨?_, hne⟩
      rw [Finset.mem_range]
      by_contra hlt
      apply hne
      rw [List.getD_eq_getElem?_getD, List.getD_eq_getElem?_getD,
        List.getElem?_eq_none_iff.mpr (by omega), List.getElem?_eq_none_iff.mpr (by omega)]

end Decode

end ZXing

namespace ZXing

open GenericGFPoly Polynomial

/-! ## Bounded modification -/

section Modification

variable {F : GenericGF} [hF : Fact F.Lawful]

omit hF in
theorem hammingDistance_self (a : List Nat) : hammingDistance a a = 0 := by
  rw [hammingDistance_eq_card rfl]
  unfold errPlaces
  simp

omit hF in
theorem hammingDistance_xorAt_le {a b : List Nat} (h : a.length = b.length) (p v : Nat) :
    hammingDistance a (xorAt b p v) ≤ hammingDistance a b + 1 := by
  rw [hammingDistance_eq_card (by rw [length_xorAt]; exact h), hammingDistance_eq_card h]
  have hsub : errPlaces a (xorAt b p v) ⊆ insert p (errPlaces a b) := by
    intro q hq
    unfold errPlaces at hq ⊢
    obtain ⟨hq1, hq2⟩ := Finset.mem_filter.mp hq
    by_cases hqp : q = p
    · rw [hqp]
      exact Finset.mem_insert_self _ _
    · apply Finset.mem_insert_of_mem
      apply Finset.mem_filter.mpr
      refine ⟨hq1, ?_⟩
      rw [getD_xorAt, if_neg (fun h => hqp h.1)] at hq2
      exact hq2
  exact le_trans (Finset.card_le_card hsub) (Finset.card_insert_le _ _)

omit hF in
/-- The correction loop changes at most one symbol per step. -/
theorem correctionLoop_modifies (F : GenericGF) (locs mags : List Nat) (n : Nat)
    (rec0 : List Nat) :
    ∀ (k i : Nat) (rec : List Nat), rec0.length = rec.length →
      hammingDistance rec0 (correctionLoop F locs mags n k i rec).2
        ≤ hammingDistance rec0 rec + k := by
  intro k
  induction k with
  | zero => intro i rec _; unfold correctionLoop; exact le_refl _
  | succ k ih =>
    intro i rec hl
    unfold correctionLoop
    simp only
    split_ifs
    · exact Nat.le_add_right _ _
    · refine le_trans (ih _ _ (by rw [length_xorAt]; exact hl)) ?_
      have := hammingDistance_xorAt_le hl
        ((n : Int) - 1 - (F.log (locs.getD i 0) : Int)).toNat (mags.getD i 0)
      omega

omit hF in
theorem length_findErrorLocations_le (errorLocator : List Nat) :
    (FindErrorLocations F errorLocator).length ≤ GenericGFPoly.degree errorLocator := by
  unfold FindErrorLocations
  simp only
  split_ifs with h
  · simp
  · simp only [ne_eq, not_not] at h
    rw [h]

/-- Every returning call changes at most `twoS - twoS / 2` symbols of the
received word. -/
theorem decode_modifies_le {received : List Nat} (hr : InField F received) {twoS fuel : Nat}
    {b : Bool} {out : List Nat}
    (h : ReedSolomonDecode F fuel received twoS = Result.ok (b, out)) :
    hammingDistance received out ≤ twoS - twoS / 2 := by
  unfold ReedSolomonDecode at h
  simp only at h
  by_cases hall : (syndromeCoefficients F (GenericGFPoly.normalize received) twoS).all
      (fun c => c == 0) = true
  · rw [if_pos hall] at h
    have := Prod.mk.inj (Result.ok.inj h)
    rw [← this.2, hammingDistance_self]
    exact Nat.zero_le _
  · rw [if_neg hall] at h
    have hR : 1 ≤ twoS := by
      by_contra h0
      have : twoS = 0 := by omega
      apply hall
      rw [this]
      rfl
    cases hrun : RunEuclideanAlgorithm F fuel
        (syndromeCoefficients F (GenericGFPoly.normalize received) twoS) twoS with
    | invalidArgument => rw [hrun] at h; exact absurd h (by simp)
    | runtimeError => rw [hrun] at h; exact absurd h (by simp)
    | outOfFuel => rw [hrun] at h; exact absurd h (by simp)
    | ok res =>
      rw [hrun] at h
      cases res with
      | none =>
        have := Prod.mk.inj (Result.ok.inj h)
        rw [← this.2, hammingDistance_self]
        exact Nat.zero_le _
      | some so =>
        obtain ⟨sigma, omega⟩ := so
        simp only at h
        obtain ⟨hns, hfs, -, -, -, hdeg, -, -⟩ := runEuclid_partial
          (inField_syndromeCoefficients (inField_normalize hr zero_lt_size) twoS)
          (length_syndromeCoefficients _ _) hR hrun
        by_cases hemp : (FindErrorLocations F sigma).isEmpty = true
        · rw [if_pos hemp] at h
          have := Prod.mk.inj (Result.ok.inj h)
          rw [← this.2, hammingDistance_self]
          exact Nat.zero_le _
        · rw [if_neg hemp] at h
          have hout := (Prod.mk.inj (Result.ok.inj h)).2
          have hmod := correctionLoop_modifies F (FindErrorLocations F sigma)
            (FindErrorMagnitudes F omega (FindErrorLocations F sigma)) received.length received
            (FindErrorLocations F sigma).length 0 received rfl
          have hcongr : (correctionLoop F (FindErrorLocations F sigma)
              (FindErrorMagnitudes F omega (FindErrorLocations F sigma)) received.length
              (FindErrorLocations F sigma).length 0 received).2 = out := hout
          rw [hcongr, hammingDistance_self] at hmod
          have hle := length_findErrorLocations_le (F := F) sigma
          rw [← natDegree_toPoly hns hfs] at hle
          omega

end Modification

end ZXing

namespace ZXing

open GenericGFPoly Polynomial

/-! ## How `divide` ends -/

/-- The division loop throws nothing. -/
theorem divideLoop_ne_throw (F : GenericGF) (d : List Nat) (inv : Nat) :
    ∀ (fuel : Nat) (q rem : List Nat),
      divideLoop F d inv fuel q rem ≠ Result.invalidArgument ∧
      divideLoop F d inv fuel q rem ≠ Result.runtimeError := by
  intro fuel
  induction fuel with
  | zero =>
    intro q rem
    unfold divideLoop
    exact ⟨by simp, by simp⟩
  | succ fuel ih =>
    intro q rem
    unfold divideLoop
    split_ifs
    · exact ih _ _
    · exact ⟨by simp, by simp⟩

/-- The state-explicit `divide` ends the way `divide` does and, when it
returns, leaves the remainder in the receiver and the quotient in the
`quotient` argument. -/
theorem divideInPlace_eq (F : GenericGF) (fuel : Nat) (self other quotient : List Nat) :
    divideInPlace F fuel self other quotient =
      match divide F fuel self other with
      | Result.ok (q, r) => (Result.ok (), r, q)
      | Result.invalidArgument =>
        (Result.invalidArgument, self, if isZero other then quotient else setMonomial 0)
      | Result.runtimeError => (Result.runtimeError, self, setMonomial 0)
      | Result.outOfFuel => (Result.outOfFuel, self, setMonomial 0) := by
  unfold divideInPlace divide
  by_cases hz : isZero other = true
  · rw [if_pos hz, if_pos hz]
    simp [hz]
  · rw [if_neg hz, if_neg hz]
    simp only
    cases h : divideLoop F other (F.inverse (coefficient other (GenericGFPoly.degree other)))
        fuel (setMonomial 0) self with
    | ok p => rfl
    | invalidArgument => simp [hz]
    | runtimeError => rfl
    | outOfFuel => rfl

/-! ## The Horner fold at `0` and at `1` -/

/-- With `multiply(0, y) = 0` the fold keeps only the last coefficient. -/
theorem foldl_horner_zero (F : GenericGF) (h0 : ∀ y, y < F.size → F.multiply 0 y = 0) :
    ∀ (l : List Nat) (init : Nat), init < F.size → InField F l →
      l.foldl (fun result ci => F.multiply 0 result ^^^ ci) init
        = (init :: l).getD l.length 0 := by
  intro l
  induction l with
  | nil => intro init _ _; rfl
  | cons y ys ih =>
    intro init hi hl
    rw [List.foldl_cons, h0 init hi, Nat.zero_xor,
      ih y (hl y (List.mem_cons_self _ _)) (fun x hx => hl x (List.mem_cons_of_mem _ hx))]
    rfl

/-- With `multiply(1, y) = y` the fold is the exclusive-or of everything. -/
theorem foldl_horner_one (F : GenericGF) (h1 : ∀ y, y < F.size → F.multiply 1 y = y)
    (hx : ∀ a b, a < F.size → b < F.size → a ^^^ b < F.size) :
    ∀ (l : List Nat) (init : Nat), init < F.size → InField F l →
      l.foldl (fun result ci => F.multiply 1 result ^^^ ci) init
        = l.foldl (fun x y => x ^^^ y) init := by
  intro l
  induction l with
  | nil => intro init _ _; rfl
  | cons y ys ih =>
    intro init hi hl
    rw [List.foldl_cons, List.foldl_cons, h1 init hi]
    exact ih _ (hx _ _ hi (hl y (List.mem_cons_self _ _)))
      (fun x hx' => hl x (List.mem_cons_of_mem _ hx'))

/-- Outside the two shortcuts `evaluateAt` is the Horner fold by definition. -/
theorem evaluateAt_eq_hornerFold_of_ne (F : GenericGF) (c : List Nat) {x : Nat} (hx0 : x ≠ 0)
    (hx1 : x ≠ 1) : evaluateAt F c x = hornerFold F c x := by
  unfold evaluateAt hornerFold
  rw [if_neg hx0, if_neg hx1]

theorem evaluateAt_zero_eq_hornerFold (F : GenericGF)
    (h0 : ∀ y, y < F.size → F.multiply 0 y = 0) {c : List Nat} (hne : c ≠ [])
    (hc : InField F c) : evaluateAt F c 0 = hornerFold F c 0 := by
  obtain ⟨a, t, rfl⟩ := List.exists_cons_of_ne_nil hne
  unfold evaluateAt hornerFold coefficient
  rw [if_pos rfl]
  show _ = t.foldl _ a
  rw [foldl_horner_zero F h0 t a (hc a (List.mem_cons_self _ _))
    (fun x hx => hc x (List.mem_cons_of_mem _ hx))]
  simp

theorem evaluateAt_one_eq_hornerFold (F : GenericGF)
    (h1 : ∀ y, y < F.size → F.multiply 1 y = y)
    (hx : ∀ a b, a < F.size → b < F.size → a ^^^ b < F.size) {c : List Nat} (hne : c ≠ [])
    (hc : InField F c) : evaluateAt F c 1 = hornerFold F c 1 := by
  obtain ⟨a, t, rfl⟩ := List.exists_cons_of_ne_nil hne
  unfold evaluateAt hornerFold
  rw [if_neg (by decide), if_pos rfl]
  show _ = t.foldl _ a
  rw [foldl_horner_one F h1 hx t a (hc a (List.mem_cons_self _ _))
    (fun x hx => hc x (List.mem_cons_of_mem _ hx)), List.foldl_cons, Nat.zero_xor]

/-! ## `normalize` on zero vectors -/

theorem dropWhile_zero_of_all_zero : ∀ (c : List Nat), (∀ x ∈ c, x = 0) →
    c.dropWhile (fun x => x == 0) = [] := by
  intro c
  induction c with
  | nil => intro _; rfl
  | cons a t ih =>
    intro h
    have ha : a = 0 := h a (List.mem_cons_self _ _)
    subst ha
    rw [List.dropWhile_cons_of_pos (by decide)]
    exact ih (fun x hx => h x (List.mem_cons_of_mem _ hx))

theorem normalize_of_all_zero {c : List Nat} (hne : c ≠ []) (h : ∀ x ∈ c, x = 0) :
    GenericGFPoly.normalize c = [0] := by
  unfold GenericGFPoly.normalize
  simp only
  rw [dropWhile_zero_of_all_zero c h]
  have : 0 < c.length := List.length_pos.mpr hne
  rw [if_neg (by simp; omega), if_pos rfl]

theorem normalize_idem (c : List Nat) :
    GenericGFPoly.normalize (GenericGFPoly.normalize c) = GenericGFPoly.normalize c := by
  by_cases hne : c = []
  · subst hne; rfl
  · exact normalize_of_isNormalized (isNormalized_normalize hne)

/-! ## The iteration bound of `divide` -/

section DivideBound

variable {F : GenericGF} [hF : Fact F.Lawful]

omit hF in
theorem degree_lt_of_length_lt {a b : List Nat} (ha : a ≠ []) (h : a.length < b.length) :
    GenericGFPoly.degree a < GenericGFPoly.degree b := by
  unfold GenericGFPoly.degree
  have := List.length_pos.mpr ha
  omega

/-- Termination of the division loop within
`degree(rem) - degree(d) + 1` iterations: a budget of one more evaluation of
the loop condition than that is enough (and any nonzero budget for a zero
remainder). -/
theorem divideLoop_total_sharp {d : List Nat} (hd : IsNormalized d) (hfd : InField F d)
    (hdz : isZero d = false) :
    ∀ (fuel : Nat) (q rem : List Nat), IsNormalized rem → InField F rem →
      ((isZero rem = true ∧ 0 < fuel) ∨
        GenericGFPoly.degree rem + 1 - GenericGFPoly.degree d < fuel) →
      ∃ q' r', divideLoop F d (F.inverse (coefficient d (GenericGFPoly.degree d))) fuel q rem
          = Result.ok (q', r') := by
  intro fuel
  induction fuel with
  | zero => intro q rem _ _ h; exact absurd h (by omega)
  | succ fuel ih =>
    intro q rem hr hfr hfuel
    unfold divideLoop
    by_cases hcond : GenericGFPoly.degree rem ≥ GenericGFPoly.degree d ∧ ¬ isZero rem = true
    · rw [if_pos hcond]
      have hrz : isZero rem = false := by simpa using hcond.2
      obtain ⟨-, -, hn', hf', -, hdec⟩ :=
        divide_step hd hfd hdz hr hfr hrz hcond.1
      simp only
      apply ih _ _ hn' hf'
      have h1 := hcond.1
      have hfuel' : GenericGFPoly.degree rem + 1 - GenericGFPoly.degree d < fuel + 1 := by
        rcases hfuel with h | h
        · rw [hrz] at h; exact absurd h.1 (by decide)
        · exact h
      rcases hdec with h | h
      · exact Or.inl ⟨h, by omega⟩
      · right
        have h2 := degree_lt_of_length_lt hn'.1 h
        omega
    · rw [if_neg hcond]
      exact ⟨q, rem, rfl⟩

/-- `divide` returns within `degree(p) - degree(d) + 1` iterations. -/
theorem divide_spec_sharp {p d : List Nat} (hp : IsNormalized p) (hfp : InField F p)
    (hd : IsNormalized d) (hfd : InField F d) (hdz : isZero d = false) {fuel : Nat}
    (hfuel : GenericGFPoly.degree p + 1 - GenericGFPoly.degree d < fuel) :
    ∃ q r, divide F fuel p d = Result.ok (q, r) ∧
      IsNormalized q ∧ InField F q ∧ IsNormalized r ∧ InField F r ∧
      toPoly F q * toPoly F d + toPoly F r = toPoly F p ∧
      (isZero r = true ∨ GenericGFPoly.degree r < GenericGFPoly.degree d) := by
  have htot : ∃ q r, divide F fuel p d = Result.ok (q, r) := by
    unfold divide
    rw [hdz, if_neg (by decide)]
    exact divideLoop_total_sharp hd hfd hdz fuel (setMonomial 0) p hp hfp (Or.inr hfuel)
  obtain ⟨q, r, he⟩ := htot
  exact ⟨q, r, he, divide_partial hp hfp hd hfd hdz he⟩

end DivideBound

end ZXing

namespace ZXing

open GenericGFPoly Polynomial

/-! ## Termination of the Euclidean loop -/

section EuclidBound

variable {F : GenericGF} [hF : Fact F.Lawful]

omit hF in
/-- Leading zeros do not change the polynomial built from a vector. -/
theorem normalize_pad {c : List Nat} (hne : c ≠ []) (k : Nat) :
    GenericGFPoly.normalize (List.replicate k 0 ++ c) = GenericGFPoly.normalize c := by
  apply eq_of_coeffAt_eq (isNormalized_normalize (by simp [hne])) (isNormalized_normalize hne)
  intro d
  rw [coeffAt_normalize, coeffAt_normalize, coeffAt_replicate_append]

omit hF in
theorem inField_pad {c : List Nat} (hc : InField F c) (h0 : 0 < F.size) (k : Nat) :
    InField F (List.replicate k 0 ++ c) := by
  intro x hx
  rcases List.mem_append.mp hx with h | h
  · rw [(List.mem_replicate.mp h).2]; exact h0
  · exact hc x h

theorem toPoly_pad (c : List Nat) (k : Nat) :
    toPoly F (List.replicate k 0 ++ c) = toPoly F c :=
  toPoly_congr (coeffAt_replicate_append k c)

/-- The invariant holds on entry to the Euclidean loop for every non-empty
syndrome vector of at most `R` coefficients. -/
theorem euclid_init_le {rCoefs : List Nat} {R : Nat} (hf : InField F rCoefs)
    (hne : rCoefs ≠ []) (hlen : rCoefs.length ≤ R) :
    EuclidInv F (toPoly F rCoefs) R
      ⟨setMonomial 1 R, GenericGFPoly.normalize rCoefs, setMonomial 0, setMonomial 1⟩ := by
  have hpos := List.length_pos.mpr hne
  have hf' : InField F (List.replicate (R - rCoefs.length) 0 ++ rCoefs) :=
    inField_pad hf zero_lt_size _
  have hl' : (List.replicate (R - rCoefs.length) 0 ++ rCoefs).length = R := by
    simp; omega
  have h := euclid_init hf' hl' (by omega)
  rw [normalize_pad hne, toPoly_pad] at h
  exact h

omit hF in
theorem degree_setMonomial (c d : Nat) : GenericGFPoly.degree (setMonomial c d) = d := by
  simp [GenericGFPoly.degree, setMonomial]

theorem degree_normalize_lt {rCoefs : List Nat} {R : Nat} (hf : InField F rCoefs)
    (hne : rCoefs ≠ []) (hlen : rCoefs.length ≤ R) :
    GenericGFPoly.degree (GenericGFPoly.normalize rCoefs) < R := by
  have inv0 := euclid_init_le hf hne hlen
  have hpos := List.length_pos.mpr hne
  rcases inv0.degR with hz | hlt
  · rw [degree_zero_of_isZero inv0.nr hz]; omega
  · rw [← degree_setMonomial 1 R]; exact hlt

/-- The Euclidean loop ends within `degree(r) + 1` evaluations of its
condition, by a return or by the degree check: each pass that goes on has
lowered `degree(r)`. -/
theorem euclidLoop_terminates {S : Polynomial (GFElem F)} {R divFuel : Nat}
    (hdf : R + 1 < divFuel) :
    ∀ (fuel : Nat) (s : EuclidState), EuclidInv F S R s → GenericGFPoly.degree s.r < fuel →
      (∃ res, euclidLoop F divFuel R fuel s = Result.ok res) ∨
        euclidLoop F divFuel R fuel s = Result.runtimeError := by
  intro fuel
  induction fuel with
  | zero => intro s _ h; exact absurd h (by omega)
  | succ fuel ih =>
    intro s inv hfuel
    unfold euclidLoop
    by_cases hc : GenericGFPoly.degree s.r ≥ R / 2
    · rw [if_pos hc]
      simp only
      by_cases hz : isZero s.r = true
      · rw [if_pos hz]
        exact Or.inl ⟨none, rfl⟩
      · rw [if_neg hz]
        have hrz : isZero s.r = false := by simpa using hz
        have hlen : s.rLast.length < divFuel := by
          have h1 := inv.degT
          have h2 : GenericGFPoly.degree s.rLast = s.rLast.length - 1 := rfl
          omega
        obtain ⟨q, r', hdiv, -, -, hr', -, -, hrem⟩ :=
          divide_spec inv.nrLast inv.frLast inv.nr inv.fr hrz hlen
        rw [hdiv]
        simp only
        by_cases hred : GenericGFPoly.degree r' ≥ GenericGFPoly.degree s.r
        · rw [if_pos hred]
          exact Or.inr rfl
        · rw [if_neg hred]
          apply ih _ (euclid_step inv hc hrz hdiv hred)
          show GenericGFPoly.degree r' < fuel
          omega
    · rw [if_neg hc]
      exact Or.inl ⟨some s, rfl⟩

omit hF in
/-- `RunEuclideanAlgorithm` reads its coefficient argument only through the
polynomial built from it. -/
theorem runEuclid_pad {rCoefs : List Nat} (hne : rCoefs ≠ []) (k fuel R : Nat) :
    RunEuclideanAlgorithm F fuel (List.replicate k 0 ++ rCoefs) R
      = RunEuclideanAlgorithm F fuel rCoefs R := by
  unfold RunEuclideanAlgorithm
  rw [normalize_pad hne]

/-- What `RunEuclideanAlgorithm` guarantees about a returned pair, for every
non-empty syndrome vector of at most `R` coefficients. -/
theorem runEuclid_partial_le {rCoefs : List Nat} {R : Nat} (hf : InField F rCoefs)
    (hne : rCoefs ≠ []) (hlen : rCoefs.length ≤ R) {fuel : Nat} {sigma omega : List Nat}
    (h : RunEuclideanAlgorithm F fuel rCoefs R = Result.ok (some (sigma, omega))) :
    IsNormalized sigma ∧ InField F sigma ∧ IsNormalized omega ∧ InField F omega ∧
    (toPoly F sigma).coeff 0 = 1 ∧ (toPoly F sigma).natDegree ≤ R - R / 2 ∧
    (toPoly F omega).natDegree < R / 2 ∧
    ∃ u : Polynomial (GFElem F),
      toPoly F omega = u * X ^ R + toPoly F sigma * toPoly F rCoefs ∧
      IsCoprime u (toPoly F sigma) := by
  have hpos := List.length_pos.mpr hne
  rw [← runEuclid_pad hne (R - rCoefs.length)] at h
  have := runEuclid_partial (F := F) (inField_pad hf zero_lt_size _) (by simp; omega)
    (by omega) h
  rw [toPoly_pad] at this
  exact this

/-! ## Every polynomial is a coefficient vector -/

/-- The coefficient vector of a polynomial over the field. -/
theorem exists_list_of_poly (p : Polynomial (GFElem F)) :
    ∃ c : List Nat, IsNormalized c ∧ InField F c ∧ toPoly F c = p := by
  have key : toPoly F (((List.range (p.natDegree + 1)).map (fun i => (p.coeff i).1)).reverse)
      = p := by
    ext d
    rw [coeff_toPoly]
    unfold coeffAt
    rw [List.reverse_reverse, List.getD_eq_getElem?_getD, List.getElem?_map]
    by_cases hd : d < p.natDegree + 1
    · rw [List.getElem?_range hd]
      exact toElem_surj _
    · rw [List.getElem?_eq_none_iff.mpr (by simpa using hd)]
      show toElem F 0 = _
      rw [toElem_zero, Polynomial.coeff_eq_zero_of_natDegree_lt (by omega)]
  have hne : ((List.range (p.natDegree + 1)).map (fun i => (p.coeff i).1)).reverse ≠ [] := by
    simp
  have hin : InField F (((List.range (p.natDegree + 1)).map (fun i => (p.coeff i).1)).reverse) := by
    intro x hx
    rw [List.mem_reverse, List.mem_map] at hx
    obtain ⟨i, -, rfl⟩ := hx
    exact (p.coeff i).2
  exact ⟨_, isNormalized_normalize hne, inField_normalize hin zero_lt_size, by
    rw [toPoly_normalize, key]⟩

end EuclidBound

end ZXing

namespace ZXing

open GenericGFPoly Polynomial

/-! ## How `ReedSolomonDecode` ends -/

section DecodeEnds

variable {F : GenericGF} [hF : Fact F.Lawful]

/-- With any syndrome count other than `1` and a budget above `twoS + 1`,
`ReedSolomonDecode` returns a flag: it neither throws nor runs out of
budget. -/
theorem decode_total {received : List Nat} (hr : InField F received) {twoS fuel : Nat}
    (hR : twoS ≠ 1) (hfuel : twoS + 1 < fuel) :
    ∃ b out, ReedSolomonDecode F fuel received twoS = Result.ok (b, out) := by
  unfold ReedSolomonDecode
  simp only
  by_cases hall : (syndromeCoefficients F (GenericGFPoly.normalize received) twoS).all
      (fun c => c == 0) = true
  · rw [if_pos hall]
    exact ⟨_, _, rfl⟩
  · rw [if_neg hall]
    have hR2 : 2 ≤ twoS := by
      by_contra h0
      have : twoS = 0 := by omega
      apply hall
      rw [this]
      rfl
    obtain ⟨res, hres⟩ := runEuclid_total
      (inField_syndromeCoefficients (inField_normalize hr zero_lt_size) twoS)
      (length_syndromeCoefficients _ _) hR2 hfuel
    rw [hres]
    cases res with
    | none => exact ⟨_, _, rfl⟩
    | some so =>
      obtain ⟨sigma, omega⟩ := so
      simp only
      split_ifs
      · exact ⟨_, _, rfl⟩
      · exact ⟨_, _, rfl⟩

omit hF in
theorem syndromeCoefficients_one (poly : List Nat) :
    syndromeCoefficients F poly 1 = [evaluateAt F poly (F.exp (0 + F.generatorBase))] := rfl

/-- With a single nonzero syndrome the Euclidean algorithm throws: the first
division leaves the zero polynomial, whose degree `0` is not below the
degree `0` of the constant divisor. -/
theorem runEuclid_one_syndrome {x : Nat} (hx : x < F.size) (hx0 : x ≠ 0) {fuel : Nat}
    (hfuel : 3 ≤ fuel) :
    RunEuclideanAlgorithm F fuel [x] 1 = Result.runtimeError := by
  have hnx : IsNormalized [x] := ⟨by simp, fun h => absurd h hx0⟩
  have hfx : InField F [x] := by
    intro y hy
    rw [List.mem_singleton.mp hy]
    exact hx
  have hnorm : GenericGFPoly.normalize [x] = [x] := normalize_of_isNormalized hnx
  have hzx : isZero [x] = false := by
    unfold isZero
    simpa using hx0
  rw [runEuclid_unfold (by rw [hnorm]; simp [GenericGFPoly.degree]), hnorm]
  obtain ⟨f, rfl⟩ : ∃ f, fuel = f + 1 := ⟨fuel - 1, by omega⟩
  have hloop : euclidLoop F (f + 1) 1 (f + 1) ⟨setMonomial 1 1, [x], setMonomial 0, setMonomial 1⟩
      = Result.runtimeError := by
    unfold euclidLoop
    rw [if_pos (by simp [GenericGFPoly.degree])]
    simp only
    rw [hzx, if_neg (by decide)]
    have hfl : (setMonomial 1 1).length < f + 1 := by
      simp [setMonomial]; omega
    obtain ⟨q, r', hdiv, -, -, hr', -, -, hrem⟩ :=
      divide_spec (isNormalized_setMonomial (by decide) 1)
        (inField_setMonomial hF.out.one_lt_size 1) hnx hfx hzx hfl
    rw [hdiv]
    simp only
    have hz : isZero r' = true := by
      rcases hrem with h | h
      · exact h
      · exact absurd h (by simp [GenericGFPoly.degree])
    rw [degree_zero_of_isZero hr' hz, if_pos (by simp [GenericGFPoly.degree])]
  rw [hloop]

/-- `ReedSolomonDecode` with `twoS = 1` throws on every word whose one
syndrome is nonzero. -/
theorem decode_one_syndrome {received : List Nat} (hr : InField F received)
    (hs : syndrome F received 0 ≠ 0) {fuel : Nat} (hfuel : 3 ≤ fuel) :
    ReedSolomonDecode F fuel received 1 = Result.runtimeError := by
  unfold ReedSolomonDecode
  simp only
  rw [syndromeCoefficients_one]
  have hx : evaluateAt F (GenericGFPoly.normalize received) (F.exp (0 + F.generatorBase))
      < F.size :=
    evaluateAt_lt (inField_normalize hr zero_lt_size) (hF.out.exp_lt _)
  have hx0 : evaluateAt F (GenericGFPoly.normalize received) (F.exp (0 + F.generatorBase))
      ≠ 0 := hs
  rw [if_neg (by simpa using hx0), runEuclid_one_syndrome hx hx0 hfuel]

/-! ## The key equation on coefficient vectors -/

/-- A polynomial identity `omega = u x^R + sigma S` read back on coefficient
vectors, with the cofactor as a vector. -/
theorem key_equation_list {S sigma omega : List Nat} {R : Nat} (hS : InField F S)
    (hne : S ≠ []) (hs : IsNormalized sigma) (hfs : InField F sigma)
    (ho : IsNormalized omega) (hfo : InField F omega) {u : Polynomial (GFElem F)}
    (hu : toPoly F omega = u * X ^ R + toPoly F sigma * toPoly F S) :
    ∃ ul : List Nat, IsNormalized ul ∧ InField F ul ∧
      (addOrSubtract (multiply F sigma (GenericGFPoly.normalize S))
        (multiply F ul (setMonomial 1 R))).1 = omega := by
  obtain ⟨ul, hnu, hfu, hpu⟩ := exists_list_of_poly u
  refine ⟨ul, hnu, hfu, ?_⟩
  have hnS := isNormalized_normalize hne
  have hfS := inField_normalize hS (zero_lt_size (F := F))
  have hnm := isNormalized_setMonomial (c := 1) (by decide) R
  have hfm := inField_setMonomial hF.out.one_lt_size R
  have h1 := isNormalized_multiply (F := F) sigma (GenericGFPoly.normalize S)
  have h2 := isNormalized_multiply (F := F) ul (setMonomial 1 R)
  have hf1 := inField_multiply hfs hfS
  have hf2 := inField_multiply hfu hfm
  apply toPoly_inj (isNormalized_addOrSubtract_fst h1 h2) ho
    (inField_addOrSubtract_fst h1 h2 hf1 hf2) hfo
  rw [toPoly_addOrSubtract h1 h2 hf1 hf2, toPoly_multiply hs hnS hfs hfS,
    toPoly_multiply hnu hnm hfu hfm, toPoly_normalize, toPoly_setMonomial, toElem_one, hu, hpu]
  simp only [C_1, one_mul]
  ring

end DecodeEnds

end ZXing

namespace ZXing

open GenericGFPoly Polynomial

/-! ## Forney's formula on arbitrary locations -/

section ForneyGeneral

variable {F : GenericGF} [hF : Fact F.Lawful]

theorem toElem_fieldPow {x : Nat} (hx : x < F.size) (n : Nat) :
    fieldPow F x n < F.size ∧ toElem F (fieldPow F x n) = toElem F x ^ n := by
  induction n with
  | zero => exact ⟨hF.out.one_lt_size, by rw [pow_zero]; exact toElem_one⟩
  | succ n ih =>
    refine ⟨hF.out.mul_lt _ _ ih.1 hx, ?_⟩
    show toElem F (F.multiply (fieldPow F x n) x) = _
    rw [toElem_mul ih.1 hx, ih.2, pow_succ]

theorem toPoly_linear_factor (x : Nat) :
    toPoly F [x, 1] = 1 + C (toElem F x) * X := by
  rw [toPoly_cons, toPoly_singleton, toElem_one]
  simp [add_comm]

omit hF in
theorem isNormalized_linear_factor {x : Nat} (hx : x ≠ 0) : IsNormalized [x, 1] :=
  ⟨by simp, fun h => absurd h hx⟩

/-- The product loop of `locatorWithout`, stopped after `m` locations. -/
theorem locatorWithout_aux {locs : List Nat} (hl : InField F locs) (hl0 : ∀ x ∈ locs, x ≠ 0)
    (k : Nat) :
    ∀ m, m ≤ locs.length →
      IsNormalized ((List.range m).foldl
        (fun acc j => if j ≠ k then multiply F acc [locs.getD j 0, 1] else acc) [1]) ∧
      InField F ((List.range m).foldl
        (fun acc j => if j ≠ k then multiply F acc [locs.getD j 0, 1] else acc) [1]) ∧
      toPoly F ((List.range m).foldl
        (fun acc j => if j ≠ k then multiply F acc [locs.getD j 0, 1] else acc) [1])
        = ∏ j in (Finset.range m).filter (fun j => j ≠ k),
            (1 + C (toElem F (locs.getD j 0)) * X) := by
  intro m
  induction m with
  | zero =>
    intro _
    simp only [List.range_zero, List.foldl_nil]
    refine ⟨by decide, ?_, ?_⟩
    · intro y hy
      rw [List.mem_singleton.mp hy]
      exact hF.out.one_lt_size
    · simp [toPoly_one]
  | succ m ih =>
    intro hm
    obtain ⟨ih1, ih2, ih3⟩ := ih (by omega)
    rw [List.range_succ, List.foldl_append]
    simp only [List.foldl_cons, List.foldl_nil]
    have hmem : locs.getD m 0 ∈ locs := getD_mem (by omega)
    have hx := hl _ hmem
    have hx0 := hl0 _ hmem
    have hfac : InField F [locs.getD m 0, 1] := by
      intro y hy
      simp only [List.mem_cons, List.mem_singleton, List.not_mem_nil, or_false] at hy
      rcases hy with rfl | rfl
      · exact hx
      · exact hF.out.one_lt_size
    by_cases hmk : m ≠ k
    · rw [if_pos hmk]
      refine ⟨isNormalized_multiply _ _, inField_multiply ih2 hfac, ?_⟩
      rw [toPoly_multiply ih1 (isNormalized_linear_factor hx0) ih2 hfac, ih3,
        toPoly_linear_factor, Finset.range_succ, Finset.filter_insert, if_pos hmk,
        Finset.prod_insert (by simp), mul_comm]
    · rw [if_neg hmk]
      refine ⟨ih1, ih2, ?_⟩
      rw [ih3, Finset.range_succ, Finset.filter_insert, if_neg hmk]

theorem locatorWithout_spec {locs : List Nat} (hl : InField F locs) (hl0 : ∀ x ∈ locs, x ≠ 0)
    (k : Nat) :
    IsNormalized (locatorWithout F locs k) ∧ InField F (locatorWithout F locs k) ∧
    toPoly F (locatorWithout F locs k)
      = ∏ j in (Finset.range locs.length).erase k, (1 + C (toElem F (locs.getD j 0)) * X) := by
  have h := locatorWithout_aux hl hl0 k locs.length (le_refl _)
  rw [Finset.filter_ne'] at h
  exact h

/-- The sum loop of `trueEvaluator`, stopped after `m` locations. -/
theorem trueEvaluator_aux {locs vals : List Nat} (hl : InField F locs)
    (hl0 : ∀ x ∈ locs, x ≠ 0) (hv : InField F vals) (g : Nat) :
    ∀ m,
      IsNormalized ((List.range m).foldl
        (fun acc k =>
          (addOrSubtract acc
            (multiplyByMonomial F (locatorWithout F locs k) 0
              (F.multiply (vals.getD k 0) (fieldPow F (locs.getD k 0) g)))).1) [0]) ∧
      InField F ((List.range m).foldl
        (fun acc k =>
          (addOrSubtract acc
            (multiplyByMonomial F (locatorWithout F locs k) 0
              (F.multiply (vals.getD k 0) (fieldPow F (locs.getD k 0) g)))).1) [0]) ∧
      toPoly F ((List.range m).foldl
        (fun acc k =>
          (addOrSubtract acc
            (multiplyByMonomial F (locatorWithout F locs k) 0
              (F.multiply (vals.getD k 0) (fieldPow F (locs.getD k 0) g)))).1) [0])
        = ∑ k in Finset.range m,
            C (toElem F (vals.getD k 0) * toElem F (locs.getD k 0) ^ g)
              * ∏ j in (Finset.range locs.length).erase k,
                  (1 + C (toElem F (locs.getD j 0)) * X) := by
  intro m
  induction m with
  | zero =>
    refine ⟨isNormalized_zero, inField_setMonomial zero_lt_size 0, ?_⟩
    simp [toPoly_zero]
  | succ m ih =>
    obtain ⟨ih1, ih2, ih3⟩ := ih
    rw [List.range_succ, List.foldl_append]
    simp only [List.foldl_cons, List.foldl_nil]
    obtain ⟨hn, hf, hp⟩ := locatorWithout_spec hl hl0 m
    have hx : locs.getD m 0 < F.size := getD_lt hl zero_lt_size m
    have hy : vals.getD m 0 < F.size := getD_lt hv zero_lt_size m
    obtain ⟨hpw, hpe⟩ := toElem_fieldPow hx g
    have hc : F.multiply (vals.getD m 0) (fieldPow F (locs.getD m 0) g) < F.size :=
      hF.out.mul_lt _ _ hy hpw
    have hnm := isNormalized_multiplyByMonomial (F := F) hn.1 0
      (F.multiply (vals.getD m 0) (fieldPow F (locs.getD m 0) g))
    have hfm := inField_multiplyByMonomial hf 0 hc
    refine ⟨isNormalized_addOrSubtract_fst ih1 hnm, inField_addOrSubtract_fst ih1 hnm ih2 hfm, ?_⟩
    rw [toPoly_addOrSubtract ih1 hnm ih2 hfm, ih3, toPoly_multiplyByMonomial hf 0 hc, hp,
      toElem_mul hy hpw, hpe, Finset.sum_range_succ, pow_zero, mul_one]
    ring

/-- The vector `trueEvaluator` stands for the evaluator polynomial of the
pattern. -/
theorem toPoly_trueEvaluator {locs vals : List Nat} (hl : InField F locs)
    (hl0 : ∀ x ∈ locs, x ≠ 0) (hv : InField F vals) (g : Nat) :
    IsNormalized (trueEvaluator F g locs vals) ∧ InField F (trueEvaluator F g locs vals) ∧
    toPoly F (trueEvaluator F g locs vals)
      = evaluatorPoly (Finset.range locs.length) (fun j => toElem F (locs.getD j 0))
          (fun j => toElem F (vals.getD j 0)) g :=
  trueEvaluator_aux hl hl0 hv g locs.length

/-- Forney's formula on the true evaluator of distinct nonzero locations
returns the error values, for generator base 0 or 1. -/
theorem findErrorMagnitudes_of_evaluator (hbase : F.generatorBase ≤ 1) {locs vals : List Nat}
    (hl : InField F locs) (hl0 : ∀ x ∈ locs, x ≠ 0) (hnd : locs.Nodup)
    (hv : InField F vals) (hlen : vals.length = locs.length) {omega : List Nat}
    (ho : omega ≠ []) (hfo : InField F omega)
    (hpoly : toPoly F omega
      = evaluatorPoly (Finset.range locs.length) (fun j => toElem F (locs.getD j 0))
          (fun j => toElem F (vals.getD j 0)) F.generatorBase) :
    FindErrorMagnitudes F omega locs = vals := by
  unfold FindErrorMagnitudes
  apply List.ext_getElem (by simp [hlen])
  intro i h1 h2
  have hi : i < locs.length := by simpa using h1
  rw [List.getElem_map, List.getElem_range]
  simp only
  have hvi : vals[i] = vals.getD i 0 := by
    rw [List.getD_eq_getElem?_getD, List.getElem?_eq_getElem h2]
    rfl
  rw [hvi]
  have himem : i ∈ Finset.range locs.length := Finset.mem_range.mpr hi
  have hXlt : locs.getD i 0 < F.size := getD_lt hl zero_lt_size i
  have hXne : locs.getD i 0 ≠ 0 := hl0 _ (getD_mem hi)
  have hXe : toElem F (locs.getD i 0) ≠ 0 := by
    rw [Ne, toElem_eq_zero_iff hXlt]
    exact hXne
  have hxi : F.inverse (locs.getD i 0) < F.size :=
    hF.out.inverse_lt _ (Nat.pos_of_ne_zero hXne) hXlt
  have hxiE : toElem F (F.inverse (locs.getD i 0)) = (toElem F (locs.getD i 0))⁻¹ :=
    toElem_inverse hXlt hXne
  obtain ⟨hden_lt', hden⟩ := forneyDenominator_aux locs hl i hxi locs.length
  have hden_lt : forneyDenominator F locs i (F.inverse (locs.getD i 0)) < F.size := hden_lt'
  have hdenE : toElem F (forneyDenominator F locs i (F.inverse (locs.getD i 0)))
      = ∏ q in (Finset.range locs.length).erase i,
          (1 + toElem F (locs.getD q 0) * (toElem F (locs.getD i 0))⁻¹) := by
    unfold forneyDenominator
    rw [hden, hxiE, Finset.filter_ne]
  have hinj : Set.InjOn (fun j => toElem F (locs.getD j 0))
      (Finset.range locs.length : Finset Nat) := by
    intro a ha b hb h
    have ha' := Finset.mem_range.mp (Finset.mem_coe.mp ha)
    have hb' := Finset.mem_range.mp (Finset.mem_coe.mp hb)
    exact getD_inj_of_nodup hnd ha' hb'
      (toElem_inj (getD_lt hl zero_lt_size a) (getD_lt hl zero_lt_size b) h)
  have hD0 : ∏ q in (Finset.range locs.length).erase i,
      (1 + toElem F (locs.getD q 0) * (toElem F (locs.getD i 0))⁻¹) ≠ 0 :=
    forney_denominator_ne_zero char2 (Finset.range locs.length)
      (fun j => toElem F (locs.getD j 0)) hinj himem hXe
  have hden0 : forneyDenominator F locs i (F.inverse (locs.getD i 0)) ≠ 0 := by
    intro h0
    rw [h0, toElem_zero] at hdenE
    exact hD0 hdenE.symm
  have hinvden := hF.out.inverse_lt _ (Nat.pos_of_ne_zero hden0) hden_lt
  have hev_lt := evaluateAt_lt hfo hxi
  have hev : toElem F (evaluateAt F omega (F.inverse (locs.getD i 0)))
      = toElem F (vals.getD i 0) * toElem F (locs.getD i 0) ^ F.generatorBase
        * ∏ q in (Finset.range locs.length).erase i,
            (1 + toElem F (locs.getD q 0) * (toElem F (locs.getD i 0))⁻¹) := by
    rw [toElem_evaluateAt hfo ho hxi, hxiE, hpoly,
      eval_evaluatorPoly_inv char2 (Finset.range locs.length)
        (fun j => toElem F (locs.getD j 0)) (fun j => toElem F (vals.getD j 0)) _ himem hXe]
  have hres_lt := hF.out.mul_lt _ _ hev_lt hinvden
  have hres : toElem F (F.multiply (evaluateAt F omega (F.inverse (locs.getD i 0)))
      (F.inverse (forneyDenominator F locs i (F.inverse (locs.getD i 0)))))
      = toElem F (vals.getD i 0) * toElem F (locs.getD i 0) ^ F.generatorBase := by
    rw [toElem_mul hev_lt hinvden, toElem_inverse hden_lt hden0, hev, hdenE,
      mul_assoc, mul_inv_cancel₀ hD0, mul_one]
  have hvlt : vals.getD i 0 < F.size := getD_lt hv zero_lt_size i
  by_cases hg : F.generatorBase = 0
  · rw [if_neg (by simpa using hg)]
    apply toElem_inj hres_lt hvlt
    rw [hres, hg, pow_zero, mul_one]
  · rw [if_pos hg]
    have hg1 : F.generatorBase = 1 := by omega
    apply toElem_inj (hF.out.mul_lt _ _ hres_lt hxi) hvlt
    rw [toElem_mul hres_lt hxi, hres, hxiE, hg1, pow_one, mul_assoc,
      mul_inv_cancel₀ hXe, mul_one]

end ForneyGeneral

set_option maxRecDepth 1000000 in
theorem gf16Base2Field_lawful : gf16Base2Field.Lawful :=
  logField_lawful _ _ 16 2 4 (by decide!)

end ZXing

namespace ZXing

open GenericGFPoly Polynomial

/-! ## The Chien stage and the frame of the correction loop -/

theorem chienLoop_eq_roots (F : GenericGF) (errorLocator : List Nat) (numErrors : Nat) :
    chienLoop F errorLocator numErrors
      = ((chienRoots F errorLocator).take numErrors).map F.inverse := by
  rw [chienLoop_eq, List.map_take]
  rfl

theorem mem_chienRoots {F : GenericGF} {errorLocator : List Nat} {i : Nat}
    (h : i ∈ chienRoots F errorLocator) :
    1 ≤ i ∧ i < F.size ∧ evaluateAt F errorLocator i = 0 := by
  unfold chienRoots at h
  rw [List.mem_filter, List.mem_range'_1] at h
  obtain ⟨⟨h1, h2⟩, h3⟩ := h
  exact ⟨h1, by omega, by simpa using h3⟩

theorem length_chienLoop (F : GenericGF) (errorLocator : List Nat) (numErrors : Nat) :
    (chienLoop F errorLocator numErrors).length
      = min numErrors (chienRoots F errorLocator).length := by
  rw [chienLoop_eq_roots, List.length_map, List.length_take]

theorem findErrorLocations_isEmpty_iff (F : GenericGF) (errorLocator : List Nat) :
    (FindErrorLocations F errorLocator).isEmpty = true ↔
      ((chienLoop F errorLocator (GenericGFPoly.degree errorLocator)).length
          ≠ GenericGFPoly.degree errorLocator ∨
        GenericGFPoly.degree errorLocator = 0) := by
  unfold FindErrorLocations
  simp only
  split_ifs with h
  · simp only [List.isEmpty_nil, true_iff]
    exact Or.inl h
  · simp only [ne_eq, not_not] at h
    rw [List.isEmpty_iff, ← List.length_eq_zero, h]
    constructor
    · intro h0; exact Or.inr h0
    · rintro (h1 | h1)
      · exact absurd rfl h1
      · exact h1

theorem findErrorLocations_of_nonempty (F : GenericGF) (errorLocator : List Nat)
    (h : (FindErrorLocations F errorLocator).isEmpty = false) :
    FindErrorLocations F errorLocator
      = ((chienRoots F errorLocator).take (GenericGFPoly.degree errorLocator)).map F.inverse := by
  unfold FindErrorLocations at h ⊢
  simp only at h ⊢
  split_ifs with h1
  · rw [if_pos h1] at h
    exact absurd h (by simp)
  · exact chienLoop_eq_roots F errorLocator _

/-- What `ReedSolomonDecode` does after a successful Euclidean stage. -/
theorem decode_after_euclid (F : GenericGF) {fuel twoS : Nat} {received sigma omega : List Nat}
    (hall : (syndromeCoefficients F (GenericGFPoly.normalize received) twoS).all
      (fun c => c == 0) = false)
    (hrun : RunEuclideanAlgorithm F fuel
      (syndromeCoefficients F (GenericGFPoly.normalize received) twoS) twoS
        = Result.ok (some (sigma, omega))) :
    ReedSolomonDecode F fuel received twoS =
      if (FindErrorLocations F sigma).isEmpty then Result.ok (false, received)
      else Result.ok (correctionLoop F (FindErrorLocations F sigma)
        (FindErrorMagnitudes F omega (FindErrorLocations F sigma)) received.length
        (FindErrorLocations F sigma).length 0 received) := by
  unfold ReedSolomonDecode
  simp only
  rw [hall, if_neg (by decide), hrun]

theorem length_correctionLoop (F : GenericGF) (locs mags : List Nat) (n : Nat) :
    ∀ (k i : Nat) (rec : List Nat),
      (correctionLoop F locs mags n k i rec).2.length = rec.length := by
  intro k
  induction k with
  | zero => intro i rec; rfl
  | succ k ih =>
    intro i rec
    unfold correctionLoop
    simp only
    split_ifs
    · rfl
    · rw [ih, length_xorAt]

/-- A returning call leaves a word of the same length. -/
theorem decode_length (F : GenericGF) {received : List Nat} {twoS fuel : Nat} {b : Bool}
    {out : List Nat} (h : ReedSolomonDecode F fuel received twoS = Result.ok (b, out)) :
    out.length = received.length := by
  unfold ReedSolomonDecode at h
  simp only at h
  split_ifs at h with hall
  · rw [← (Prod.mk.inj (Result.ok.inj h)).2]
  · cases hrun : RunEuclideanAlgorithm F fuel
        (syndromeCoefficients F (GenericGFPoly.normalize received) twoS) twoS with
    | invalidArgument => rw [hrun] at h; exact absurd h (by simp)
    | runtimeError => rw [hrun] at h; exact absurd h (by simp)
    | outOfFuel => rw [hrun] at h; exact absurd h (by simp)
    | ok res =>
      rw [hrun] at h
      cases res with
      | none => rw [← (Prod.mk.inj (Result.ok.inj h)).2]
      | some so =>
        obtain ⟨sigma, omega⟩ := so
        simp only at h
        split_ifs at h with hemp
        · rw [← (Prod.mk.inj (Result.ok.inj h)).2]
        · have hout := (Prod.mk.inj (Result.ok.inj h)).2
          rw [← hout, length_correctionLoop]

end ZXing

namespace ZXing

open GenericGFPoly

/-! ## The claims -/

/-- C1: correction capacity. Over a field with generator base 0 or 1, for
every codeword `c` of length at most `size - 1` whose `twoS` syndromes are all
zero and every received word of field elements that differs from `c` in at
most `twoS / 2` places, `ReedSolomonDecode` (with an iteration budget above
`twoS + 1`) returns `true` and leaves `received` equal to `c`. -/
theorem decode_correction_capacity (F : GenericGF) (hF : F.Lawful)
    (hbase : F.generatorBase ≤ 1) (c received : List Nat) (hc : InField F c)
    (hr : InField F received) (hlen : received.length = c.length)
    (hn : c.length ≤ F.size - 1) (twoS : Nat) (hvalid : IsValidCodeword F c twoS)
    (he : hammingDistance received c ≤ twoS / 2) (fuel : Nat) (hfuel : twoS + 1 < fuel) :
    ReedSolomonDecode F fuel received twoS = Result.ok (true, c) := by
  haveI : Fact F.Lawful := ⟨hF⟩
  exact decode_corrects hbase hc hr hlen hn hvalid he hfuel

set_option maxRecDepth 1000000 in
/-- Witness for C1: the RS(15,11) codeword over the QR-code field GF(2^8),
generator base 0, `twoS = 4`, with two corrupted symbols. -/
theorem decode_correction_capacity_witness :
    hammingDistance [64, 210, 117, 18, 118, 23, 50, 6, 39, 38, 55, 243, 32, 243, 66] [64, 210, 117, 71, 118, 23, 50, 6, 39, 38, 150, 243, 32, 243, 66] = 2 ∧
    ReedSolomonDecode qrField 6 [64, 210, 117, 18, 118, 23, 50, 6, 39, 38, 55, 243, 32, 243, 66] 4 = Result.ok (true, [64, 210, 117, 71, 118, 23, 50, 6, 39, 38, 150, 243, 32, 243, 66]) :=
  ⟨by decide,
    decode_correction_capacity qrField qrField_lawful (by decide) [64, 210, 117, 71, 118, 23, 50, 6, 39, 38, 150, 243, 32, 243, 66] [64, 210, 117, 18, 118, 23, 50, 6, 39, 38, 55, 243, 32, 243, 66]
      (by decide) (by decide) (by decide) (by decide) 4 (by decide!) (by decide) 6 (by decide)⟩

set_option maxRecDepth 1000000 in
/-- C2 as stated fails: on this word of 15 symbols over the QR-code field
with `twoS = 4` the call returns `true`, and the codeword it leaves behind
has a nonzero syndrome. -/
theorem decode_true_not_valid_counterexample :
    InField qrField [183, 210, 117, 71, 118, 23, 50, 6, 39, 142, 150, 243, 11, 243, 66] ∧
    ReedSolomonDecode qrField 6 [183, 210, 117, 71, 118, 23, 50, 6, 39, 142, 150, 243, 11, 243, 66] 4 = Result.ok (true, [183, 210, 117, 71, 118, 23, 50, 6, 39, 142, 150, 243, 11, 30, 66]) ∧
    ¬ IsValidCodeword qrField [183, 210, 117, 71, 118, 23, 50, 6, 39, 142, 150, 243, 11, 30, 66] 4 := by
  decide!

/-- C2 amended: whenever the received word lies within `twoS / 2` symbol
errors of a valid codeword (length at most `size - 1`, generator base 0 or
1), `ReedSolomonDecode` returns `true` and every one of the `twoS` syndromes
of the codeword it leaves behind is zero. -/
theorem decode_true_valid_within_capacity (F : GenericGF) (hF : F.Lawful)
    (hbase : F.generatorBase ≤ 1) (c received : List Nat) (hc : InField F c)
    (hr : InField F received) (hlen : received.length = c.length)
    (hn : c.length ≤ F.size - 1) (twoS : Nat) (hvalid : IsValidCodeword F c twoS)
    (he : hammingDistance received c ≤ twoS / 2) (fuel : Nat) (hfuel : twoS + 1 < fuel) :
    ∃ out, ReedSolomonDecode F fuel received twoS = Result.ok (true, out) ∧
      ∀ k, k < twoS → syndrome F out k = 0 := by
  haveI : Fact F.Lawful := ⟨hF⟩
  exact ⟨c, decode_corrects hbase hc hr hlen hn hvalid he hfuel, hvalid⟩

set_option maxRecDepth 1000000 in
/-- Witness for C2 amended: one corrupted symbol of a three-symbol codeword
over the Aztec parameter field GF(2^4) (generator base 1), `twoS = 2`. -/
theorem decode_true_valid_within_capacity_witness :
    ∃ out, ReedSolomonDecode aztecParamField 4 [1, 12, 8] 2 = Result.ok (true, out) ∧
      ∀ k, k < 2 → syndrome aztecParamField out k = 0 :=
  decode_true_valid_within_capacity aztecParamField aztecParamField_lawful (by decide)
    [1, 6, 8] [1, 12, 8] (by decide) (by decide) (by decide) (by decide) 2 (by decide!)
    (by decide) 4 (by decide)

/-- C3: round trip without errors. For every field service, every codeword
and every `twoS` (and every iteration budget), if all `twoS` syndromes of the
codeword are zero then `ReedSolomonDecode` returns `true` and the codeword is
element for element unchanged. -/
theorem decode_roundtrip_no_errors (F : GenericGF) (fuel : Nat) (received : List Nat)
    (twoS : Nat) (h : IsValidCodeword F received twoS) :
    ReedSolomonDecode F fuel received twoS = Result.ok (true, received) :=
  decode_of_valid F fuel received twoS h

/-- Witness for C3: the RS(15,11) codeword over the QR-code field GF(2^8)
with `twoS = 4`. -/
theorem decode_roundtrip_no_errors_witness :
    IsValidCodeword qrField [64, 210, 117, 71, 118, 23, 50, 6, 39, 38, 150, 243, 32, 243, 66] 4 ∧
    ReedSolomonDecode qrField 0
        [64, 210, 117, 71, 118, 23, 50, 6, 39, 38, 150, 243, 32, 243, 66] 4
      = Result.ok (true, [64, 210, 117, 71, 118, 23, 50, 6, 39, 38, 150, 243, 32, 243, 66]) :=
  ⟨by decide!, decode_roundtrip_no_errors qrField 0 _ 4 (by decide!)⟩

set_option maxRecDepth 1000000 in
/-- C4 as stated fails for odd `twoS`: with `twoS = 3` over the QR-code field
this received word differs from the valid codeword in two places, more than
`twoS / 2 = 1`, and the call returns `true` with the codeword restored. -/
theorem capacity_boundary_odd_counterexample :
    IsValidCodeword qrField [1, 2, 3, 4, 121, 135, 250] 3 ∧
    3 / 2 < hammingDistance [0, 140, 3, 4, 121, 135, 250] [1, 2, 3, 4, 121, 135, 250] ∧
    ReedSolomonDecode qrField 5 [0, 140, 3, 4, 121, 135, 250] 3 = Result.ok (true, [1, 2, 3, 4, 121, 135, 250]) := by
  decide!

/-- C4 amended: capacity boundary for even `twoS`. For every word `c` (in
particular every valid codeword) and every received word of field elements
differing from `c` in more than `twoS / 2` places, `ReedSolomonDecode` never
returns `true` with `c` restored, whatever the iteration budget. -/
theorem capacity_boundary_even (F : GenericGF) (hF : F.Lawful) (c received : List Nat)
    (hr : InField F received) (twoS : Nat) (heven : twoS % 2 = 0)
    (hfar : twoS / 2 < hammingDistance received c) (fuel : Nat) :
    ReedSolomonDecode F fuel received twoS ≠ Result.ok (true, c) := by
  haveI : Fact F.Lawful := ⟨hF⟩
  intro h
  have := decode_modifies_le hr h
  omega

set_option maxRecDepth 1000000 in
/-- Witness for C4 amended: three corrupted symbols on the RS(15,11),
`twoS = 4` code over the QR-code field GF(2^8). -/
theorem capacity_boundary_even_witness :
    hammingDistance [65, 210, 117, 18, 118, 23, 50, 6, 39, 38, 55, 243, 32, 243, 66] [64, 210, 117, 71, 118, 23, 50, 6, 39, 38, 150, 243, 32, 243, 66] = 3 ∧
    ReedSolomonDecode qrField 6 [65, 210, 117, 18, 118, 23, 50, 6, 39, 38, 55, 243, 32, 243, 66] 4 ≠ Result.ok (true, [64, 210, 117, 71, 118, 23, 50, 6, 39, 38, 150, 243, 32, 243, 66]) :=
  ⟨by decide,
    capacity_boundary_even qrField qrField_lawful [64, 210, 117, 71, 118, 23, 50, 6, 39, 38, 150, 243, 32, 243, 66] [65, 210, 117, 18, 118, 23, 50, 6, 39, 38, 55, 243, 32, 243, 66] (by decide) 4 (by decide)
      (by decide) 6⟩

/-- C5: division correctness. For every normalized dividend `p` and every
nonzero normalized divisor `d` over the same field, `p.divide(d, quotient)`
returns (given an iteration budget above the length of `p`) and, with `r` the
remainder left in `p`, `quotient.multiply(d).addOrSubtract(r)` equals the
original `p`. -/
theorem divide_correct (F : GenericGF) (hF : F.Lawful) (p d : List Nat)
    (hp : IsNormalized p) (hfp : InField F p) (hd : IsNormalized d) (hfd : InField F d)
    (hdz : isZero d = false) (fuel : Nat) (hfuel : p.length < fuel) :
    ∃ q r, divide F fuel p d = Result.ok (q, r) ∧
      (addOrSubtract (multiply F q d) r).1 = p := by
  haveI : Fact F.Lawful := ⟨hF⟩
  obtain ⟨q, r, he, hq, hfq, hr, hfr, hpoly, -⟩ := divide_spec hp hfp hd hfd hdz hfuel
  refine ⟨q, r, he, ?_⟩
  have hm := isNormalized_multiply (F := F) q d
  have hmf := inField_multiply hfq hfd
  apply toPoly_inj (isNormalized_addOrSubtract_fst hm hr) hp
    (inField_addOrSubtract_fst hm hr hmf hfr) hfp
  rw [toPoly_addOrSubtract hm hr hmf hfr, toPoly_multiply hq hd hfq hfd, hpoly]

/-- Witness for C5, over the QR-code field. -/
theorem divide_correct_witness :
    ∃ q r, divide qrField 7 [1, 2, 3, 4, 5, 6] [7, 8, 9] = Result.ok (q, r) ∧
      (addOrSubtract (multiply qrField q [7, 8, 9]) r).1 = [1, 2, 3, 4, 5, 6] :=
  divide_correct qrField qrField_lawful [1, 2, 3, 4, 5, 6] [7, 8, 9] (by decide) (by decide)
    (by decide) (by decide) (by decide) 7 (by decide)

/-- C6 as stated fails: called twice on the same two objects, `addOrSubtract`
does not restore the receiver when the receiver is the zero polynomial (its
storage is swapped with the argument) nor when the argument is longer. -/
theorem addOrSubtract_twice_same_objects_counterexample :
    (IsNormalized [0] ∧ IsNormalized [5] ∧
      (addOrSubtract (addOrSubtract [0] [5]).1 (addOrSubtract [0] [5]).2).1 ≠ [0]) ∧
    (IsNormalized [3] ∧ IsNormalized [1, 0] ∧
      (addOrSubtract (addOrSubtract [3] [1, 0]).1 (addOrSubtract [3] [1, 0]).2).1 ≠ [3]) := by
  decide

/-- C6 amended: for normalized `a` and `b`, adding the original value of `b`
a second time restores `a`; on the same two objects (the second call receives
what the first call left in its argument) `a` is restored exactly when `b` is
the zero polynomial, or `a` is nonzero and `b` is not longer than `a`. -/
theorem addOrSubtract_twice (a b : List Nat) (ha : IsNormalized a) (hb : IsNormalized b) :
    (addOrSubtract (addOrSubtract a b).1 b).1 = a ∧
    ((addOrSubtract (addOrSubtract a b).1 (addOrSubtract a b).2).1 = a ↔
      (isZero b = true ∨ (isZero a = false ∧ b.length ≤ a.length))) := by
  refine ⟨addOrSubtract_cancel ha hb, ?_⟩
  by_cases hzb : isZero b = true
  · have hb0 := isZero_eq_of_isNormalized hb hzb
    subst hb0
    simp only [hzb, true_or, iff_true]
    by_cases hza : isZero a = true
    · have ha0 := isZero_eq_of_isNormalized ha hza
      subst ha0
      decide
    · simp [addOrSubtract, hza, hzb]
  · have hzb' : isZero b = false := by simpa using hzb
    by_cases hza : isZero a = true
    · have ha0 := isZero_eq_of_isNormalized ha hza
      subst ha0
      have h1 : addOrSubtract [0] b = (b, [0]) := by
        simp [addOrSubtract, isZero]
      rw [h1]
      have h2 : addOrSubtract b [0] = (b, [0]) := by
        unfold addOrSubtract
        rw [hzb']
        rfl
      rw [h2]
      constructor
      · intro hb0
        have hb1 : b = [0] := hb0
        rw [hb1] at hzb'
        exact absurd hzb' (by decide)
      · rintro (h | ⟨h, -⟩)
        · exact absurd h hzb
        · exact absurd h (by decide)
    · have hza' : isZero a = false := by simpa using hza
      simp only [hzb', hza', Bool.false_eq_true, false_or, true_and]
      have hg := addOrSubtract_general hza' hzb'
      by_cases hlen : b.length > a.length
      · have h2 : (addOrSubtract a b).2 = a := by rw [hg]; simp [hlen]
        rw [h2, addOrSubtract_cancel_left ha hb]
        constructor
        · intro hba
          rw [hba] at hlen
          omega
        · intro hle
          omega
      · have h2 : (addOrSubtract a b).2 = b := by rw [hg]; simp [hlen]
        rw [h2, addOrSubtract_cancel ha hb]
        simp only [true_iff]
        omega

/-- Witness for C6 amended. -/
theorem addOrSubtract_twice_witness :
    (addOrSubtract (addOrSubtract [3, 1] [7, 7, 2]).1 [7, 7, 2]).1 = [3, 1] ∧
    ((addOrSubtract (addOrSubtract [3, 1] [7, 7, 2]).1 (addOrSubtract [3, 1] [7, 7, 2]).2).1
        = [3, 1] ↔
      (isZero [7, 7, 2] = true ∨ (isZero [3, 1] = false ∧ [7, 7, 2].length ≤ [3, 1].length))) :=
  addOrSubtract_twice [3, 1] [7, 7, 2] (by decide) (by decide)

/-- C7: normalization invariant. If the operands are normalized then after
each of `addOrSubtract`, `multiply`, `multiplyByMonomial`, `divide` and
`normalize` the receiver is again normalized, and so are the argument of
`addOrSubtract` and the quotient produced by `divide` (for `divide`: over a
field, with a nonzero divisor and a budget above the dividend's length, the
call returns and both results are normalized). -/
theorem normalization_invariant (F : GenericGF) (a b : List Nat) (ha : IsNormalized a)
    (hb : IsNormalized b) (degree coefficient : Nat) :
    IsNormalized (addOrSubtract a b).1 ∧ IsNormalized (addOrSubtract a b).2 ∧
    IsNormalized (multiply F a b) ∧
    IsNormalized (multiplyByMonomial F a degree coefficient) ∧
    IsNormalized (GenericGFPoly.normalize a) ∧
    (F.Lawful → InField F a → InField F b → isZero b = false → ∀ fuel, a.length < fuel →
      ∃ q r, divide F fuel a b = Result.ok (q, r) ∧ IsNormalized q ∧ IsNormalized r) := by
  refine ⟨isNormalized_addOrSubtract_fst ha hb, isNormalized_addOrSubtract_snd ha hb,
    isNormalized_multiply a b, isNormalized_multiplyByMonomial ha.1 _ _,
    isNormalized_normalize ha.1, ?_⟩
  intro hF hfa hfb hbz fuel hfuel
  haveI : Fact F.Lawful := ⟨hF⟩
  obtain ⟨q, r, he, hq, -, hr, -, -, -⟩ := divide_spec ha hfa hb hfb hbz hfuel
  exact ⟨q, r, he, hq, hr⟩

/-- Witness for C7, over the QR-code field. -/
theorem normalization_invariant_witness :
    IsNormalized (addOrSubtract [1, 2, 3, 4, 5, 6] [7, 8, 9]).1 ∧
    IsNormalized (addOrSubtract [1, 2, 3, 4, 5, 6] [7, 8, 9]).2 ∧
    IsNormalized (multiply qrField [1, 2, 3, 4, 5, 6] [7, 8, 9]) ∧
    IsNormalized (multiplyByMonomial qrField [1, 2, 3, 4, 5, 6] 3 0) ∧
    IsNormalized (GenericGFPoly.normalize [1, 2, 3, 4, 5, 6]) ∧
    (qrField.Lawful → InField qrField [1, 2, 3, 4, 5, 6] → InField qrField [7, 8, 9] →
      isZero [7, 8, 9] = false → ∀ fuel, [1, 2, 3, 4, 5, 6].length < fuel →
      ∃ q r, divide qrField fuel [1, 2, 3, 4, 5, 6] [7, 8, 9] = Result.ok (q, r) ∧
        IsNormalized q ∧ IsNormalized r) :=
  normalization_invariant qrField [1, 2, 3, 4, 5, 6] [7, 8, 9] (by decide) (by decide) 3 0

/-- C8: `a.addOrSubtract(b)` computes the field sum. For normalized `a` and
`b` the resulting receiver is the normalization of the coefficient-wise
exclusive-or of `a` and `b` aligned at the constant-term end, and it is the
same whichever operand is the receiver. -/
theorem addOrSubtract_is_aligned_xor (a b : List Nat) (ha : IsNormalized a)
    (hb : IsNormalized b) :
    (addOrSubtract a b).1 = GenericGFPoly.normalize (xorAligned a b) ∧
    (addOrSubtract a b).1 = (addOrSubtract b a).1 :=
  ⟨addOrSubtract_fst_eq ha hb, addOrSubtract_fst_comm ha hb⟩

/-- Witness for C8. -/
theorem addOrSubtract_is_aligned_xor_witness :
    (addOrSubtract [6, 1, 4] [6, 1, 9]).1
        = GenericGFPoly.normalize (xorAligned [6, 1, 4] [6, 1, 9]) ∧
    (addOrSubtract [6, 1, 4] [6, 1, 9]).1 = (addOrSubtract [6, 1, 9] [6, 1, 4]).1 :=
  addOrSubtract_is_aligned_xor [6, 1, 4] [6, 1, 9] (by decide) (by decide)

/-- C9: `multiply` is polynomial convolution. For nonzero normalized `a` and
`b` over a field, `a.multiply(b)` has exactly `len(a) + len(b) - 1`
coefficients and its coefficient at index `k` is the exclusive-or of
`field.multiply(a[i], b[j])` over all `i + j = k`; if either operand is the
zero polynomial the result is `[0]`. -/
theorem multiply_is_convolution (F : GenericGF) (hF : F.Lawful) (a b : List Nat)
    (ha : IsNormalized a) (hb : IsNormalized b) (hfa : InField F a) (hfb : InField F b) :
    (isZero a = false → isZero b = false →
      (multiply F a b).length = a.length + b.length - 1 ∧
      ∀ k, k < a.length + b.length - 1 → (multiply F a b).getD k 0 = convCoeff F a b k) ∧
    (isZero a = true ∨ isZero b = true → multiply F a b = [0]) := by
  constructor
  · intro hza hzb
    rw [multiply_of_nonzero F hF ha hb hfa hfb hza hzb]
    exact ⟨length_multiplyLoop F a b, fun k hk => getD_multiplyLoop F a b k hk⟩
  · intro hz
    unfold multiply
    rcases hz with hz | hz <;> simp [hz, setMonomial]

/-- Witness for C9, over the QR-code field. -/
theorem multiply_is_convolution_witness :
    (isZero [3, 1] = false → isZero [1, 2, 7] = false →
      (multiply qrField [3, 1] [1, 2, 7]).length = [3, 1].length + [1, 2, 7].length - 1 ∧
      ∀ k, k < [3, 1].length + [1, 2, 7].length - 1 →
        (multiply qrField [3, 1] [1, 2, 7]).getD k 0 = convCoeff qrField [3, 1] [1, 2, 7] k) ∧
    (isZero [3, 1] = true ∨ isZero [1, 2, 7] = true → multiply qrField [3, 1] [1, 2, 7] = [0]) :=
  multiply_is_convolution qrField qrField_lawful [3, 1] [1, 2, 7] (by decide) (by decide)
    (by decide) (by decide)

/-- C10: `multiplyByMonomial` agrees with `multiply`. For every normalized
polynomial `p`, every degree `d` and every coefficient `c` (including
`c = 0`), `p.multiplyByMonomial(d, c)` equals `p.multiply(m)` where `m` is
the vector built by `setMonomial(c, d)`; the only field facts used are that a
product with `0` is `0`. -/
theorem multiplyByMonomial_eq_multiply (F : GenericGF) (hz : ∀ x, F.multiply x 0 = 0)
    (hz' : ∀ x, F.multiply 0 x = 0) (p : List Nat) (hp : IsNormalized p) (d c : Nat) :
    multiplyByMonomial F p d c = multiply F p (setMonomial c d) :=
  multiplyByMonomial_eq_multiply_aux F hz hz' p hp d c

/-- Witness for C10, over the QR-code field. -/
theorem multiplyByMonomial_eq_multiply_witness :
    multiplyByMonomial qrField [3, 0, 1] 2 5 = multiply qrField [3, 0, 1] (setMonomial 5 2) :=
  multiplyByMonomial_eq_multiply qrField qrField_lawful.mul_zero qrField_lawful.zero_mul
    [3, 0, 1] (by decide) 2 5

end ZXing

namespace ZXing

open GenericGFPoly

/-- C11: `divide` throws exactly when the divisor is the zero polynomial.
For every field service, budget and contents of the receiver, the divisor and
the `quotient` argument: the call ends in an exception if and only if
`other.isZero()` (for a normalized divisor: if and only if it is `[0]`), and
then the receiver and the `quotient` argument hold what they held before the
call; over a field, with normalized operands, a nonzero divisor and a budget
for `degree(self) - degree(other) + 1` iterations, the call returns. -/
theorem divide_raises_iff_zero_divisor (F : GenericGF) (fuel : Nat)
    (self other quotient : List Nat) :
    (((divideInPlace F fuel self other quotient).1 = Result.invalidArgument ∨
        (divideInPlace F fuel self other quotient).1 = Result.runtimeError)
      ↔ isZero other = true) ∧
    (IsNormalized other → (isZero other = true ↔ other = [0])) ∧
    (isZero other = true →
      divideInPlace F fuel self other quotient = (Result.invalidArgument, self, quotient)) ∧
    (divide F fuel self other = Result.invalidArgument ↔ isZero other = true) ∧
    (F.Lawful → IsNormalized self → InField F self → IsNormalized other → InField F other →
      isZero other = false →
      GenericGFPoly.degree self + 1 - GenericGFPoly.degree other < fuel →
      (divideInPlace F fuel self other quotient).1 = Result.ok ()) := by
  have hthrow : isZero other = true →
      divideInPlace F fuel self other quotient = (Result.invalidArgument, self, quotient) := by
    intro hz
    unfold divideInPlace
    rw [if_pos hz]
  have hloop := divideLoop_ne_throw F other
    (F.inverse (coefficient other (GenericGFPoly.degree other))) fuel (setMonomial 0) self
  refine ⟨⟨?_, fun hz => Or.inl (by rw [hthrow hz])⟩, ?_, hthrow, ⟨?_, ?_⟩, ?_⟩
  · intro h
    by_contra hz
    rw [divideInPlace_eq] at h
    unfold divide at h
    rw [if_neg hz] at h
    cases hd : divideLoop F other (F.inverse (coefficient other (GenericGFPoly.degree other)))
        fuel (setMonomial 0) self with
    | ok p => rw [hd] at h; simp at h
    | invalidArgument => exact hloop.1 hd
    | runtimeError => exact hloop.2 hd
    | outOfFuel => rw [hd] at h; simp at h
  · intro hn
    constructor
    · exact isZero_eq_of_isNormalized hn
    · intro h; rw [h]; rfl
  · intro h
    by_contra hz
    unfold divide at h
    rw [if_neg hz] at h
    exact hloop.1 h
  · intro hz
    unfold divide
    rw [if_pos hz]
  · intro hF hs hfs ho hfo hz hfuel
    haveI : Fact F.Lawful := ⟨hF⟩
    obtain ⟨q, r, he, -⟩ := divide_spec_sharp hs hfs ho hfo hz hfuel
    rw [divideInPlace_eq, he]

/-- C12: the `evaluateAt` shortcuts are sound. For every non-empty vector of
field elements, given only `multiply(0, y) = 0` and `multiply(1, y) = y` on
field elements (and that the exclusive-or of two field elements is one),
`evaluateAt(0)`, the constant term, and `evaluateAt(1)`, the exclusive-or of
all coefficients, equal what the general left-to-right Horner fold returns
for `x = 0` and `x = 1`; so `evaluateAt` is that fold at every point. -/
theorem evaluateAt_shortcuts_sound (F : GenericGF)
    (h0 : ∀ y, y < F.size → F.multiply 0 y = 0) (h1 : ∀ y, y < F.size → F.multiply 1 y = y)
    (hx : ∀ a b, a < F.size → b < F.size → a ^^^ b < F.size)
    (c : List Nat) (hne : c ≠ []) (hc : InField F c) :
    evaluateAt F c 0 = coefficient c 0 ∧
    evaluateAt F c 1 = c.foldl (fun x y => x ^^^ y) 0 ∧
    evaluateAt F c 0 = hornerFold F c 0 ∧
    evaluateAt F c 1 = hornerFold F c 1 ∧
    ∀ x, evaluateAt F c x = hornerFold F c x := by
  refine ⟨rfl, rfl, evaluateAt_zero_eq_hornerFold F h0 hne hc,
    evaluateAt_one_eq_hornerFold F h1 hx hne hc, ?_⟩
  intro x
  by_cases hx0 : x = 0
  · rw [hx0]; exact evaluateAt_zero_eq_hornerFold F h0 hne hc
  · by_cases hx1 : x = 1
    · rw [hx1]; exact evaluateAt_one_eq_hornerFold F h1 hx hne hc
    · exact evaluateAt_eq_hornerFold_of_ne F c hx0 hx1

/-- Witness for C12, over the QR-code field. -/
theorem evaluateAt_shortcuts_sound_witness :
    evaluateAt qrField [7, 0, 19, 255] 0 = coefficient [7, 0, 19, 255] 0 ∧
    evaluateAt qrField [7, 0, 19, 255] 1 = [7, 0, 19, 255].foldl (fun x y => x ^^^ y) 0 ∧
    evaluateAt qrField [7, 0, 19, 255] 0 = hornerFold qrField [7, 0, 19, 255] 0 ∧
    evaluateAt qrField [7, 0, 19, 255] 1 = hornerFold qrField [7, 0, 19, 255] 1 ∧
    ∀ x, evaluateAt qrField [7, 0, 19, 255] x = hornerFold qrField [7, 0, 19, 255] x :=
  evaluateAt_shortcuts_sound qrField (fun y _ => qrField_lawful.zero_mul y)
    (fun y hy => by
      rw [qrField_lawful.mul_comm 1 y qrField_lawful.one_lt_size hy]
      exact qrField_lawful.mul_one y hy)
    qrField_lawful.xor_lt [7, 0, 19, 255] (by decide) (by decide)

/-- C13: `normalize` is idempotent. For every coefficient vector `c` (in
particular every non-empty one), `normalize(normalize(c)) = normalize(c)`; an
already normalized vector `n` is left unchanged; and every non-empty vector
`z` of zeros only becomes the single coefficient `[0]`. -/
theorem normalize_idempotent (c n z : List Nat) (hn : IsNormalized n)
    (hz : z ≠ []) (hz0 : ∀ x ∈ z, x = 0) :
    GenericGFPoly.normalize (GenericGFPoly.normalize c) = GenericGFPoly.normalize c ∧
    GenericGFPoly.normalize n = n ∧
    GenericGFPoly.normalize z = [0] :=
  ⟨normalize_idem c, normalize_of_isNormalized hn, normalize_of_all_zero hz hz0⟩

/-- Witness for C13: a vector with two leading zeros, a normalized vector and
a vector of three zeros. -/
theorem normalize_idempotent_witness :
    GenericGFPoly.normalize (GenericGFPoly.normalize [0, 0, 5, 0, 3])
      = GenericGFPoly.normalize [0, 0, 5, 0, 3] ∧
    GenericGFPoly.normalize [5, 0, 3] = [5, 0, 3] ∧
    GenericGFPoly.normalize [0, 0, 0] = [0] :=
  normalize_idempotent [0, 0, 5, 0, 3] [5, 0, 3] [0, 0, 0] (by decide) (by decide) (by decide)

set_option maxRecDepth 1000000 in
/-- C14 fails on the code for `twoS = 1`: on the three-symbol word `[3, 7, 5]`
over the QR-code field, whose one syndrome is nonzero, `ReedSolomonDecode`
ends in the exception of the degree check; and so it does over every field
for every word with a nonzero syndrome, because the first division leaves the
zero remainder, whose degree `0` is not below the degree `0` of the constant
divisor.  With any other syndrome count the call returns a flag. -/
theorem degree_check_fails_for_one_syndrome :
    (InField qrField [3, 7, 5] ∧ syndrome qrField [3, 7, 5] 0 = 1 ∧
      ReedSolomonDecode qrField 3 [3, 7, 5] 1 = Result.runtimeError) ∧
    (∀ (F : GenericGF) (received : List Nat) (fuel : Nat), F.Lawful → InField F received →
      syndrome F received 0 ≠ 0 → 3 ≤ fuel →
      ReedSolomonDecode F fuel received 1 = Result.runtimeError) ∧
    (∀ (F : GenericGF) (received : List Nat) (twoS fuel : Nat), F.Lawful →
      InField F received → twoS ≠ 1 → twoS + 1 < fuel →
      ∃ b out, ReedSolomonDecode F fuel received twoS = Result.ok (b, out)) := by
  refine ⟨by decide!, ?_, ?_⟩
  · intro F received fuel hF hr hs hfuel
    haveI : Fact F.Lawful := ⟨hF⟩
    exact decode_one_syndrome hr hs hfuel
  · intro F received twoS fuel hF hr hR hfuel
    haveI : Fact F.Lawful := ⟨hF⟩
    exact decode_total hr hR hfuel

set_option maxRecDepth 1000000 in
/-- C15 as stated fails for odd `R`: for the three syndromes of the word
`[0, 140, 3, 4, 121, 135, 250]` over the QR-code field, `R = 3`, the call
returns `true` with a locator of degree 2, above `R / 2 = 1`. -/
theorem euclid_sigma_degree_odd_counterexample :
    syndromeCoefficients qrField (GenericGFPoly.normalize [0, 140, 3, 4, 121, 135, 250]) 3
      = [247, 80, 143] ∧
    RunEuclideanAlgorithm qrField 5 [247, 80, 143] 3
      = Result.ok (some ([232, 96, 1], [143])) ∧
    3 / 2 < GenericGFPoly.degree [232, 96, 1] := by
  decide!

/-- C15 amended: whenever `RunEuclideanAlgorithm` returns `true` for a
non-empty syndrome vector `S` of at most `R` field elements, the outputs
satisfy `sigma(0) = 1`, there is a polynomial `u` with
`sigma * S + u * x^R = omega`, `degree(omega) < R / 2`, and
`degree(sigma) <= R - R / 2`, which is `R / 2` for even `R`. -/
theorem euclid_key_equation (F : GenericGF) (hF : F.Lawful) (S : List Nat)
    (hS : InField F S) (hne : S ≠ []) (R : Nat) (hlen : S.length ≤ R) (fuel : Nat)
    (sigma omega : List Nat)
    (h : RunEuclideanAlgorithm F fuel S R = Result.ok (some (sigma, omega))) :
    coefficient sigma 0 = 1 ∧ evaluateAt F sigma 0 = 1 ∧
    (∃ u : List Nat, IsNormalized u ∧ InField F u ∧
      (addOrSubtract (multiply F sigma (GenericGFPoly.normalize S))
        (multiply F u (setMonomial 1 R))).1 = omega) ∧
    GenericGFPoly.degree omega < R / 2 ∧
    GenericGFPoly.degree sigma ≤ R - R / 2 ∧
    (R % 2 = 0 → GenericGFPoly.degree sigma ≤ R / 2) := by
  haveI : Fact F.Lawful := ⟨hF⟩
  obtain ⟨hns, hfs, hno, hfo, hc0, hds, hdo, u, hu, -⟩ := runEuclid_partial_le hS hne hlen h
  rw [natDegree_toPoly hns hfs] at hds
  rw [natDegree_toPoly hno hfo] at hdo
  have hcoef : coefficient sigma 0 = 1 := by
    rw [coefficient_zero_eq _ hns.1]
    apply toElem_inj (coeffAt_lt hfs 0) hF.one_lt_size
    rw [← coeff_toPoly, hc0, toElem_one]
  refine ⟨hcoef, ?_, key_equation_list hS hne hns hfs hno hfo hu, hdo, hds, ?_⟩
  · unfold evaluateAt
    rw [if_pos rfl]
    exact hcoef
  · intro heven
    omega

set_option maxRecDepth 1000000 in
/-- Witness for C15 amended: four syndromes over the QR-code field. -/
theorem euclid_key_equation_witness :
    coefficient [113, 73, 1] 0 = 1 ∧ evaluateAt qrField [113, 73, 1] 0 = 1 ∧
    (∃ u : List Nat, IsNormalized u ∧ InField qrField u ∧
      (addOrSubtract (multiply qrField [113, 73, 1] (GenericGFPoly.normalize [1, 2, 3, 4]))
        (multiply qrField u (setMonomial 1 4))).1 = [58, 4]) ∧
    GenericGFPoly.degree [58, 4] < 4 / 2 ∧
    GenericGFPoly.degree [113, 73, 1] ≤ 4 - 4 / 2 ∧
    (4 % 2 = 0 → GenericGFPoly.degree [113, 73, 1] ≤ 4 / 2) :=
  euclid_key_equation qrField qrField_lawful [1, 2, 3, 4] (by decide) (by decide) 4
    (by decide) 6 [113, 73, 1] [58, 4] (by decide!)

set_option maxRecDepth 1000000 in
/-- C16 as stated fails for generator base 2: over GF(2^4) taken with
generator base 2, for the single location `2` with error value `1`, the true
evaluator is the constant `4` and `FindErrorMagnitudes` returns `2`, not the
value `1`. -/
theorem forney_base_two_counterexample :
    fieldCheck gf16Base2Field 4 = true ∧ gf16Base2Field.generatorBase = 2 ∧
    trueEvaluator gf16Base2Field 2 [2] [1] = [4] ∧
    FindErrorMagnitudes gf16Base2Field (trueEvaluator gf16Base2Field 2 [2] [1]) [2] = [2] ∧
    FindErrorMagnitudes gf16Base2Field (trueEvaluator gf16Base2Field 2 [2] [1]) [2] ≠ [1] := by
  decide!

/-- C16 amended: the Forney step recovers the true magnitudes for generator
base 0 and 1. Over a field with `generatorBase <= 1`, for every list of
distinct nonzero locations `X_1..X_s` and every list of error values
`e_1..e_s`, if `omega` is the true evaluator
`sum_k e_k * X_k^g * prod_{j != k} (1 + X_j x)` with `g = generatorBase`, then
`FindErrorMagnitudes(field, omega, X)` returns exactly `e_1..e_s`. -/
theorem forney_recovers_magnitudes (F : GenericGF) (hF : F.Lawful)
    (hbase : F.generatorBase ≤ 1) (locations values : List Nat) (hl : InField F locations)
    (hl0 : ∀ x ∈ locations, x ≠ 0) (hnd : locations.Nodup) (hv : InField F values)
    (hlen : values.length = locations.length) :
    FindErrorMagnitudes F (trueEvaluator F F.generatorBase locations values) locations
      = values := by
  haveI : Fact F.Lawful := ⟨hF⟩
  obtain ⟨hn, hf, hp⟩ := toPoly_trueEvaluator hl hl0 hv F.generatorBase
  exact findErrorMagnitudes_of_evaluator hbase hl hl0 hnd hv hlen hn.1 hf hp

/-- Witness for C16 amended: three locations over the Aztec parameter field
GF(2^4), generator base 1. -/
theorem forney_recovers_magnitudes_witness :
    FindErrorMagnitudes aztecParamField
        (trueEvaluator aztecParamField aztecParamField.generatorBase [2, 3, 9] [1, 7, 4])
        [2, 3, 9]
      = [1, 7, 4] :=
  forney_recovers_magnitudes aztecParamField aztecParamField_lawful (by decide) [2, 3, 9]
    [1, 7, 4] (by decide) (by decide) (by decide) (by decide) (by decide)

/-- C17: `divide` terminates with a proper remainder. For every normalized
dividend `p` and nonzero normalized divisor `d` over a field: each loop
iteration leaves a remainder that is zero or of strictly smaller degree; the
loop ends after at most `max(0, degree(p) - degree(d) + 1)` iterations (a
budget of one more evaluation of the loop condition than that is enough);
and on return the remainder is zero or of degree below `degree(d)`. -/
theorem divide_terminates (F : GenericGF) (hF : F.Lawful) (p d : List Nat)
    (hp : IsNormalized p) (hfp : InField F p) (hd : IsNormalized d) (hfd : InField F d)
    (hdz : isZero d = false) :
    (∀ rem, IsNormalized rem → InField F rem → isZero rem = false →
      GenericGFPoly.degree rem ≥ GenericGFPoly.degree d →
      isZero (addOrSubtract rem (multiplyByMonomial F d
          (GenericGFPoly.degree rem - GenericGFPoly.degree d)
          (F.multiply (coefficient rem (GenericGFPoly.degree rem))
            (F.inverse (coefficient d (GenericGFPoly.degree d)))))).1 = true ∨
        GenericGFPoly.degree (addOrSubtract rem (multiplyByMonomial F d
          (GenericGFPoly.degree rem - GenericGFPoly.degree d)
          (F.multiply (coefficient rem (GenericGFPoly.degree rem))
            (F.inverse (coefficient d (GenericGFPoly.degree d)))))).1
          < GenericGFPoly.degree rem) ∧
    (∀ fuel, GenericGFPoly.degree p + 1 - GenericGFPoly.degree d < fuel →
      ∃ q r, divide F fuel p d = Result.ok (q, r) ∧
        (isZero r = true ∨ GenericGFPoly.degree r < GenericGFPoly.degree d)) := by
  haveI : Fact F.Lawful := ⟨hF⟩
  constructor
  · intro rem hr hfr hrz hdeg
    obtain ⟨-, -, hn', -, -, hdec⟩ := divide_step hd hfd hdz hr hfr hrz hdeg
    rcases hdec with h | h
    · exact Or.inl h
    · exact Or.inr (degree_lt_of_length_lt hn'.1 h)
  · intro fuel hfuel
    obtain ⟨q, r, he, -, -, -, -, -, hrem⟩ := divide_spec_sharp hp hfp hd hfd hdz hfuel
    exact ⟨q, r, he, hrem⟩

/-- Witness for C17, over the QR-code field: a dividend of degree 5 and a
divisor of degree 2, with the budget for four iterations. -/
theorem divide_terminates_witness :
    ∃ q r, divide qrField 5 [1, 2, 3, 4, 5, 6] [7, 8, 9] = Result.ok (q, r) ∧
      (isZero r = true ∨ GenericGFPoly.degree r < GenericGFPoly.degree [7, 8, 9]) :=
  (divide_terminates qrField qrField_lawful [1, 2, 3, 4, 5, 6] [7, 8, 9] (by decide)
    (by decide) (by decide) (by decide) (by decide)).2 5 (by decide)

/-- C18: the Euclidean loop terminates after at most `twoS` iterations.
Over a field, for every non-empty syndrome vector of at most `twoS` field
elements and a division budget above `twoS + 1`, the loop of
`RunEuclideanAlgorithm` started on `(x^twoS, S)` ends, by a return or by the
exception of the degree check, within every budget above `degree(S)`, because
each pass that goes on has lowered `degree(r)`; in particular within `twoS`
iterations (a budget of `twoS + 1` evaluations of the loop condition), and
`RunEuclideanAlgorithm` itself ends within every budget above `twoS + 1`. -/
theorem euclid_loop_terminates (F : GenericGF) (hF : F.Lawful) (S : List Nat)
    (hS : InField F S) (hne : S ≠ []) (twoS : Nat) (hlen : S.length ≤ twoS) (divFuel : Nat)
    (hdf : twoS + 1 < divFuel) :
    (∀ fuel, GenericGFPoly.degree (GenericGFPoly.normalize S) < fuel →
      (∃ res, euclidLoop F divFuel twoS fuel
          ⟨setMonomial 1 twoS, GenericGFPoly.normalize S, setMonomial 0, setMonomial 1⟩
          = Result.ok res) ∨
        euclidLoop F divFuel twoS fuel
          ⟨setMonomial 1 twoS, GenericGFPoly.normalize S, setMonomial 0, setMonomial 1⟩
          = Result.runtimeError) ∧
    GenericGFPoly.degree (GenericGFPoly.normalize S) < twoS ∧
    ((∃ res, euclidLoop F divFuel twoS (twoS + 1)
        ⟨setMonomial 1 twoS, GenericGFPoly.normalize S, setMonomial 0, setMonomial 1⟩
        = Result.ok res) ∨
      euclidLoop F divFuel twoS (twoS + 1)
        ⟨setMonomial 1 twoS, GenericGFPoly.normalize S, setMonomial 0, setMonomial 1⟩
        = Result.runtimeError) ∧
    ((∃ res, RunEuclideanAlgorithm F divFuel S twoS = Result.ok res) ∨
      RunEuclideanAlgorithm F divFuel S twoS = Result.runtimeError) := by
  haveI : Fact F.Lawful := ⟨hF⟩
  have inv0 := euclid_init_le hS hne hlen
  have hdeg := degree_normalize_lt hS hne hlen
  have hgen := euclidLoop_terminates (F := F) (S := toPoly F S) hdf
  refine ⟨fun fuel hfuel => hgen fuel _ inv0 hfuel, hdeg,
    hgen (twoS + 1) _ inv0 (Nat.lt_succ_of_lt hdeg), ?_⟩
  rw [runEuclid_unfold hdeg]
  rcases hgen divFuel _ inv0 (by show GenericGFPoly.degree (GenericGFPoly.normalize S) < divFuel; omega) with ⟨res, h⟩ | h
  · rw [h]
    left
    cases res with
    | none => exact ⟨_, rfl⟩
    | some s =>
      simp only
      split_ifs
      · exact ⟨_, rfl⟩
      · exact ⟨_, rfl⟩
  · rw [h]
    exact Or.inr rfl

/-- Witness for C18: four syndromes over the QR-code field. -/
theorem euclid_loop_terminates_witness :
    (∃ res, euclidLoop qrField 6 4 (4 + 1)
        ⟨setMonomial 1 4, GenericGFPoly.normalize [1, 2, 3, 4], setMonomial 0, setMonomial 1⟩
        = Result.ok res) ∨
      euclidLoop qrField 6 4 (4 + 1)
        ⟨setMonomial 1 4, GenericGFPoly.normalize [1, 2, 3, 4], setMonomial 0, setMonomial 1⟩
        = Result.runtimeError :=
  (euclid_loop_terminates qrField qrField_lawful [1, 2, 3, 4] (by decide) (by decide) 4
    (by decide) 6 (by decide)).2.2.1

set_option maxRecDepth 1000000 in
/-- C19 as stated fails when the locator has degree 0: for the word `[1, 4]`
over the Aztec parameter field with `twoS = 2` the syndromes are `[0, 6]`, the
Euclidean stage returns the locator `[1]`, the search finds exactly
`numErrors = 0` roots, and `ReedSolomonDecode` still returns `false`. -/
theorem chien_no_errors_counterexample :
    syndromeCoefficients aztecParamField (GenericGFPoly.normalize [1, 4]) 2 = [0, 6] ∧
    RunEuclideanAlgorithm aztecParamField 4 [0, 6] 2 = Result.ok (some ([1], [6])) ∧
    (chienLoop aztecParamField [1] (GenericGFPoly.degree [1])).length
      = GenericGFPoly.degree [1] ∧
    FindErrorLocations aztecParamField [1] = [] ∧
    ReedSolomonDecode aztecParamField 4 [1, 4] 2 = Result.ok (false, [1, 4]) := by
  decide!

/-- C19 amended: the Chien stage. With `numErrors = degree(sigma)`, the search
collects `field.inverse(i)` for the first `numErrors` roots `i` of `sigma`
among `1 .. size - 1` in increasing order, each with
`sigma.evaluateAt(i) = 0`; it makes `ReedSolomonDecode` return `false` (with
the codeword untouched) if and only if the number of roots found differs from
`numErrors` or `numErrors = 0`; otherwise the locations used are exactly the
collected ones. -/
theorem chien_stage (F : GenericGF) (sigma : List Nat) :
    chienLoop F sigma (GenericGFPoly.degree sigma)
      = ((chienRoots F sigma).take (GenericGFPoly.degree sigma)).map F.inverse ∧
    (∀ i ∈ chienRoots F sigma, 1 ≤ i ∧ i < F.size ∧ evaluateAt F sigma i = 0) ∧
    ((FindErrorLocations F sigma).isEmpty = true ↔
      ((chienLoop F sigma (GenericGFPoly.degree sigma)).length ≠ GenericGFPoly.degree sigma ∨
        GenericGFPoly.degree sigma = 0)) ∧
    ((FindErrorLocations F sigma).isEmpty = false →
      FindErrorLocations F sigma
        = ((chienRoots F sigma).take (GenericGFPoly.degree sigma)).map F.inverse) ∧
    (∀ (fuel twoS : Nat) (received omega : List Nat),
      (syndromeCoefficients F (GenericGFPoly.normalize received) twoS).all
        (fun c => c == 0) = false →
      RunEuclideanAlgorithm F fuel
        (syndromeCoefficients F (GenericGFPoly.normalize received) twoS) twoS
          = Result.ok (some (sigma, omega)) →
      ReedSolomonDecode F fuel received twoS =
        if (FindErrorLocations F sigma).isEmpty then Result.ok (false, received)
        else Result.ok (correctionLoop F (FindErrorLocations F sigma)
          (FindErrorMagnitudes F omega (FindErrorLocations F sigma)) received.length
          (FindErrorLocations F sigma).length 0 received)) :=
  ⟨chienLoop_eq_roots F sigma _, fun _ hi => mem_chienRoots hi,
    findErrorLocations_isEmpty_iff F sigma, findErrorLocations_of_nonempty F sigma,
    fun _ _ _ _ hall hrun => decode_after_euclid F hall hrun⟩

set_option maxRecDepth 1000000 in
/-- C20 as stated fails for odd `twoS`: with `twoS = 3` over the Aztec
parameter field the call on `[6, 14, 8, 15, 12, 10]` returns `true` and the
codeword afterwards differs from the codeword before in two positions, more
than `twoS / 2 = 1`. -/
theorem decode_modifies_odd_counterexample :
    ReedSolomonDecode aztecParamField 5 [6, 14, 8, 15, 12, 10] 3
      = Result.ok (true, [6, 4, 2, 15, 12, 10]) ∧
    3 / 2 < hammingDistance [6, 14, 8, 15, 12, 10] [6, 4, 2, 15, 12, 10] := by
  decide!

/-- C20 amended: bounded modification. Over a field, on every call of
`ReedSolomonDecode` that returns (`true` or `false`), the codeword afterwards
has the length of the codeword before and differs from it in at most
`twoS - twoS / 2` positions, which is `twoS / 2` for even `twoS`; and the call
does return whenever `twoS` is not `1` and the budget is above `twoS + 1`. -/
theorem decode_bounded_modification (F : GenericGF) (hF : F.Lawful) (received : List Nat)
    (hr : InField F received) (twoS fuel : Nat) :
    (∀ b out, ReedSolomonDecode F fuel received twoS = Result.ok (b, out) →
      out.length = received.length ∧
      hammingDistance received out ≤ twoS - twoS / 2 ∧
      (twoS % 2 = 0 → hammingDistance received out ≤ twoS / 2)) ∧
    (twoS ≠ 1 → twoS + 1 < fuel →
      ∃ b out, ReedSolomonDecode F fuel received twoS = Result.ok (b, out)) := by
  haveI : Fact F.Lawful := ⟨hF⟩
  refine ⟨?_, fun hR hfuel => decode_total hr hR hfuel⟩
  intro b out h
  have hle := decode_modifies_le hr h
  refine ⟨decode_length F h, hle, ?_⟩
  intro heven
  omega

set_option maxRecDepth 1000000 in
/-- Witness for C20 amended: the RS(15,11) code over the QR-code field,
`twoS = 4`, on a word with three corrupted symbols. -/
theorem decode_bounded_modification_witness :
    ∃ b out, ReedSolomonDecode qrField 6 [65, 210, 117, 18, 118, 23, 50, 6, 39, 38, 55, 243, 32, 243, 66] 4 = Result.ok (b, out) ∧
      out.length = [65, 210, 117, 18, 118, 23, 50, 6, 39, 38, 55, 243, 32, 243, 66].length ∧
      hammingDistance [65, 210, 117, 18, 118, 23, 50, 6, 39, 38, 55, 243, 32, 243, 66] out ≤ 4 / 2 := by
  have h := decode_bounded_modification qrField qrField_lawful
    [65, 210, 117, 18, 118, 23, 50, 6, 39, 38, 55, 243, 32, 243, 66] (by decide) 4 6
  obtain ⟨b, out, hd⟩ := h.2 (by decide) (by decide)
  obtain ⟨h1, -, h3⟩ := h.1 b out hd
  exact ⟨b, out, hd, h1, h3 (by decide)⟩

end ZXing
